import Mathlib

/-!
# go-rbtree: a red-black tree with parent pointers

Shallow embedding of `rbtree.go`.  The Go program works on heap cells linked by
pointers (`left`, `right`, `parent`), so the embedding keeps an explicit node
store: a `*Node` is `Option Nat` (`none` is the Go `nil`, `some a` is the cell at
index `a` of the store), and every operation passes the tree state explicitly.
An operation returns `Res.panic` exactly where the Go code would dereference
`nil` (a run-time panic), `Res.diverge` when its recursion budget runs out, and
otherwise `Res.ok` of the new state and/or the result.
-/

namespace GoRBTree
/-! ## Data model (rbtree.go, lines 26-65) -/

/-- Go `type Color int8`, with `RED = 0` and `BLACK = 1`. -/
inductive Color where
  | RED
  | BLACK
  deriving DecidableEq, Repr

/-- The numeric value of a colour, as used by `int(cur.color)`. -/
def Color.toInt : Color → Int
  | Color.RED => 0
  | Color.BLACK => 1

/-- Go `type Direction int8`, with `LEFT = 1`, `RIGHT = 2`, `NODIR = 0`. -/
inductive Direction where
  | NODIR
  | LEFT
  | RIGHT
  deriving DecidableEq, Repr

/-- The two error values declared by the package. -/
inductive Err where
  | ErrNilKey
  | ErrUnvalidKey
  deriving DecidableEq, Repr

/-- A Go `*Node`: `none` is `nil`, `some a` points at cell `a` of the store. -/
abbrev Ptr := Option Nat

/-- Go `type Node struct`. -/
structure Node (K V : Type) where
  key : K
  payload : V
  color : Color
  left : Ptr
  right : Ptr
  parent : Ptr

/-- Go `type Tree struct`, together with the store holding the node cells. -/
structure Tree (K V : Type) where
  root : Ptr
  cmp : K → K → Int
  counter : Int
  mem : List (Node K V)

/-- A Go `interface{}` result of `Get`: `nil`, a payload, or an error value. -/
inductive Iface (V : Type) where
  | nil
  | val (v : V)
  | err (e : Err)

/-- Outcome of running a piece of Go code: a normal return, a run-time panic
(`nil` dereference), or exhaustion of the recursion budget. -/
inductive Res (α : Type) where
  | ok (a : α)
  | panic
  | diverge
  deriving DecidableEq, Repr

/-- Sequencing of outcomes. -/
@[noinline] def Res.bind {α β : Type} (x : Res α) (f : α → Res β) : Res β :=
  match x with
  | Res.ok a => f a
  | Res.panic => Res.panic
  | Res.diverge => Res.diverge

instance : Monad Res where
  pure := Res.ok
  bind := Res.bind

variable {K V : Type}

/-- Two's-complement wrap of an integer to the `int64` range. -/
def wrap64 (x : Int) : Int := (x + 2 ^ 63) % 2 ^ 64 - 2 ^ 63

/-- Go `NewTree`. -/
def NewTree (c : K → K → Int) : Tree K V :=
  { root := none, cmp := c, counter := 0, mem := [] }

/-- Go `checkKey`: the validation hook, which accepts every key. -/
def checkKey (_key : K) : Option Err := none

/-! ## Memory access -/

/-- Dereference a pointer; panics on `nil` (and on an address outside the store). -/
def deref (t : Tree K V) : Ptr → Res (Node K V)
  | none => Res.panic
  | some a =>
    match t.mem[a]? with
    | none => Res.panic
    | some n => Res.ok n

/-- Read `p.left`. -/
def getLeft (t : Tree K V) (p : Ptr) : Res Ptr := do
  return (← deref t p).left

/-- Read `p.right`. -/
def getRight (t : Tree K V) (p : Ptr) : Res Ptr := do
  return (← deref t p).right

/-- Read `p.parent`. -/
def getParent (t : Tree K V) (p : Ptr) : Res Ptr := do
  return (← deref t p).parent

/-- Read `p.color`. -/
def getColorField (t : Tree K V) (p : Ptr) : Res Color := do
  return (← deref t p).color

/-- Write one cell through a pointer; panics on `nil`. -/
def update (t : Tree K V) (p : Ptr) (f : Node K V → Node K V) : Res (Tree K V) :=
  match p with
  | none => Res.panic
  | some a =>
    match t.mem[a]? with
    | none => Res.panic
    | some n => Res.ok { t with mem := t.mem.set a (f n) }

/-- Assignment `p.left = q`. -/
def setLeft (t : Tree K V) (p q : Ptr) : Res (Tree K V) :=
  update t p (fun n => { n with left := q })

/-- Assignment `p.right = q`. -/
def setRight (t : Tree K V) (p q : Ptr) : Res (Tree K V) :=
  update t p (fun n => { n with right := q })

/-- Assignment `p.parent = q`. -/
def setParent (t : Tree K V) (p q : Ptr) : Res (Tree K V) :=
  update t p (fun n => { n with parent := q })

/-- Assignment `p.color = c`. -/
def setColor (t : Tree K V) (p : Ptr) (c : Color) : Res (Tree K V) :=
  update t p (fun n => { n with color := c })

/-- Assignment `p.payload = v`. -/
def setPayload (t : Tree K V) (p : Ptr) (v : V) : Res (Tree K V) :=
  update t p (fun n => { n with payload := v })

/-- Allocation `&Node{...}`: the new cell goes at the end of the store. -/
def alloc (t : Tree K V) (n : Node K V) : Tree K V × Ptr :=
  ({ t with mem := t.mem ++ [n] }, some t.mem.length)

/-- Go `(*Node).GetColor`: a `nil` node is BLACK. -/
def GetColor (t : Tree K V) (d : Ptr) : Res Color :=
  if d = none then
    Res.ok Color.BLACK
  else
    getColorField t d

/-- Go `(*Node).Direction`. -/
def NodeDirection (t : Tree K V) (d : Ptr) : Res Direction := do
  if (← getParent t d) = none then
    return Direction.NODIR
  if (← getLeft t (← getParent t d)) = d then
    return Direction.LEFT
  else
    return Direction.RIGHT

/-- Go `addCounter`: `atomic.AddInt64` on the `int64` counter. -/
def addCounter (t : Tree K V) (delta : Int) : Tree K V :=
  { t with counter := wrap64 (t.counter + delta) }

/-- Go `Size`. -/
def Size (t : Tree K V) : Int := t.counter

/-! ## Search (rbtree.go, lines 285-327, 402-405) -/

/-- Go `innerSearch`.  The first argument bounds the recursion depth. -/
def innerSearch : Nat → Tree K V → Ptr → Ptr → K → Direction → Res (Bool × Ptr × Direction)
  | 0, _, _, _, _, _ => Res.diverge
  | fuel + 1, t, parent, cur, key, dir =>
    if cur = none then
      Res.ok (false, parent, dir)
    else do
      let n ← deref t cur
      let c := t.cmp key n.key
      if c > 0 then innerSearch fuel t cur n.right key Direction.RIGHT
      else if c < 0 then innerSearch fuel t cur n.left key Direction.LEFT
      else if c = 0 then return (true, parent, dir)
      else return (false, none, Direction.NODIR)

/-- Recursion budget for one descent or one climb: a walk that never visits a
cell twice makes at most `mem.length + 1` calls. -/
def budget (t : Tree K V) : Nat := t.mem.length + 1

/-- Go `GetNode`. -/
def GetNode (t : Tree K V) (key : K) : Res Ptr := do
  let (found, parent, dir) ← innerSearch (budget t) t none t.root key Direction.NODIR
  if found then
    if parent = none then
      return t.root
    else
      if dir = Direction.LEFT then
        getLeft t parent
      else
        getRight t parent
  else
    return none

/-- Go `Get`. -/
def Get (t : Tree K V) (key : K) : Res (Bool × Iface V) :=
  match checkKey key with
  | some e => Res.ok (false, Iface.err e)
  | none => do
    let node ← GetNode t key
    if node ≠ none then
      return (true, Iface.val (← deref t node).payload)
    else
      return (false, Iface.nil)

/-- Go `Has`. -/
def Has (t : Tree K V) (key : K) : Res Bool := do
  let (found, _, _) ← innerSearch (budget t) t none t.root key Direction.NODIR
  return found

/-! ## Rotations (rbtree.go, lines 331-396) -/

/-- Go `RotateRight`. -/
def RotateRight (t : Tree K V) (y : Ptr) : Res (Tree K V) :=
  if y = none then Res.ok t
  else do
    if (← getLeft t y) = none then
      return t
    let x ← getLeft t y
    let t ← setLeft t y (← getRight t x)
    let t ← setParent t x (← getParent t y)
    let t ← (do
      if (← getRight t x) ≠ none then
        setParent t (← getRight t x) y
      else
        pure t)
    let t ← (do
      if (← getParent t y) = none then
        pure { t with root := x }
      else
        if y = (← getLeft t (← getParent t y)) then
          setLeft t (← getParent t y) x
        else
          setRight t (← getParent t y) x)
    let t ← setParent t y x
    setRight t x y

/-- Go `RotateLeft`. -/
def RotateLeft (t : Tree K V) (x : Ptr) : Res (Tree K V) :=
  if x = none then Res.ok t
  else do
    let y ← getRight t x
    let t ← setRight t x (← getLeft t y)
    let t ← setParent t y (← getParent t x)
    let t ← (do
      if (← getLeft t y) ≠ none then
        setParent t (← getLeft t y) x
      else
        pure t)
    let t ← (do
      if (← getParent t x) = none then
        pure { t with root := y }
      else
        if x = (← getLeft t (← getParent t x)) then
          setLeft t (← getParent t x) y
        else
          setRight t (← getParent t x) y)
    let t ← setParent t x y
    setLeft t y x

/-! ## Insertion (rbtree.go, lines 72-82, 162-263) -/

/-- Go `InnerPut`: returns the new state, the node and `needfix`. -/
def InnerPut (t : Tree K V) (key : K) (data : V) : Res (Tree K V × Ptr × Bool) :=
  let t := addCounter t 1
  if t.root = none then
    let (t, n) := alloc t
      { key := key, payload := data, color := Color.BLACK, left := none, right := none,
        parent := none }
    let t := { t with root := n }
    Res.ok (t, t.root, false)
  else do
    let (found, parent, dir) ← innerSearch (budget t) t none t.root key Direction.NODIR
    if found then
      if dir = Direction.LEFT then
        let t ← setPayload t (← getLeft t parent) data
        return (t, ← getLeft t parent, false)
      else
        let t ← setPayload t (← getRight t parent) data
        return (t, ← getRight t parent, false)
    else
      let (t, inode) := alloc t
        { key := key, payload := data, color := Color.RED, left := none, right := none,
          parent := parent }
      let t ← (if dir = Direction.LEFT then setLeft t parent inode else setRight t parent inode)
      return (t, inode, true)

/-- The expression `d.parent.parent`. -/
def grand (t : Tree K V) (d : Ptr) : Res Ptr := do
  getParent t (← getParent t d)

/-- Go `fix`.  The first argument bounds the recursion depth. -/
def fix : Nat → Tree K V → Ptr → Res (Tree K V)
  | 0, _, _ => Res.diverge
  | fuel + 1, t, d => do
    if (← getColorField t d) ≠ Color.RED then
      return t
    if (← getColorField t d) ≠ (← getColorField t (← getParent t d)) then
      return t
    if (← (do
        if (← GetColor t (← getLeft t (← grand t d))) = Color.RED then
          pure (decide ((← GetColor t (← getRight t (← grand t d))) = Color.RED))
        else
          pure false)) then
      let t ← setColor t (← getLeft t (← grand t d)) Color.BLACK
      let t ← setColor t (← getRight t (← grand t d)) Color.BLACK
      if (← grand t d) ≠ t.root then
        let t ← setColor t (← grand t d) Color.RED
        fix fuel t (← grand t d)
      else
        return t
    else
      let (t, d) ← (do
        if (← (do
            if (← getLeft t (← getParent t d)) = d then
              pure (decide ((← getRight t (← grand t d)) = (← getParent t d)))
            else
              pure false)) then
          let d ← getParent t d
          let t ← RotateRight t d
          pure (t, d)
        else
          pure (t, d))
      let (t, d) ← (do
        if (← (do
            if (← getRight t (← getParent t d)) = d then
              pure (decide ((← getLeft t (← grand t d)) = (← getParent t d)))
            else
              pure false)) then
          let d ← getParent t d
          let t ← RotateLeft t d
          pure (t, d)
        else
          pure (t, d))
      let t ← setColor t (← getParent t d) Color.BLACK
      if (← GetColor t (← getLeft t (← grand t d))) = (← GetColor t (← getRight t (← grand t d))) then
        let t ← setColor t (← grand t d) Color.RED
        if (← getLeft t (← grand t d)) = (← getParent t d) then
          RotateRight t (← grand t d)
        else
          RotateLeft t (← grand t d)
      else
        let t ← (do
          if (← getLeft t (← grand t d)) = (← getParent t d) then
            setColor t (← getRight t (← grand t d)) Color.BLACK
          else
            setColor t (← getLeft t (← grand t d)) Color.BLACK)
        if (← grand t d) ≠ t.root then
          let t ← setColor t (← grand t d) Color.RED
          fix fuel t (← grand t d)
        else
          return t

/-- Go `Put`: the new state and the returned `error` (`none` is the Go `nil`). -/
def Put (t : Tree K V) (key : K) (data : V) : Res (Tree K V × Option Err) :=
  match checkKey key with
  | some e => Res.ok (t, some e)
  | none => do
    let (t, n, needfix) ← InnerPut t key data
    let t ← (if needfix then fix (budget t) t n else pure t)
    return (t, none)

/-- A run of `Put` calls in order, as in the test helper `PutTestMultiKey`; it
stops as soon as one call does not complete. -/
def PutAll (t : Tree K V) : List (K × V) → Res (Tree K V)
  | [] => Res.ok t
  | (k, v) :: rest => do
    let (t1, _) ← Put t k v
    PutAll t1 rest

/-! ## Pre-order dump (rbtree.go, lines 92-119) -/

/-- Go `PreOrderStringAt`.  The formatter receives the node pointer and the
level.  The `Option` is the Go slice, `none` being the `nil` slice. -/
def PreOrderStringAt : Nat → Tree K V → Ptr → (Nat → Int → String) → Int →
    Res (Option (List String))
  | 0, _, _, _, _ => Res.diverge
  | fuel + 1, t, n, fmt, level =>
    match n with
    | none => Res.ok none
    | some na => do
      let s := fmt na level
      let a := [s]
      let b ← PreOrderStringAt fuel t (← getLeft t n) fmt (level + 1)
      let c ← PreOrderStringAt fuel t (← getRight t n) fmt (level + 1)
      if b ≠ none ∨ c ≠ none then
        let a := a ++ ["("]
        let a := (match b with
          | some bs => a ++ bs
          | none => a)
        let a := a ++ [")("]
        let a := (match c with
          | some cs => a ++ cs
          | none => a)
        let a := a ++ [")"]
        return some a
      else
        return some a

/-- Go `strings.Join(s, "")`. -/
def joinStrings (s : List String) : String := s.foldl (fun acc x => acc ++ x) ""

/-- Go `PreOrderString`. -/
def PreOrderString (t : Tree K V) (fmt : Nat → Int → String) : Res String := do
  let s ← PreOrderStringAt (budget t) t t.root fmt 0
  return joinStrings (s.getD [])

/-! ## Abstract view of the store

The node cells reachable from the root form a binary tree.  `Shape` records
that tree together with the address of every node; `Rep` says that a store
holds exactly this tree (child links and parent links), and `Models` that a
`Tree` state is such a tree hanging from its root pointer. -/

/-- A binary tree of cells: address, colour, left subtree, key, payload, right subtree. -/
inductive Shape (K V : Type) where
  | nil
  | node (a : Nat) (c : Color) (l : Shape K V) (k : K) (v : V) (r : Shape K V)

/-- Pointer to the root cell of a shape (`nil` for the empty shape). -/
def Shape.ptr : Shape K V → Ptr
  | Shape.nil => none
  | Shape.node a _ _ _ _ _ => some a

/-- Colour of the root, an absent node counting as BLACK. -/
def Shape.colour : Shape K V → Color
  | Shape.nil => Color.BLACK
  | Shape.node _ c _ _ _ _ => c

/-- Addresses of the cells, in in-order. -/
def Shape.addrs : Shape K V → List Nat
  | Shape.nil => []
  | Shape.node a _ l _ _ r => l.addrs ++ a :: r.addrs

/-- In-order sequence of (key, payload) pairs. -/
def Shape.items : Shape K V → List (K × V)
  | Shape.nil => []
  | Shape.node _ _ l k v r => l.items ++ (k, v) :: r.items

/-- In-order sequence of keys. -/
def Shape.keys (s : Shape K V) : List K := s.items.map Prod.fst

/-- In-order sequence of (address, colour) pairs. -/
def Shape.colours : Shape K V → List (Nat × Color)
  | Shape.nil => []
  | Shape.node a c l _ _ r => l.colours ++ (a, c) :: r.colours

/-- Number of cells on the longest root-to-NIL path. -/
def Shape.height : Shape K V → Nat
  | Shape.nil => 0
  | Shape.node _ _ l _ _ r => max l.height r.height + 1

/-- The store `m` holds the shape `s` below a cell whose `parent` field is `par`:
every cell of `s` has the key, payload, colour and child links of `s`, and its
parent link points to the cell above it. -/
def Rep (m : List (Node K V)) : Ptr → Shape K V → Prop
  | _, Shape.nil => True
  | par, Shape.node a c l k v r =>
    m[a]? = some { key := k, payload := v, color := c, left := l.ptr, right := r.ptr,
                   parent := par }
      ∧ Rep m (some a) l ∧ Rep m (some a) r

/-- The tree state `t` has consistent links and its cells form the shape `s`:
the root pointer is the root of `s`, the root has no parent, every child link
is mirrored by the parent link of the child, and no cell occurs twice. -/
structure Models (t : Tree K V) (s : Shape K V) : Prop where
  root : t.root = s.ptr
  rep : Rep t.mem none s
  nodup : s.addrs.Nodup

/-- One step of a path from a node up to the root: the cell passed, and the
subtree on its other side.  `L` means the path came up from the left child. -/
inductive Frame (K V : Type) where
  | L (a : Nat) (c : Color) (k : K) (v : V) (r : Shape K V)
  | R (a : Nat) (c : Color) (l : Shape K V) (k : K) (v : V)

/-- Address of the cell of a frame. -/
def Frame.addr : Frame K V → Nat
  | Frame.L a _ _ _ _ => a
  | Frame.R a _ _ _ _ => a

/-- Colour of the cell of a frame. -/
def Frame.colour : Frame K V → Color
  | Frame.L _ c _ _ _ => c
  | Frame.R _ c _ _ _ => c

/-- The subtree on the other side of the path. -/
def Frame.sibling : Frame K V → Shape K V
  | Frame.L _ _ _ _ r => r
  | Frame.R _ _ l _ _ => l

/-- Put a subtree below the cell of a frame. -/
def Frame.fill : Frame K V → Shape K V → Shape K V
  | Frame.L a c k v r, s => Shape.node a c s k v r
  | Frame.R a c l k v, s => Shape.node a c l k v s

/-- Put a subtree at the bottom of a path (innermost frame first). -/
def plug : List (Frame K V) → Shape K V → Shape K V
  | [], s => s
  | f :: rest, s => plug rest (f.fill s)

/-- Pointer to the innermost cell of a path (`nil` when the path is empty). -/
def ctxPtr : List (Frame K V) → Ptr
  | [] => none
  | f :: _ => some f.addr

/-- Addresses of a path that come before the hole in in-order. -/
def ctxBefore : List (Frame K V) → List Nat
  | [] => []
  | Frame.L _ _ _ _ _ :: rest => ctxBefore rest
  | Frame.R a _ l _ _ :: rest => ctxBefore rest ++ (l.addrs ++ [a])

/-- Addresses of a path that come after the hole in in-order. -/
def ctxAfter : List (Frame K V) → List Nat
  | [] => []
  | Frame.L a _ _ _ r :: rest => (a :: r.addrs) ++ ctxAfter rest
  | Frame.R _ _ _ _ _ :: rest => ctxAfter rest

/-- The cell of a frame, given the pointer in the hole and the parent pointer. -/
def Frame.cell : Frame K V → Ptr → Ptr → Node K V
  | Frame.L _ c k v r, hole, par =>
    { key := k, payload := v, color := c, left := hole, right := r.ptr, parent := par }
  | Frame.R _ c l k v, hole, par =>
    { key := k, payload := v, color := c, left := l.ptr, right := hole, parent := par }

/-- The store `m` holds the path `ctx` above a hole whose pointer is `hole`; the
outermost cell is the root and has no parent. -/
def RepCtx (m : List (Node K V)) : List (Frame K V) → Ptr → Prop
  | [], _ => True
  | f :: rest, hole =>
    m[f.addr]? = some (f.cell hole (ctxPtr rest))
      ∧ Rep m (some f.addr) f.sibling ∧ RepCtx m rest (some f.addr)

/-- The step from `t` to `t'` stays inside the cells of `s`: comparator, counter
and every cell outside `s` are untouched, and no cell is added or dropped. -/
def Framed (t t' : Tree K V) (s : Shape K V) : Prop :=
  t'.cmp = t.cmp ∧ t'.counter = t.counter ∧ t'.mem.length = t.mem.length
    ∧ ∀ a, a ∉ s.addrs → t'.mem[a]? = t.mem[a]?

/-! ## Fix-up on shapes

`fixA ctx s` is what `fix` does to the tree `plug ctx s` when it is called on
the root cell of `s`: the same case analysis, written on shapes.  It is used
to reason about `fix`; `fix_sim` below proves that the two agree. -/

/-- Repaint the root of a shape. -/
def Shape.paint (c : Color) : Shape K V → Shape K V
  | Shape.nil => Shape.nil
  | Shape.node a _ l k v r => Shape.node a c l k v r

/-- Repaint the cell of a frame. -/
def Frame.paint (c : Color) : Frame K V → Frame K V
  | Frame.L a _ k v r => Frame.L a c k v r
  | Frame.R a _ l k v => Frame.R a c l k v

/-- Repaint the root of the sibling subtree of a frame. -/
def Frame.paintSibling (c : Color) : Frame K V → Frame K V
  | Frame.L a c0 k v r => Frame.L a c0 k v (r.paint c)
  | Frame.R a c0 l k v => Frame.R a c0 (l.paint c) k v

/-- Outcome of Case B and Case C of `fix` (uncle not RED): realign a zig-zag,
paint the upper node of the pair BLACK, paint the grandparent RED and rotate it. -/
def fixRotate (f g : Frame K V) (d : Nat) (l : Shape K V) (k : K) (v : V) (r : Shape K V) :
    Shape K V :=
  match f, g with
  | Frame.L p _ kp vp ps, Frame.L ga _ kg vg u =>
    Shape.node p Color.BLACK (Shape.node d Color.RED l k v r) kp vp
      (Shape.node ga Color.RED ps kg vg u)
  | Frame.R p cp pl kp vp, Frame.L ga _ kg vg u =>
    Shape.node d Color.BLACK (Shape.node p cp pl kp vp l) k v
      (Shape.node ga Color.RED r kg vg u)
  | Frame.L p cp kp vp ps, Frame.R ga _ u kg vg =>
    Shape.node d Color.BLACK (Shape.node ga Color.RED u kg vg l) k v
      (Shape.node p cp r kp vp ps)
  | Frame.R p _ pl kp vp, Frame.R ga _ u kg vg =>
    Shape.node p Color.BLACK (Shape.node ga Color.RED u kg vg pl) kp vp
      (Shape.node d Color.RED l k v r)

/-- The function `fix` on shapes: `fixA ctx s` is the tree left by `fix` called on
the root cell of `s` inside the tree `plug ctx s`. -/
def fixA : List (Frame K V) → Shape K V → Res (Shape K V)
  | _, Shape.nil => Res.panic
  | ctx, Shape.node d Color.BLACK l k v r => Res.ok (plug ctx (Shape.node d Color.BLACK l k v r))
  | [], Shape.node _ Color.RED _ _ _ _ => Res.panic
  | [f], Shape.node d Color.RED l k v r =>
    if f.colour = Color.RED then Res.panic
    else Res.ok (plug [f] (Shape.node d Color.RED l k v r))
  | f :: g :: rest, Shape.node d Color.RED l k v r =>
    if f.colour ≠ Color.RED then
      Res.ok (plug (f :: g :: rest) (Shape.node d Color.RED l k v r))
    else if g.sibling.colour = Color.RED then
      match rest with
      | [] =>
        Res.ok ((g.paintSibling Color.BLACK).fill
          ((f.paint Color.BLACK).fill (Shape.node d Color.RED l k v r)))
      | h :: rest1 =>
        fixA (h :: rest1) (((g.paint Color.RED).paintSibling Color.BLACK).fill
          ((f.paint Color.BLACK).fill (Shape.node d Color.RED l k v r)))
    else
      Res.ok (plug rest (fixRotate f g d l k v r))

/-! ## Search on shapes -/

/-- The descent of `innerSearch` on shapes: starting at the subtree `s` below the
path `ctx`, follow the comparisons of `key` down to the node with an equal key,
or to the empty place where the key belongs.  Returns the path and what is there. -/
def locate (cmp : K → K → Int) (key : K) : Shape K V → List (Frame K V) →
    List (Frame K V) × Shape K V
  | Shape.nil, ctx => (ctx, Shape.nil)
  | Shape.node a c l k v r, ctx =>
    if cmp key k > 0 then locate cmp key r (Frame.R a c l k v :: ctx)
    else if cmp key k < 0 then locate cmp key l (Frame.L a c k v r :: ctx)
    else (ctx, Shape.node a c l k v r)

/-- The direction in which the hole hangs below the innermost cell of a path. -/
def ctxDir : List (Frame K V) → Direction
  | [] => Direction.NODIR
  | Frame.L _ _ _ _ _ :: _ => Direction.LEFT
  | Frame.R _ _ _ _ _ :: _ => Direction.RIGHT

/-- Whether a shape is a node. -/
def Shape.isNode : Shape K V → Bool
  | Shape.nil => false
  | Shape.node _ _ _ _ _ _ => true

/-- The function `Put` on shapes.  `a` is the address of the next free cell.
On the empty tree a BLACK root is made; when the key is found below the root
its payload is replaced; when it is found at the root the Go code dereferences
the `nil` parent returned by the search and panics; when it is not found a RED
leaf is linked in and `fix` runs on it. -/
def putA (cmp : K → K → Int) (key : K) (data : V) (a : Nat) (s0 : Shape K V) :
    Res (Shape K V) :=
  match s0 with
  | Shape.nil => Res.ok (Shape.node a Color.BLACK Shape.nil key data Shape.nil)
  | Shape.node _ _ _ _ _ _ =>
    match locate cmp key s0 [] with
    | ([], Shape.node _ _ _ _ _ _) => Res.panic
    | (f :: rest, Shape.node b c l k _ r) => Res.ok (plug (f :: rest) (Shape.node b c l k data r))
    | (ctx, Shape.nil) => fixA ctx (Shape.node a Color.RED Shape.nil key data Shape.nil)

/-! ## Red-black invariants on shapes -/

/-- For every root-to-NIL path of the shape, the number of BLACK cells on it. -/
def Shape.pathBlacks : Shape K V → List Nat
  | Shape.nil => [0]
  | Shape.node _ c l _ _ r =>
    (l.pathBlacks ++ r.pathBlacks).map (fun x => x + (if c = Color.BLACK then 1 else 0))

/-- No RED cell has a RED child. -/
def Shape.noRedRed : Shape K V → Prop
  | Shape.nil => True
  | Shape.node _ c l _ _ r =>
    (c = Color.RED → l.colour = Color.BLACK ∧ r.colour = Color.BLACK)
      ∧ l.noRedRed ∧ r.noRedRed

/-- The red-black invariants: the root (if present) is BLACK, no RED cell has a
RED parent, and every root-to-NIL path has the same number of BLACK cells. -/
def Shape.RedBlack (s : Shape K V) : Prop :=
  s.colour = Color.BLACK ∧ s.noRedRed ∧ ∃ n, ∀ x ∈ s.pathBlacks, x = n

/-- Number of BLACK cells on the leftmost path. -/
def Shape.bh : Shape K V → Nat
  | Shape.nil => 0
  | Shape.node _ c l _ _ _ => l.bh + (if c = Color.BLACK then 1 else 0)

/-- At every cell the two subtrees have the same black height. -/
def Shape.balanced : Shape K V → Prop
  | Shape.nil => True
  | Shape.node _ _ l _ _ r => l.bh = r.bh ∧ l.balanced ∧ r.balanced

/-- The innermost cell of a path exists and is BLACK. -/
def parentBlack : List (Frame K V) → Prop
  | [] => False
  | g :: _ => g.colour = Color.BLACK

/-- The red-black invariants of a path around a hole of black height `n`: every
sibling subtree is a valid subtree of the right black height, and a RED cell on
the path has a BLACK sibling child and a BLACK parent. -/
def ctxOK : List (Frame K V) → Nat → Prop
  | [], _ => True
  | f :: rest, n =>
    f.sibling.balanced ∧ f.sibling.bh = n ∧ f.sibling.noRedRed
      ∧ (f.colour = Color.RED → f.sibling.colour = Color.BLACK ∧ parentBlack rest)
      ∧ ctxOK rest (n + (if f.colour = Color.BLACK then 1 else 0))

/-- What the hole of a path may hold: at the root a BLACK-rooted tree, below a RED
cell a BLACK-rooted tree, below a BLACK cell anything. -/
def holeOK : List (Frame K V) → Shape K V → Prop
  | [], s => s.colour = Color.BLACK
  | f :: _, s => f.colour = Color.RED → s.colour = Color.BLACK

/-- The (key, payload) pairs of a path that come before the hole in in-order. -/
def ctxItemsBefore : List (Frame K V) → List (K × V)
  | [] => []
  | Frame.L _ _ _ _ _ :: rest => ctxItemsBefore rest
  | Frame.R _ _ l k v :: rest => ctxItemsBefore rest ++ (l.items ++ [(k, v)])

/-- The (key, payload) pairs of a path that come after the hole in in-order. -/
def ctxItemsAfter : List (Frame K V) → List (K × V)
  | [] => []
  | Frame.L _ _ k v r :: rest => ((k, v) :: r.items) ++ ctxItemsAfter rest
  | Frame.R _ _ _ _ _ :: rest => ctxItemsAfter rest

/-! ## Specification of the map contents

The comparator contract of the specification, and the association list that a
run of `Put` calls denotes. -/

/-- The contract of a comparator: its sign is antisymmetric and `≤` is
transitive.  This is what a three-way comparison of a strict total order
satisfies; keys that compare equal need not be identical. -/
structure StrictTotal (cmp : K → K → Int) : Prop where
  antisymm : ∀ a b, cmp a b < 0 ↔ 0 < cmp b a
  trans : ∀ a b c, cmp a b ≤ 0 → cmp b c ≤ 0 → cmp a c ≤ 0

/-- Insert a pair into an association list sorted by key; a pair whose key
compares equal keeps its key and takes the new payload. -/
def insertKV (cmp : K → K → Int) (key : K) (data : V) : List (K × V) → List (K × V)
  | [] => [(key, data)]
  | (k, v) :: rest =>
    if cmp key k < 0 then (key, data) :: (k, v) :: rest
    else if cmp key k = 0 then (k, data) :: rest
    else (k, v) :: insertKV cmp key data rest

/-- The sorted association list, with duplicate keys collapsed, denoted by a
run of `Put` calls. -/
def contents (cmp : K → K → Int) (ops : List (K × V)) : List (K × V) :=
  ops.foldl (fun acc kv => insertKV cmp kv.1 kv.2 acc) []

/-- The payload of the last `Put` of a run whose key compares equal to `k`. -/
def lastPut (cmp : K → K → Int) (k : K) : List (K × V) → Option V
  | [] => none
  | (k', v) :: rest =>
    match lastPut cmp k rest with
    | some w => some w
    | none => if cmp k k' = 0 then some v else none

/-- First payload of an association list whose key compares equal to `k`. -/
def lookupKV (cmp : K → K → Int) (k : K) : List (K × V) → Option V
  | [] => none
  | (k', v) :: rest => if cmp k k' = 0 then some v else lookupKV cmp k rest

/-- An association list is strictly increasing by key. -/
def Sorted (cmp : K → K → Int) (L : List (K × V)) : Prop :=
  L.Pairwise (fun x y => cmp x.1 y.1 < 0)

/-- Insert a key into a list of keys sorted by the comparator; a key that
compares equal to one already there is dropped. -/
def insertKey (cmp : K → K → Int) (key : K) : List K → List K
  | [] => [key]
  | k :: rest =>
    if cmp key k < 0 then key :: k :: rest
    else if cmp key k = 0 then k :: rest
    else k :: insertKey cmp key rest

/-- The sorted, duplicate-collapsed sequence of a sequence of keys. -/
def collapse (cmp : K → K → Int) (keys : List K) : List K :=
  keys.foldl (fun acc k => insertKey cmp k acc) []

/-- Three-way comparison of mathematical integers. -/
def cmpInt (a b : Int) : Int := a - b

/-- A small run of `Put` calls: three new keys, then key 3 again. -/
def demoOps : List (Int × Nat) := [(7, 70), (3, 30), (8, 80), (3, 31)]

/-- The tree state after `demoOps`. -/
def demoTree : Tree Int Nat :=
  { root := some 0, cmp := cmpInt, counter := 4,
    mem := [⟨7, 70, Color.BLACK, some 1, some 2, none⟩,
            ⟨3, 31, Color.RED, none, none, some 0⟩,
            ⟨8, 80, Color.RED, none, none, some 0⟩] }

/-- The shape of `demoTree`. -/
def demoShape : Shape Int Nat :=
  Shape.node 0 Color.BLACK (Shape.node 1 Color.RED Shape.nil 3 31 Shape.nil) 7 70
    (Shape.node 2 Color.RED Shape.nil 8 80 Shape.nil)

/-! ## Reference pre-order dump -/

/-- The reference pre-order dump `D` of the specification: the empty string for
an absent node, `fmt` of the node for a node without children, and otherwise
`fmt` of the node followed by the two parenthesised groups. -/
def referenceDump (fmt : Nat → Int → String) : Shape K V → Int → String
  | Shape.nil, _ => ""
  | Shape.node a _ l _ _ r, level =>
    if l.isNode = false ∧ r.isNode = false then fmt a level
    else fmt a level ++ "(" ++ referenceDump fmt l (level + 1) ++ ")(" ++
      referenceDump fmt r (level + 1) ++ ")"

/-- The slice that `PreOrderStringAt` builds for a shape. -/
def dumpSlice (fmt : Nat → Int → String) : Shape K V → Int → Option (List String)
  | Shape.nil, _ => none
  | Shape.node a _ l _ _ r, level =>
    if dumpSlice fmt l (level + 1) ≠ none ∨ dumpSlice fmt r (level + 1) ≠ none then
      some ([fmt a level] ++ ["("] ++ (dumpSlice fmt l (level + 1)).getD [] ++ [")("]
        ++ (dumpSlice fmt r (level + 1)).getD [] ++ [")"])
    else some [fmt a level]

/-! ## Remaining operations and the test fixtures -/

/-- Go `IntComparator`: the subtraction of two `int` values, which wraps around
in 64-bit two's-complement arithmetic. -/
def IntComparator (a b : Int) : Int := wrap64 (a - b)

/-- The loop of Go `BlackDeep`: `cur` walks down the left links and `rs` adds up
`int(cur.color)`.  The first argument bounds the number of iterations. -/
def BlackDeepLoop : Nat → Tree K V → Ptr → Int → Res Int
  | 0, _, _, _ => Res.diverge
  | fuel + 1, t, cur, rs =>
    if cur = none then
      Res.ok rs
    else do
      let n ← deref t cur
      BlackDeepLoop fuel t n.left (wrap64 (rs + n.color.toInt))

/-- Go `BlackDeep`. -/
def BlackDeep (t : Tree K V) : Res Int := BlackDeepLoop (budget t) t t.root 0

/-- Go `Delete`: the new state and the returned `error` (`none` is the Go `nil`). -/
def Delete (t : Tree K V) (key : K) : Res (Tree K V × Option Err) :=
  match checkKey key with
  | some e => Res.ok (t, some e)
  | none => Res.ok (t, none)

/-- A run of `InnerPut` calls in order, as in the test helper
`InnerPutTestMultiKey`; it stops as soon as one call does not complete. -/
def InnerPutAll (t : Tree K V) : List (K × V) → Res (Tree K V)
  | [] => Res.ok t
  | (k, v) :: rest => do
    let (t1, _, _) ← InnerPut t k v
    InnerPutAll t1 rest

/-- Go `strconv.Itoa`: the decimal representation of an integer. -/
def Itoa (x : Int) : String := toString x

/-- The formatter of the test helper `DLRTravelEquals`: the key of the node. -/
def keyFormat (t : Tree Int V) (a : Nat) (_level : Int) : String :=
  match t.mem[a]? with
  | some n => Itoa n.key
  | none => ""

/-- The formatter of the test helper `DLRTravelWithColorEquals`: the key of the
node, followed by `R` when the node is RED. -/
def colourFormat (t : Tree Int V) (a : Nat) (_level : Int) : String :=
  match t.mem[a]? with
  | some n => if n.color = Color.RED then Itoa n.key ++ "R" else Itoa n.key
  | none => ""

/-- The keys of the test `MultiPutTest`, each with the payload of the helper
`PutTestMultiKey`. -/
def multiPutOps : List (Int × String) :=
  [7, 3, 18, 10, 8, 11, 22, 26, 30, 45, 35, 90, 85, 83, 100].map (fun k => (k, ""))

/-- The keys of the first seven steps of the test `PutTest`. -/
def putTestOps : List (Int × String) :=
  [7, 3, 8, 18, 10, 16, 17].map (fun k => (k, ""))

/-- The keys of the first five steps of the test `innerPut`. -/
def innerPutOps : List (Int × String) :=
  [7, 3, 8, 18, 10].map (fun k => (k, ""))


/-- The tree state after the `Put` calls of `multiPutOps`. -/
def multiPutTree : Tree Int String :=
  { root := some 3, cmp := IntComparator, counter := 15,
    mem := [⟨7, "", Color.BLACK, some 1, some 4, some 3⟩,
            ⟨3, "", Color.BLACK, none, none, some 0⟩,
            ⟨18, "", Color.BLACK, some 5, some 6, some 7⟩,
            ⟨10, "", Color.BLACK, some 0, some 7, none⟩,
            ⟨8, "", Color.BLACK, none, none, some 0⟩,
            ⟨11, "", Color.BLACK, none, none, some 2⟩,
            ⟨22, "", Color.BLACK, none, none, some 2⟩,
            ⟨26, "", Color.RED, some 2, some 10, some 3⟩,
            ⟨30, "", Color.BLACK, none, none, some 10⟩,
            ⟨45, "", Color.BLACK, none, some 13, some 12⟩,
            ⟨35, "", Color.BLACK, some 8, some 12, some 7⟩,
            ⟨90, "", Color.BLACK, none, some 14, some 12⟩,
            ⟨85, "", Color.RED, some 9, some 11, some 10⟩,
            ⟨83, "", Color.RED, none, none, some 9⟩,
            ⟨100, "", Color.RED, none, none, some 11⟩] }

/-- The tree state after the `Put` calls of `putTestOps`. -/
def putTestTree : Tree Int String :=
  { root := some 0, cmp := IntComparator, counter := 7,
    mem := [⟨7, "", Color.BLACK, some 1, some 4, none⟩,
            ⟨3, "", Color.BLACK, none, none, some 0⟩,
            ⟨8, "", Color.BLACK, none, none, some 4⟩,
            ⟨18, "", Color.RED, none, none, some 6⟩,
            ⟨10, "", Color.RED, some 2, some 6, some 0⟩,
            ⟨16, "", Color.RED, none, none, some 6⟩,
            ⟨17, "", Color.BLACK, some 5, some 3, some 4⟩] }

/-- The tree state after the `InnerPut` calls of `innerPutOps`. -/
def innerPutTree : Tree Int String :=
  { root := some 0, cmp := IntComparator, counter := 5,
    mem := [⟨7, "", Color.BLACK, some 1, some 2, none⟩,
            ⟨3, "", Color.RED, none, none, some 0⟩,
            ⟨8, "", Color.RED, none, some 3, some 0⟩,
            ⟨18, "", Color.RED, some 4, none, some 2⟩,
            ⟨10, "", Color.RED, none, none, some 3⟩] }

/-- Number of cells of a shape. -/
def Shape.size : Shape K V → Nat
  | Shape.nil => 0
  | Shape.node _ _ l _ _ r => l.size + r.size + 1

/-! ## Ordinary binary-search-tree insertion

The reference for `InnerPut`: insertion into a plain binary search tree, with no
colours, no links and no rebalancing. -/

/-- A plain binary tree of (key, payload) pairs. -/
inductive BST (K V : Type) where
  | leaf
  | node (l : BST K V) (k : K) (v : V) (r : BST K V)

/-- Ordinary unbalanced insertion: descend by the comparator, replace the
payload of a node whose key compares equal, otherwise hang a new leaf where the
descent ends. -/
def BST.insert (cmp : K → K → Int) (key : K) (data : V) : BST K V → BST K V
  | BST.leaf => BST.node BST.leaf key data BST.leaf
  | BST.node l k v r =>
    if cmp key k > 0 then BST.node l k v (BST.insert cmp key data r)
    else if cmp key k < 0 then BST.node (BST.insert cmp key data l) k v r
    else BST.node l k data r

/-- The plain binary tree of a shape: addresses and colours forgotten. -/
def Shape.toBST : Shape K V → BST K V
  | Shape.nil => BST.leaf
  | Shape.node _ _ l k v r => BST.node l.toBST k v r.toBST

/-- What `InnerPut` puts where its search ends: a found node gets the new
payload, an empty place gets a new RED leaf at address `a`. -/
def Shape.attach (key : K) (data : V) (a : Nat) : Shape K V → Shape K V
  | Shape.nil => Shape.node a Color.RED Shape.nil key data Shape.nil
  | Shape.node b c l k _ r => Shape.node b c l k data r

/-! ## The steps of `fix`

`fixLog` is `fix` with a record of what it does: which node every call is made
on, which tests succeed, and which rotations are requested.  The record is only
written, never read, so `fixLog` ends in the same state as `fix`
(`fixLog_state` below). -/

/-- One step of `fix`. -/
inductive Event where
  /-- Entry of a call `fix(d)`. -/
  | call (d : Ptr)
  /-- Case A: both children of the grandparent are RED and were painted BLACK. -/
  | caseA
  /-- Case B: a realigning rotation of the parent `p` towards `dir` is requested;
  `child` is the child of `p` that the rotation lifts, read just before. -/
  | caseB (dir : Direction) (p child : Ptr)
  /-- The colour test of Case C, with the colours of the grandparent's left and
  right child that it compares. -/
  | caseC (cl cr : Color)
  /-- Case C, colours equal: a rotation of the grandparent `g` towards `dir` is
  requested; `child` is the child of `g` that the rotation lifts. -/
  | rotate (dir : Direction) (g child : Ptr)
  /-- Case C, colours different: the uncle is painted BLACK instead. -/
  | uncleRed
  deriving DecidableEq, Repr

/-- The child that a rotation of `p` towards `dir` lifts: `p.left` for a right
rotation, `p.right` for a left rotation (`nil` when `p` is not a cell). -/
def liftedChild (t : Tree K V) (dir : Direction) (p : Ptr) : Ptr :=
  match deref t p with
  | Res.ok n => if dir = Direction.RIGHT then n.left else n.right
  | _ => none

/-- Go `fix`, recording its steps.  The first argument bounds the recursion depth. -/
def fixLog : Nat → Tree K V → Ptr → Res (Tree K V × List Event)
  | 0, _, _ => Res.diverge
  | fuel + 1, t, d => do
    let log := [Event.call d]
    if (← getColorField t d) ≠ Color.RED then
      return (t, log)
    if (← getColorField t d) ≠ (← getColorField t (← getParent t d)) then
      return (t, log)
    if (← (do
        if (← GetColor t (← getLeft t (← grand t d))) = Color.RED then
          pure (decide ((← GetColor t (← getRight t (← grand t d))) = Color.RED))
        else
          pure false)) then
      let t ← setColor t (← getLeft t (← grand t d)) Color.BLACK
      let t ← setColor t (← getRight t (← grand t d)) Color.BLACK
      let log := log ++ [Event.caseA]
      if (← grand t d) ≠ t.root then
        let t ← setColor t (← grand t d) Color.RED
        let (t, more) ← fixLog fuel t (← grand t d)
        return (t, log ++ more)
      else
        return (t, log)
    else
      let (t, d, log) ← (do
        if (← (do
            if (← getLeft t (← getParent t d)) = d then
              pure (decide ((← getRight t (← grand t d)) = (← getParent t d)))
            else
              pure false)) then
          let d ← getParent t d
          let log := log ++ [Event.caseB Direction.RIGHT d (liftedChild t Direction.RIGHT d)]
          let t ← RotateRight t d
          pure (t, d, log)
        else
          pure (t, d, log))
      let (t, d, log) ← (do
        if (← (do
            if (← getRight t (← getParent t d)) = d then
              pure (decide ((← getLeft t (← grand t d)) = (← getParent t d)))
            else
              pure false)) then
          let d ← getParent t d
          let log := log ++ [Event.caseB Direction.LEFT d (liftedChild t Direction.LEFT d)]
          let t ← RotateLeft t d
          pure (t, d, log)
        else
          pure (t, d, log))
      let t ← setColor t (← getParent t d) Color.BLACK
      let cl ← GetColor t (← getLeft t (← grand t d))
      let cr ← GetColor t (← getRight t (← grand t d))
      let log := log ++ [Event.caseC cl cr]
      if cl = cr then
        let t ← setColor t (← grand t d) Color.RED
        if (← getLeft t (← grand t d)) = (← getParent t d) then
          let g ← grand t d
          let log := log ++ [Event.rotate Direction.RIGHT g (liftedChild t Direction.RIGHT g)]
          let t ← RotateRight t g
          return (t, log)
        else
          let g ← grand t d
          let log := log ++ [Event.rotate Direction.LEFT g (liftedChild t Direction.LEFT g)]
          let t ← RotateLeft t g
          return (t, log)
      else
        let t ← (do
          if (← getLeft t (← grand t d)) = (← getParent t d) then
            setColor t (← getRight t (← grand t d)) Color.BLACK
          else
            setColor t (← getLeft t (← grand t d)) Color.BLACK)
        let log := log ++ [Event.uncleRed]
        if (← grand t d) ≠ t.root then
          let t ← setColor t (← grand t d) Color.RED
          let (t, more) ← fixLog fuel t (← grand t d)
          return (t, log ++ more)
        else
          return (t, log)

/-- The steps of Case B and Case C of `fix` on shapes: `d` is in conflict with
its parent (frame `f`), and the other child of the grandparent (frame `g`) is
not RED. -/
def rotateLog (f g : Frame K V) (d : Nat) : List Event :=
  match f, g with
  | Frame.L p _ _ _ _, Frame.L ga _ _ _ _ =>
    [Event.caseC Color.BLACK Color.BLACK, Event.rotate Direction.RIGHT (some ga) (some p)]
  | Frame.R p _ _ _ _, Frame.L ga _ _ _ _ =>
    [Event.caseB Direction.LEFT (some p) (some d), Event.caseC Color.BLACK Color.BLACK,
      Event.rotate Direction.RIGHT (some ga) (some d)]
  | Frame.L p _ _ _ _, Frame.R ga _ _ _ _ =>
    [Event.caseB Direction.RIGHT (some p) (some d), Event.caseC Color.BLACK Color.BLACK,
      Event.rotate Direction.LEFT (some ga) (some d)]
  | Frame.R p _ _ _ _, Frame.R ga _ _ _ _ =>
    [Event.caseC Color.BLACK Color.BLACK, Event.rotate Direction.LEFT (some ga) (some p)]

/-- The record of `fixLog` on shapes: `fixLogA ctx d` is what `fixLog` records
when it is called on a RED cell `d` that hangs below the path `ctx`. -/
def fixLogA : List (Frame K V) → Nat → List Event
  | f :: g :: rest, d =>
    if f.colour ≠ Color.RED then [Event.call (some d)]
    else if g.sibling.colour = Color.RED then
      match rest with
      | [] => [Event.call (some d), Event.caseA]
      | h :: rest1 => Event.call (some d) :: Event.caseA :: fixLogA (h :: rest1) g.addr
    else Event.call (some d) :: rotateLog f g d
  | _, d => [Event.call (some d)]

/-- The nodes on which the recorded calls of `fix` were made, in order. -/
def calls : List Event → List Ptr
  | [] => []
  | Event.call d :: rest => d :: calls rest
  | _ :: rest => calls rest

/-- The cell `d` and every second cell on the path above it: `d`, its
grandparent, the grandparent of that one, and so on. -/
def grandChain : List (Frame K V) → Nat → List Ptr
  | _ :: g :: rest, d => some d :: grandChain rest g.addr
  | _, d => [some d]

/-- The steps that `fix` takes on a tree with consistent links: every rotation
is requested on a cell and lifts a cell, the colours compared in Case C are both
BLACK, and the else branch of Case C does not occur. -/
def Event.regular : Event → Prop
  | Event.call _ => True
  | Event.caseA => True
  | Event.caseB _ p child => p ≠ none ∧ child ≠ none
  | Event.caseC cl cr => cl = Color.BLACK ∧ cr = Color.BLACK
  | Event.rotate _ g child => g ≠ none ∧ child ≠ none
  | Event.uncleRed => False

/-- The tree after `Put` of 7 and 3. -/
def zigTree : Tree Int Nat :=
  { root := some 0, cmp := cmpInt, counter := 2,
    mem := [⟨7, 70, Color.BLACK, some 1, none, none⟩,
            ⟨3, 30, Color.RED, none, none, some 0⟩] }

/-- The tree `zigTree` after `InnerPut` of key 5: the new leaf is a right child
and its RED parent a left child. -/
def zigTreeRaw : Tree Int Nat :=
  { root := some 0, cmp := cmpInt, counter := 3,
    mem := [⟨7, 70, Color.BLACK, some 1, none, none⟩,
            ⟨3, 30, Color.RED, none, some 2, some 0⟩,
            ⟨5, 50, Color.RED, none, none, some 1⟩] }

/-- The tree `zigTreeRaw` after `fix` on the new leaf. -/
def zigTreeFixed : Tree Int Nat :=
  { root := some 2, cmp := cmpInt, counter := 3,
    mem := [⟨7, 70, Color.RED, none, none, some 2⟩,
            ⟨3, 30, Color.RED, none, none, some 2⟩,
            ⟨5, 50, Color.BLACK, some 1, some 0, none⟩] }

/-- The demo tree after `InnerPut` of key 5: the new leaf 5 and its parent 3 are
both RED. -/
def conflictTree : Tree Int Nat :=
  { root := some 0, cmp := cmpInt, counter := 5,
    mem := [⟨7, 70, Color.BLACK, some 1, some 2, none⟩,
            ⟨3, 31, Color.RED, none, some 3, some 0⟩,
            ⟨8, 80, Color.RED, none, none, some 0⟩,
            ⟨5, 50, Color.RED, none, none, some 1⟩] }

/-- The path from the new leaf of `conflictTree` up to the root. -/
def conflictPath : List (Frame Int Nat) :=
  [Frame.R 1 Color.RED Shape.nil 3 31,
   Frame.L 0 Color.BLACK 7 70 (Shape.node 2 Color.RED Shape.nil 8 80 Shape.nil)]

/-! # Theorems -/

/-! ## Sequencing of outcomes -/

@[simp] theorem Res.ok_bind {α β : Type} (a : α) (f : α → Res β) :
    (Res.ok a >>= f) = f a := rfl

@[simp] theorem Res.panic_bind {α β : Type} (f : α → Res β) :
    ((Res.panic : Res α) >>= f) = Res.panic := rfl

@[simp] theorem Res.diverge_bind {α β : Type} (f : α → Res β) :
    ((Res.diverge : Res α) >>= f) = Res.diverge := rfl

@[simp] theorem Res.pure_eq {α : Type} (a : α) : (pure a : Res α) = Res.ok a := rfl

theorem Res.bind_eq_ok {α β : Type} {x : Res α} {f : α → Res β} {b : β} :
    (x >>= f) = Res.ok b ↔ ∃ a, x = Res.ok a ∧ f a = Res.ok b := by
  cases x <;> simp

/-! ## Shapes and paths -/

theorem addrs_plug (ctx : List (Frame K V)) (s : Shape K V) :
    (plug ctx s).addrs = ctxBefore ctx ++ s.addrs ++ ctxAfter ctx := by
  induction ctx generalizing s with
  | nil => simp [plug, ctxBefore, ctxAfter]
  | cons f rest ih =>
    cases f <;> simp [plug, Frame.fill, ctxBefore, ctxAfter, ih, Shape.addrs]

@[simp] theorem ptr_fill (f : Frame K V) (s : Shape K V) : (f.fill s).ptr = some f.addr := by
  cases f <;> rfl

theorem ptr_plug_cons (f : Frame K V) (rest : List (Frame K V)) (s s' : Shape K V) :
    (plug (f :: rest) s).ptr = (plug (f :: rest) s').ptr := by
  induction rest generalizing f s s' with
  | nil => simp [plug]
  | cons g rest ih =>
    have := ih g (f.fill s) (f.fill s')
    simpa [plug] using this

theorem addrs_fill (f : Frame K V) (s : Shape K V) :
    (f.fill s).addrs = ctxBefore [f] ++ s.addrs ++ ctxAfter [f] := by
  cases f <;> simp [Frame.fill, ctxBefore, ctxAfter, Shape.addrs]

theorem Rep.agree {m m' : List (Node K V)} {par : Ptr} {s : Shape K V}
    (h : Rep m par s) (hm : ∀ a ∈ s.addrs, m'[a]? = m[a]?) : Rep m' par s := by
  induction s generalizing par with
  | nil => trivial
  | node a c l k v r ihl ihr =>
    obtain ⟨h1, h2, h3⟩ := h
    refine ⟨?_, ihl h2 ?_, ihr h3 ?_⟩
    · rw [hm a (by simp [Shape.addrs])]; exact h1
    · intro b hb; exact hm b (by simp [Shape.addrs, hb])
    · intro b hb; exact hm b (by simp [Shape.addrs, hb])

theorem Rep.lookup {m : List (Node K V)} {par : Ptr} {s : Shape K V}
    (h : Rep m par s) {a : Nat} (ha : a ∈ s.addrs) : ∃ n, m[a]? = some n := by
  induction s generalizing par with
  | nil => simp [Shape.addrs] at ha
  | node b c l k v r ihl ihr =>
    obtain ⟨h1, h2, h3⟩ := h
    simp only [Shape.addrs, List.mem_append, List.mem_cons] at ha
    rcases ha with ha | rfl | ha
    · exact ihl h2 ha
    · exact ⟨_, h1⟩
    · exact ihr h3 ha

theorem rep_plug {m : List (Node K V)} (ctx : List (Frame K V)) (s : Shape K V) :
    Rep m none (plug ctx s) ↔ RepCtx m ctx s.ptr ∧ Rep m (ctxPtr ctx) s := by
  induction ctx generalizing s with
  | nil => simp [plug, RepCtx, ctxPtr]
  | cons f rest ih =>
    rw [plug, ih]
    cases f <;> simp [RepCtx, Frame.fill, Rep, Frame.cell, Frame.addr, Frame.sibling, ctxPtr, Shape.ptr] <;> tauto

theorem RepCtx.agreeCtx {m m' : List (Node K V)} {ctx : List (Frame K V)} {hole : Ptr}
    (h : RepCtx m ctx hole) (hm : ∀ a ∈ ctxBefore ctx ++ ctxAfter ctx, m'[a]? = m[a]?) :
    RepCtx m' ctx hole := by
  induction ctx generalizing hole with
  | nil => trivial
  | cons f rest ih =>
    obtain ⟨h1, h2, h3⟩ := h
    refine ⟨?_, h2.agree ?_, ih h3 ?_⟩
    · rw [hm _ (by cases f <;> simp [ctxBefore, ctxAfter, Frame.addr])]; exact h1
    · intro b hb; exact hm b (by cases f <;> simp_all [ctxBefore, ctxAfter, Frame.sibling])
    · intro b hb
      apply hm b
      cases f <;> simp only [ctxBefore, ctxAfter, List.mem_append, List.mem_cons] at hb ⊢ <;> tauto

theorem Models.cell {t : Tree K V} {ctx : List (Frame K V)} {a : Nat} {c : Color}
    {l r : Shape K V} {k : K} {v : V} (h : Models t (plug ctx (Shape.node a c l k v r))) :
    t.mem[a]? = some { key := k, payload := v, color := c, left := l.ptr, right := r.ptr,
                       parent := ctxPtr ctx } :=
  ((rep_plug ctx _).1 h.rep).2.1

theorem count_ctx_cons (f : Frame K V) (rest : List (Frame K V)) (X : List Nat) (a : Nat) :
    (ctxBefore (f :: rest) ++ X ++ ctxAfter (f :: rest)).count a
      = (if f.addr = a then 1 else 0) + f.sibling.addrs.count a
        + (ctxBefore rest ++ X ++ ctxAfter rest).count a := by
  cases f <;>
    simp only [ctxBefore, ctxAfter, Frame.addr, Frame.sibling, List.count_append,
      List.count_cons, List.count_nil, beq_iff_eq] <;> omega

theorem mem_iff_count {l : List Nat} {a : Nat} : a ∈ l ↔ 1 ≤ l.count a := by
  rw [← List.count_pos_iff]; omega

theorem nodup_ctx_cons {f : Frame K V} {rest : List (Frame K V)} {X : List Nat}
    (h : (ctxBefore (f :: rest) ++ X ++ ctxAfter (f :: rest)).Nodup) :
    f.addr ∉ f.sibling.addrs ∧ f.addr ∉ ctxBefore rest ++ X ++ ctxAfter rest
      ∧ (∀ a ∈ f.sibling.addrs, a ≠ f.addr ∧ a ∉ ctxBefore rest ++ X ++ ctxAfter rest)
      ∧ (ctxBefore rest ++ X ++ ctxAfter rest).Nodup := by
  rw [List.nodup_iff_count_le_one] at h
  refine ⟨?_, ?_, ?_, ?_⟩
  · have := h f.addr
    rw [count_ctx_cons] at this
    rw [mem_iff_count]; simp at this; omega
  · have := h f.addr
    rw [count_ctx_cons] at this
    rw [mem_iff_count]; simp only [if_true] at this; omega
  · intro a ha
    have := h a
    rw [count_ctx_cons] at this
    rw [mem_iff_count] at ha ⊢
    constructor
    · rintro rfl; simp at this; omega
    · omega
  · rw [List.nodup_iff_count_le_one]
    intro a
    have := h a
    rw [count_ctx_cons] at this
    omega

theorem mem_ctx_cons {f : Frame K V} {rest : List (Frame K V)} {a : Nat} :
    a ∈ ctxBefore (f :: rest) ++ ctxAfter (f :: rest)
      ↔ a = f.addr ∨ a ∈ f.sibling.addrs ∨ a ∈ ctxBefore rest ++ ctxAfter rest := by
  cases f <;> simp only [ctxBefore, ctxAfter, Frame.addr, Frame.sibling, List.mem_append,
    List.mem_cons, List.mem_singleton, List.not_mem_nil] <;> tauto

theorem Models.replace {t t' : Tree K V} {ctx : List (Frame K V)} {s s' : Shape K V}
    (h : Models t (plug ctx s))
    (hroot : t'.root = (plug ctx s').ptr)
    (hout : ∀ a ∈ ctxBefore ctx ++ ctxAfter ctx, some a ≠ ctxPtr ctx → t'.mem[a]? = t.mem[a]?)
    (hpar : ∀ f rest, ctx = f :: rest → t'.mem[f.addr]? = some (f.cell s'.ptr (ctxPtr rest)))
    (hrep : Rep t'.mem (ctxPtr ctx) s')
    (hnd : (ctxBefore ctx ++ s'.addrs ++ ctxAfter ctx).Nodup) : Models t' (plug ctx s') := by
  refine ⟨hroot, ?_, by rw [addrs_plug]; exact hnd⟩
  rw [rep_plug]
  refine ⟨?_, hrep⟩
  cases ctx with
  | nil => trivial
  | cons f rest =>
    obtain ⟨-, h2, h3⟩ := ((rep_plug _ _).1 h.rep).1
    obtain ⟨n1, n2, n3, -⟩ := nodup_ctx_cons hnd
    refine ⟨hpar f rest rfl, h2.agree ?_, h3.agreeCtx ?_⟩
    · intro a ha
      refine hout a (mem_ctx_cons.2 (Or.inr (Or.inl ha))) ?_
      simp only [ctxPtr, ne_eq, Option.some.injEq]
      exact (n3 a ha).1
    · intro a ha
      refine hout a (mem_ctx_cons.2 (Or.inr (Or.inr ha))) ?_
      simp only [ctxPtr, ne_eq, Option.some.injEq]
      rintro rfl
      apply n2
      simp only [List.mem_append] at ha ⊢
      tauto

theorem lookup_set {α : Type} (l : List α) (i j : Nat) (a : α) :
    (l.set i a)[j]? = if j = i then (l[j]?).map (fun _ => a) else l[j]? := by
  rw [List.getElem?_set']
  by_cases h : i = j
  · subst h; rfl
  · have h' : ¬ j = i := fun e => h e.symm
    simp [h, h']

theorem ptr_mem_addrs {s : Shape K V} {a : Nat} (h : s.ptr = some a) : a ∈ s.addrs := by
  cases s with
  | nil => simp [Shape.ptr] at h
  | node b c l k v r =>
    simp only [Shape.ptr, Option.some.injEq] at h
    subst h
    simp [Shape.addrs]

theorem ptr_ne_of_not_mem {s : Shape K V} {a : Nat} (h : a ∉ s.addrs) : s.ptr ≠ some a :=
  fun e => h (ptr_mem_addrs e)

@[simp] theorem ptr_nil : (Shape.nil : Shape K V).ptr = none := rfl

@[simp] theorem ptr_node (a : Nat) (c : Color) (l : Shape K V) (k : K) (v : V) (r : Shape K V) :
    (Shape.node a c l k v r).ptr = some a := rfl

@[simp] theorem ctxPtr_nil : ctxPtr ([] : List (Frame K V)) = none := rfl

@[simp] theorem ctxPtr_cons (f : Frame K V) (rest : List (Frame K V)) :
    ctxPtr (f :: rest) = some f.addr := rfl

@[simp] theorem addr_L (a : Nat) (c : Color) (k : K) (v : V) (r : Shape K V) :
    (Frame.L a c k v r).addr = a := rfl

@[simp] theorem addr_R (a : Nat) (c : Color) (l : Shape K V) (k : K) (v : V) :
    (Frame.R a c l k v).addr = a := rfl

set_option maxHeartbeats 1600000 in
theorem RotateRight_exec {t : Tree K V} {ctx : List (Frame K V)} {y x : Nat} {cy cx : Color}
    {A B C : Shape K V} {kx ky : K} {vx vy : V}
    (h : Models t (plug ctx (Shape.node y cy (Shape.node x cx A kx vx B) ky vy C))) :
    ∃ t', RotateRight t (some y) = Res.ok t'
      ∧ t'.cmp = t.cmp ∧ t'.counter = t.counter ∧ t'.mem.length = t.mem.length
      ∧ t'.root = (plug ctx (Shape.node x cx A kx vx (Shape.node y cy B ky vy C))).ptr
      ∧ t'.mem[x]? = some { key := kx, payload := vx, color := cx, left := A.ptr,
                            right := some y, parent := ctxPtr ctx }
      ∧ t'.mem[y]? = some { key := ky, payload := vy, color := cy, left := B.ptr,
                            right := C.ptr, parent := some x }
      ∧ (∀ b, B.ptr = some b →
          t'.mem[b]? = (t.mem[b]?).map (fun n => { n with parent := some y }))
      ∧ (∀ f rest, ctx = f :: rest → t'.mem[f.addr]? = some (f.cell (some x) (ctxPtr rest)))
      ∧ (∀ a, a ≠ x → a ≠ y → some a ≠ B.ptr → some a ≠ ctxPtr ctx →
          t'.mem[a]? = t.mem[a]?) := by
  obtain ⟨hctx, hy, ⟨hx, hA, hB⟩, hC⟩ := (rep_plug ctx _).1 h.rep
  have hnd := h.nodup
  rw [addrs_plug] at hnd
  have hroot := h.root
  have hc := fun a => List.nodup_iff_count_le_one.1 hnd a
  cases B with
  | nil =>
    cases ctx with
    | nil =>
      simp only [List.count_append, List.count_cons, List.count_nil, Shape.addrs,
        beq_iff_eq] at hc
      have d1 : x ≠ y := by have := hc x; split_ifs at this <;> omega
      simp [RotateRight, getLeft, getRight, getParent, deref, setLeft, setRight, setParent,
        update, hy, hx, lookup_set, d1, d1.symm, plug]
      exact fun a h1 h2 => by simp [h1, h2]
    | cons f rest =>
      obtain ⟨hf, -, -⟩ := hctx
      simp only [count_ctx_cons] at hc
      simp only [List.count_append, List.count_cons, List.count_nil, Shape.addrs,
        beq_iff_eq] at hc
      have d1 : x ≠ y := by have := hc x; split_ifs at this <;> omega
      have d4 : f.addr ≠ x := by have := hc x; split_ifs at this <;> omega
      have d5 : f.addr ≠ y := by have := hc y; split_ifs at this <;> omega
      have hS : f.sibling.ptr ≠ some y := by
        apply ptr_ne_of_not_mem
        rw [mem_iff_count]
        have := hc y; split_ifs at this <;> omega
      cases f with
      | L p cp kp vp S =>
        simp only [addr_L] at d4 d5
        simp [RotateRight, getLeft, getRight, getParent, deref, setLeft, setRight, setParent,
          update, hy, hx, hf, lookup_set, d1, d4, d5, d1.symm,
          d4.symm, d5.symm, Frame.cell] at hf ⊢
        exact ⟨hroot.trans (ptr_plug_cons _ _ _ _), fun a h1 h2 h4 => by simp [h1, h2, h4]⟩
      | R p cp S kp vp =>
        simp only [addr_R] at d4 d5
        simp only [Frame.sibling] at hS
        simp [RotateRight, getLeft, getRight, getParent, deref, setLeft, setRight, setParent,
          update, hy, hx, hf, lookup_set, d1, d4, d5, d1.symm,
          d4.symm, d5.symm, Frame.cell, hS, hS.symm] at hf ⊢
        exact ⟨hroot.trans (ptr_plug_cons _ _ _ _), fun a h1 h2 h4 => by simp [h1, h2, h4]⟩
  | node b cb Bl kb vb Br =>
    obtain ⟨hb, hBl, hBr⟩ := hB
    cases ctx with
    | nil =>
      simp only [List.count_append, List.count_cons, List.count_nil, Shape.addrs,
        beq_iff_eq] at hc
      have d1 : x ≠ y := by have := hc x; split_ifs at this <;> omega
      have d2 : b ≠ x := by have := hc x; split_ifs at this <;> omega
      have d3 : b ≠ y := by have := hc y; split_ifs at this <;> omega
      simp [RotateRight, getLeft, getRight, getParent, deref, setLeft, setRight, setParent,
        update, hy, hx, hb, lookup_set, d1, d2, d3, d1.symm, d2.symm, d3.symm, plug]
      exact fun a h1 h2 h3 => by simp [h1, h2, h3]
    | cons f rest =>
      obtain ⟨hf, -, -⟩ := hctx
      simp only [count_ctx_cons] at hc
      simp only [List.count_append, List.count_cons, List.count_nil, Shape.addrs,
        beq_iff_eq] at hc
      have d1 : x ≠ y := by have := hc x; split_ifs at this <;> omega
      have d2 : b ≠ x := by have := hc x; split_ifs at this <;> omega
      have d3 : b ≠ y := by have := hc y; split_ifs at this <;> omega
      have d4 : f.addr ≠ x := by have := hc x; split_ifs at this <;> omega
      have d5 : f.addr ≠ y := by have := hc y; split_ifs at this <;> omega
      have d6 : f.addr ≠ b := by have := hc b; split_ifs at this <;> omega
      have hS : f.sibling.ptr ≠ some y := by
        apply ptr_ne_of_not_mem
        rw [mem_iff_count]
        have := hc y; split_ifs at this <;> omega
      cases f with
      | L p cp kp vp S =>
        simp only [addr_L] at d4 d5 d6
        simp [RotateRight, getLeft, getRight, getParent, deref, setLeft, setRight, setParent,
          update, hy, hx, hb, hf, lookup_set, d1, d2, d3, d4, d5, d6, d1.symm, d2.symm, d3.symm,
          d4.symm, d5.symm, d6.symm, Frame.cell] at hf ⊢
        exact ⟨hroot.trans (ptr_plug_cons _ _ _ _), fun a h1 h2 h3 h4 => by simp [h1, h2, h3, h4]⟩
      | R p cp S kp vp =>
        simp only [addr_R] at d4 d5 d6
        simp only [Frame.sibling] at hS
        simp [RotateRight, getLeft, getRight, getParent, deref, setLeft, setRight, setParent,
          update, hy, hx, hb, hf, lookup_set, d1, d2, d3, d4, d5, d6, d1.symm, d2.symm, d3.symm,
          d4.symm, d5.symm, d6.symm, Frame.cell, hS, hS.symm] at hf ⊢
        exact ⟨hroot.trans (ptr_plug_cons _ _ _ _), fun a h1 h2 h3 h4 => by simp [h1, h2, h3, h4]⟩
theorem count_ptr {s : Shape K V} {a : Nat} (h : s.ptr = some a) : 1 ≤ s.addrs.count a :=
  mem_iff_count.1 (ptr_mem_addrs h)

theorem count_ctxPtr {ctx : List (Frame K V)} {a : Nat} (h : ctxPtr ctx = some a) :
    1 ≤ (ctxBefore ctx).count a + (ctxAfter ctx).count a := by
  cases ctx with
  | nil => simp at h
  | cons f rest =>
    simp only [ctxPtr_cons, Option.some.injEq] at h
    subst h
    cases f <;> simp [ctxBefore, ctxAfter, List.count_append, List.count_cons] <;> omega

theorem RotateRight_spec {t : Tree K V} {ctx : List (Frame K V)} {y x : Nat} {cy cx : Color}
    {A B C : Shape K V} {kx ky : K} {vx vy : V}
    (h : Models t (plug ctx (Shape.node y cy (Shape.node x cx A kx vx B) ky vy C))) :
    ∃ t', RotateRight t (some y) = Res.ok t'
      ∧ Models t' (plug ctx (Shape.node x cx A kx vx (Shape.node y cy B ky vy C)))
      ∧ Framed t t' (plug ctx (Shape.node y cy (Shape.node x cx A kx vx B) ky vy C)) := by
  obtain ⟨t', he, hcmp, hcnt, hlen, hroot, hx', hy', hb', hf', hmod⟩ := RotateRight_exec h
  obtain ⟨hctx, hy, ⟨hx, hA, hB⟩, hC⟩ := (rep_plug ctx _).1 h.rep
  have hnd := h.nodup
  rw [addrs_plug] at hnd
  have hnd' : (ctxBefore ctx ++ (Shape.node x cx A kx vx (Shape.node y cy B ky vy C)).addrs
      ++ ctxAfter ctx).Nodup := by
    simpa [Shape.addrs] using hnd
  have hc := fun a => List.nodup_iff_count_le_one.1 hnd a
  simp only [List.count_append, List.count_cons, List.count_nil, Shape.addrs,
    beq_iff_eq] at hc
  -- cells away from the rotated pair, the moved subtree root and the parent are untouched
  have hfar : ∀ a, (∀ z, B.ptr = some z → a ≠ z) → (∀ z, ctxPtr ctx = some z → a ≠ z) →
      a ≠ x → a ≠ y → t'.mem[a]? = t.mem[a]? := by
    intro a h1 h2 h3 h4
    refine hmod a h3 h4 ?_ ?_
    · intro e; exact h1 a e.symm rfl
    · intro e; exact h2 a e.symm rfl
  refine ⟨t', he, Models.replace h hroot ?_ hf' ⟨hx', hA.agree ?_, hy', ?_, hC.agree ?_⟩ hnd',
    hcmp, hcnt, hlen, ?_⟩
  · intro a ha hne
    rw [List.mem_append, mem_iff_count, mem_iff_count] at ha
    have := hc a
    refine hfar a ?_ ?_ ?_ ?_
    · intro z hz e; subst e; have := count_ptr hz; omega
    · intro z hz e; subst e; exact hne hz.symm
    · intro e; subst e; simp only [↓reduceIte] at this; omega
    · intro e; subst e; simp only [↓reduceIte] at this; omega
  · intro a ha
    rw [mem_iff_count] at ha
    have := hc a
    refine hfar a ?_ ?_ ?_ ?_
    · intro z hz e; subst e; have := count_ptr hz; omega
    · intro z hz e; subst e; have := count_ctxPtr hz; omega
    · intro e; subst e; simp only [↓reduceIte] at this; omega
    · intro e; subst e; simp only [↓reduceIte] at this; omega
  · cases B with
    | nil => trivial
    | node b cb Bl kb vb Br =>
      obtain ⟨hb, hBl, hBr⟩ := hB
      simp only [Shape.addrs, List.count_append, List.count_cons, beq_iff_eq] at hc
      refine ⟨?_, hBl.agree ?_, hBr.agree ?_⟩
      · rw [hb' b rfl, hb]; rfl
      · intro a ha
        rw [mem_iff_count] at ha
        have := hc a
        refine hfar a ?_ ?_ ?_ ?_
        · intro z hz e; subst e; simp only [ptr_node, Option.some.injEq] at hz; subst hz
          simp only [↓reduceIte] at this; omega
        · intro z hz e; subst e; have := count_ctxPtr hz; omega
        · intro e; subst e; simp only [↓reduceIte] at this; omega
        · intro e; subst e; simp only [↓reduceIte] at this; omega
      · intro a ha
        rw [mem_iff_count] at ha
        have := hc a
        refine hfar a ?_ ?_ ?_ ?_
        · intro z hz e; subst e; simp only [ptr_node, Option.some.injEq] at hz; subst hz
          simp only [↓reduceIte] at this; omega
        · intro z hz e; subst e; have := count_ctxPtr hz; omega
        · intro e; subst e; simp only [↓reduceIte] at this; omega
        · intro e; subst e; simp only [↓reduceIte] at this; omega
  · intro a ha
    rw [mem_iff_count] at ha
    have := hc a
    refine hfar a ?_ ?_ ?_ ?_
    · intro z hz e; subst e; have := count_ptr hz; omega
    · intro z hz e; subst e; have := count_ctxPtr hz; omega
    · intro e; subst e; simp only [↓reduceIte] at this; omega
    · intro e; subst e; simp only [↓reduceIte] at this; omega
  · intro a ha
    rw [addrs_plug, mem_iff_count] at ha
    simp only [List.count_append, List.count_cons, List.count_nil, Shape.addrs,
      beq_iff_eq] at ha
    refine hfar a ?_ ?_ ?_ ?_
    · intro z hz e; subst e; have := count_ptr hz; omega
    · intro z hz e; subst e; have := count_ctxPtr hz; omega
    · intro e; subst e; simp only [↓reduceIte] at ha; omega
    · intro e; subst e; simp only [↓reduceIte] at ha; omega

set_option maxHeartbeats 1600000 in
theorem RotateLeft_exec {t : Tree K V} {ctx : List (Frame K V)} {y x : Nat} {cy cx : Color}
    {A B C : Shape K V} {kx ky : K} {vx vy : V}
    (h : Models t (plug ctx (Shape.node x cx A kx vx (Shape.node y cy B ky vy C)))) :
    ∃ t', RotateLeft t (some x) = Res.ok t'
      ∧ t'.cmp = t.cmp ∧ t'.counter = t.counter ∧ t'.mem.length = t.mem.length
      ∧ t'.root = (plug ctx (Shape.node y cy (Shape.node x cx A kx vx B) ky vy C)).ptr
      ∧ t'.mem[x]? = some { key := kx, payload := vx, color := cx, left := A.ptr,
                            right := B.ptr, parent := some y }
      ∧ t'.mem[y]? = some { key := ky, payload := vy, color := cy, left := some x,
                            right := C.ptr, parent := ctxPtr ctx }
      ∧ (∀ b, B.ptr = some b →
          t'.mem[b]? = (t.mem[b]?).map (fun n => { n with parent := some x }))
      ∧ (∀ f rest, ctx = f :: rest → t'.mem[f.addr]? = some (f.cell (some y) (ctxPtr rest)))
      ∧ (∀ a, a ≠ x → a ≠ y → some a ≠ B.ptr → some a ≠ ctxPtr ctx →
          t'.mem[a]? = t.mem[a]?) := by
  obtain ⟨hctx, hx, hA, hy, hB, hC⟩ := (rep_plug ctx _).1 h.rep
  have hnd := h.nodup
  rw [addrs_plug] at hnd
  have hroot := h.root
  have hc := fun a => List.nodup_iff_count_le_one.1 hnd a
  cases B with
  | nil =>
    cases ctx with
    | nil =>
      simp only [List.count_append, List.count_cons, List.count_nil, Shape.addrs,
        beq_iff_eq] at hc
      have d1 : x ≠ y := by have := hc x; split_ifs at this <;> omega
      simp [RotateLeft, getLeft, getRight, getParent, deref, setLeft, setRight, setParent,
        update, hy, hx, lookup_set, d1, d1.symm, plug]
      exact fun a h1 h2 => by simp [h1, h2]
    | cons f rest =>
      obtain ⟨hf, -, -⟩ := hctx
      simp only [count_ctx_cons] at hc
      simp only [List.count_append, List.count_cons, List.count_nil, Shape.addrs,
        beq_iff_eq] at hc
      have d1 : x ≠ y := by have := hc x; split_ifs at this <;> omega
      have d4 : f.addr ≠ x := by have := hc x; split_ifs at this <;> omega
      have d5 : f.addr ≠ y := by have := hc y; split_ifs at this <;> omega
      have hS : f.sibling.ptr ≠ some x := by
        apply ptr_ne_of_not_mem
        rw [mem_iff_count]
        have := hc x; split_ifs at this <;> omega
      cases f with
      | L p cp kp vp S =>
        simp only [addr_L] at d4 d5
        simp [RotateLeft, getLeft, getRight, getParent, deref, setLeft, setRight, setParent,
          update, hy, hx, hf, lookup_set, d1, d4, d5, d1.symm,
          d4.symm, d5.symm, Frame.cell] at hf ⊢
        exact ⟨hroot.trans (ptr_plug_cons _ _ _ _), fun a h1 h2 h4 => by simp [h1, h2, h4]⟩
      | R p cp S kp vp =>
        simp only [addr_R] at d4 d5
        simp only [Frame.sibling] at hS
        simp [RotateLeft, getLeft, getRight, getParent, deref, setLeft, setRight, setParent,
          update, hy, hx, hf, lookup_set, d1, d4, d5, d1.symm,
          d4.symm, d5.symm, Frame.cell, hS, hS.symm] at hf ⊢
        exact ⟨hroot.trans (ptr_plug_cons _ _ _ _), fun a h1 h2 h4 => by simp [h1, h2, h4]⟩
  | node b cb Bl kb vb Br =>
    obtain ⟨hb, hBl, hBr⟩ := hB
    cases ctx with
    | nil =>
      simp only [List.count_append, List.count_cons, List.count_nil, Shape.addrs,
        beq_iff_eq] at hc
      have d1 : x ≠ y := by have := hc x; split_ifs at this <;> omega
      have d2 : b ≠ x := by have := hc x; split_ifs at this <;> omega
      have d3 : b ≠ y := by have := hc y; split_ifs at this <;> omega
      simp [RotateLeft, getLeft, getRight, getParent, deref, setLeft, setRight, setParent,
        update, hy, hx, hb, lookup_set, d1, d2, d3, d1.symm, d2.symm, d3.symm, plug]
      exact fun a h1 h2 h3 => by simp [h1, h2, h3]
    | cons f rest =>
      obtain ⟨hf, -, -⟩ := hctx
      simp only [count_ctx_cons] at hc
      simp only [List.count_append, List.count_cons, List.count_nil, Shape.addrs,
        beq_iff_eq] at hc
      have d1 : x ≠ y := by have := hc x; split_ifs at this <;> omega
      have d2 : b ≠ x := by have := hc x; split_ifs at this <;> omega
      have d3 : b ≠ y := by have := hc y; split_ifs at this <;> omega
      have d4 : f.addr ≠ x := by have := hc x; split_ifs at this <;> omega
      have d5 : f.addr ≠ y := by have := hc y; split_ifs at this <;> omega
      have d6 : f.addr ≠ b := by have := hc b; split_ifs at this <;> omega
      have hS : f.sibling.ptr ≠ some x := by
        apply ptr_ne_of_not_mem
        rw [mem_iff_count]
        have := hc x; split_ifs at this <;> omega
      cases f with
      | L p cp kp vp S =>
        simp only [addr_L] at d4 d5 d6
        simp [RotateLeft, getLeft, getRight, getParent, deref, setLeft, setRight, setParent,
          update, hy, hx, hb, hf, lookup_set, d1, d2, d3, d4, d5, d6, d1.symm, d2.symm, d3.symm,
          d4.symm, d5.symm, d6.symm, Frame.cell] at hf ⊢
        exact ⟨hroot.trans (ptr_plug_cons _ _ _ _), fun a h1 h2 h3 h4 => by simp [h1, h2, h3, h4]⟩
      | R p cp S kp vp =>
        simp only [addr_R] at d4 d5 d6
        simp only [Frame.sibling] at hS
        simp [RotateLeft, getLeft, getRight, getParent, deref, setLeft, setRight, setParent,
          update, hy, hx, hb, hf, lookup_set, d1, d2, d3, d4, d5, d6, d1.symm, d2.symm, d3.symm,
          d4.symm, d5.symm, d6.symm, Frame.cell, hS, hS.symm] at hf ⊢
        exact ⟨hroot.trans (ptr_plug_cons _ _ _ _), fun a h1 h2 h3 h4 => by simp [h1, h2, h3, h4]⟩

theorem RotateLeft_spec {t : Tree K V} {ctx : List (Frame K V)} {y x : Nat} {cy cx : Color}
    {A B C : Shape K V} {kx ky : K} {vx vy : V}
    (h : Models t (plug ctx (Shape.node x cx A kx vx (Shape.node y cy B ky vy C)))) :
    ∃ t', RotateLeft t (some x) = Res.ok t'
      ∧ Models t' (plug ctx (Shape.node y cy (Shape.node x cx A kx vx B) ky vy C))
      ∧ Framed t t' (plug ctx (Shape.node x cx A kx vx (Shape.node y cy B ky vy C))) := by
  obtain ⟨t', he, hcmp, hcnt, hlen, hroot, hx', hy', hb', hf', hmod⟩ := RotateLeft_exec h
  obtain ⟨hctx, hx, hA, hy, hB, hC⟩ := (rep_plug ctx _).1 h.rep
  have hnd := h.nodup
  rw [addrs_plug] at hnd
  have hnd' : (ctxBefore ctx ++ (Shape.node y cy (Shape.node x cx A kx vx B) ky vy C).addrs
      ++ ctxAfter ctx).Nodup := by
    simpa [Shape.addrs] using hnd
  have hc := fun a => List.nodup_iff_count_le_one.1 hnd a
  simp only [List.count_append, List.count_cons, List.count_nil, Shape.addrs,
    beq_iff_eq] at hc
  have hfar : ∀ a, (∀ z, B.ptr = some z → a ≠ z) → (∀ z, ctxPtr ctx = some z → a ≠ z) →
      a ≠ x → a ≠ y → t'.mem[a]? = t.mem[a]? := by
    intro a h1 h2 h3 h4
    refine hmod a h3 h4 ?_ ?_
    · intro e; exact h1 a e.symm rfl
    · intro e; exact h2 a e.symm rfl
  refine ⟨t', he, Models.replace h hroot ?_ hf' ⟨hy', ⟨hx', hA.agree ?_, ?_⟩, hC.agree ?_⟩ hnd',
    hcmp, hcnt, hlen, ?_⟩
  · intro a ha hne
    rw [List.mem_append, mem_iff_count, mem_iff_count] at ha
    have := hc a
    refine hfar a ?_ ?_ ?_ ?_
    · intro z hz e; subst e; have := count_ptr hz; omega
    · intro z hz e; subst e; exact hne hz.symm
    · intro e; subst e; simp only [↓reduceIte] at this; omega
    · intro e; subst e; simp only [↓reduceIte] at this; omega
  · intro a ha
    rw [mem_iff_count] at ha
    have := hc a
    refine hfar a ?_ ?_ ?_ ?_
    · intro z hz e; subst e; have := count_ptr hz; omega
    · intro z hz e; subst e; have := count_ctxPtr hz; omega
    · intro e; subst e; simp only [↓reduceIte] at this; omega
    · intro e; subst e; simp only [↓reduceIte] at this; omega
  · cases B with
    | nil => trivial
    | node b cb Bl kb vb Br =>
      obtain ⟨hb, hBl, hBr⟩ := hB
      simp only [Shape.addrs, List.count_append, List.count_cons, beq_iff_eq] at hc
      refine ⟨?_, hBl.agree ?_, hBr.agree ?_⟩
      · rw [hb' b rfl, hb]; rfl
      · intro a ha
        rw [mem_iff_count] at ha
        have := hc a
        refine hfar a ?_ ?_ ?_ ?_
        · intro z hz e; subst e; simp only [ptr_node, Option.some.injEq] at hz; subst hz
          simp only [↓reduceIte] at this; omega
        · intro z hz e; subst e; have := count_ctxPtr hz; omega
        · intro e; subst e; simp only [↓reduceIte] at this; omega
        · intro e; subst e; simp only [↓reduceIte] at this; omega
      · intro a ha
        rw [mem_iff_count] at ha
        have := hc a
        refine hfar a ?_ ?_ ?_ ?_
        · intro z hz e; subst e; simp only [ptr_node, Option.some.injEq] at hz; subst hz
          simp only [↓reduceIte] at this; omega
        · intro z hz e; subst e; have := count_ctxPtr hz; omega
        · intro e; subst e; simp only [↓reduceIte] at this; omega
        · intro e; subst e; simp only [↓reduceIte] at this; omega
  · intro a ha
    rw [mem_iff_count] at ha
    have := hc a
    refine hfar a ?_ ?_ ?_ ?_
    · intro z hz e; subst e; have := count_ptr hz; omega
    · intro z hz e; subst e; have := count_ctxPtr hz; omega
    · intro e; subst e; simp only [↓reduceIte] at this; omega
    · intro e; subst e; simp only [↓reduceIte] at this; omega
  · intro a ha
    rw [addrs_plug, mem_iff_count] at ha
    simp only [List.count_append, List.count_cons, List.count_nil, Shape.addrs,
      beq_iff_eq] at ha
    refine hfar a ?_ ?_ ?_ ?_
    · intro z hz e; subst e; have := count_ptr hz; omega
    · intro z hz e; subst e; have := count_ctxPtr hz; omega
    · intro e; subst e; simp only [↓reduceIte] at ha; omega
    · intro e; subst e; simp only [↓reduceIte] at ha; omega

/-! ## Field updates and reads on modelled trees -/

theorem plug_cons (f : Frame K V) (rest : List (Frame K V)) (s : Shape K V) :
    plug (f :: rest) s = plug rest (f.fill s) := rfl

theorem update_spec {t : Tree K V} {ctx : List (Frame K V)} {a : Nat} {c : Color}
    {l r : Shape K V} {k : K} {v : V} (h : Models t (plug ctx (Shape.node a c l k v r)))
    (g : Node K V → Node K V) (c' : Color) (k' : K) (v' : V)
    (hg : g { key := k, payload := v, color := c, left := l.ptr, right := r.ptr,
              parent := ctxPtr ctx }
        = { key := k', payload := v', color := c', left := l.ptr, right := r.ptr,
            parent := ctxPtr ctx }) :
    ∃ t', update t (some a) g = Res.ok t'
      ∧ Models t' (plug ctx (Shape.node a c' l k' v' r))
      ∧ Framed t t' (plug ctx (Shape.node a c l k v r))
      ∧ t'.root = t.root := by
  obtain ⟨hctx, ha, hl, hr⟩ := (rep_plug ctx _).1 h.rep
  have hnd := h.nodup
  rw [addrs_plug] at hnd
  have hc := fun b => List.nodup_iff_count_le_one.1 hnd b
  simp only [List.count_append, List.count_cons, List.count_nil, Shape.addrs,
    beq_iff_eq] at hc
  have hroot : t.root = (plug ctx (Shape.node a c' l k' v' r)).ptr := by
    rw [h.root]
    cases ctx with
    | nil => rfl
    | cons f rest => exact ptr_plug_cons _ _ _ _
  refine ⟨{ t with mem := t.mem.set a (g ⟨k, v, c, l.ptr, r.ptr, ctxPtr ctx⟩) },
    by simp only [update, ha], ?_, ?_, rfl⟩
  · refine Models.replace h hroot ?_ ?_ ⟨?_, hl.agree ?_, hr.agree ?_⟩ hnd
    · intro b hb hne
      rw [List.mem_append, mem_iff_count, mem_iff_count] at hb
      have := hc b
      have hba : b ≠ a := by intro e; subst e; simp only [↓reduceIte] at this; omega
      simp [lookup_set, hba]
    · intro f rest e
      subst e
      obtain ⟨hf, -, -⟩ := hctx
      have := hc f.addr
      have := @count_ctxPtr K V (f :: rest) f.addr rfl
      have hfa : f.addr ≠ a := by intro e; rw [e] at this; simp only [e, ↓reduceIte] at *; omega
      simp only [lookup_set, hfa, if_false]
      exact hf
    · simp [lookup_set, ha, hg]
    · intro b hb
      rw [mem_iff_count] at hb
      have := hc b
      have hba : b ≠ a := by intro e; subst e; simp only [↓reduceIte] at this; omega
      simp [lookup_set, hba]
    · intro b hb
      rw [mem_iff_count] at hb
      have := hc b
      have hba : b ≠ a := by intro e; subst e; simp only [↓reduceIte] at this; omega
      simp [lookup_set, hba]
  · refine ⟨rfl, rfl, by simp, ?_⟩
    intro b hb
    rw [addrs_plug, mem_iff_count] at hb
    simp only [List.count_append, List.count_cons, List.count_nil, Shape.addrs,
      beq_iff_eq] at hb
    have hba : b ≠ a := by intro e; subst e; simp only [↓reduceIte] at hb; omega
    simp [lookup_set, hba]

theorem setColor_spec {t : Tree K V} {ctx : List (Frame K V)} {a : Nat} {c : Color}
    {l r : Shape K V} {k : K} {v : V} (h : Models t (plug ctx (Shape.node a c l k v r)))
    (c' : Color) :
    ∃ t', setColor t (some a) c' = Res.ok t'
      ∧ Models t' (plug ctx (Shape.node a c' l k v r))
      ∧ Framed t t' (plug ctx (Shape.node a c l k v r))
      ∧ t'.root = t.root :=
  update_spec h _ c' k v rfl

theorem setPayload_spec {t : Tree K V} {ctx : List (Frame K V)} {a : Nat} {c : Color}
    {l r : Shape K V} {k : K} {v : V} (h : Models t (plug ctx (Shape.node a c l k v r)))
    (v' : V) :
    ∃ t', setPayload t (some a) v' = Res.ok t'
      ∧ Models t' (plug ctx (Shape.node a c l k v' r))
      ∧ Framed t t' (plug ctx (Shape.node a c l k v r))
      ∧ t'.root = t.root :=
  update_spec h _ c k v' rfl

/-- What the field reads return on a cell of a modelled tree. -/
theorem Models.reads {t : Tree K V} {ctx : List (Frame K V)} {a : Nat} {c : Color}
    {l r : Shape K V} {k : K} {v : V} (h : Models t (plug ctx (Shape.node a c l k v r))) :
    getParent t (some a) = Res.ok (ctxPtr ctx) ∧ getLeft t (some a) = Res.ok l.ptr
      ∧ getRight t (some a) = Res.ok r.ptr ∧ getColorField t (some a) = Res.ok c
      ∧ GetColor t (some a) = Res.ok c := by
  have := h.cell
  simp [getParent, getLeft, getRight, getColorField, GetColor, deref, this]

/-! ## Simulation of `fix` -/

theorem GetColor_ptr {t : Tree K V} {par : Ptr} {s : Shape K V} (h : Rep t.mem par s) :
    GetColor t s.ptr = Res.ok s.colour := by
  cases s with
  | nil => rfl
  | node a c l k v r =>
    simp [GetColor, getColorField, deref, h.1, Shape.colour]

theorem Models.sibling_rep {t : Tree K V} {f : Frame K V} {ctx : List (Frame K V)} {s : Shape K V}
    (h : Models t (plug (f :: ctx) s)) : Rep t.mem (some f.addr) f.sibling :=
  ((rep_plug _ _).1 h.rep).1.2.1

theorem Models.counts {t : Tree K V} {ctx : List (Frame K V)} {s : Shape K V}
    (h : Models t (plug ctx s)) (a : Nat) :
    (ctxBefore ctx).count a + s.addrs.count a + (ctxAfter ctx).count a ≤ 1 := by
  have := List.nodup_iff_count_le_one.1 h.nodup a
  rw [addrs_plug] at this
  simp only [List.count_append] at this
  omega

set_option maxHeartbeats 1600000 in
theorem fix_rotate_LL {t : Tree K V} {rest : List (Frame K V)} {d p ga : Nat} {cg : Color}
    {l r ps u : Shape K V} {k kp kg : K} {v vp vg : V} (fuel : Nat)
    (h : Models t (plug (Frame.L p Color.RED kp vp ps :: Frame.L ga cg kg vg u :: rest)
      (Shape.node d Color.RED l k v r)))
    (hu : u.colour ≠ Color.RED) :
    ∃ t', fix (fuel + 1) t (some d) = Res.ok t'
      ∧ Models t' (plug rest (Shape.node p Color.BLACK (Shape.node d Color.RED l k v r) kp vp
          (Shape.node ga Color.RED ps kg vg u)))
      ∧ t'.cmp = t.cmp ∧ t'.counter = t.counter := by
  have hp : Models t (plug (Frame.L ga cg kg vg u :: rest)
      (Shape.node p Color.RED (Shape.node d Color.RED l k v r) kp vp ps)) := h
  have hg : Models t (plug rest (Shape.node ga cg
      (Shape.node p Color.RED (Shape.node d Color.RED l k v r) kp vp ps) kg vg u)) := h
  have hcu := GetColor_ptr hp.sibling_rep
  have hcs := GetColor_ptr h.sibling_rep
  simp only [Frame.sibling] at hcu hcs
  have hcnt := fun a => h.counts a
  simp only [ctxBefore, ctxAfter, List.count_append, List.count_cons, List.count_nil,
    Shape.addrs, beq_iff_eq] at hcnt
  have hups : u.ptr ≠ some p := by
    apply ptr_ne_of_not_mem; rw [mem_iff_count]
    have := hcnt p; simp only [↓reduceIte] at this; omega
  have hpsd : ps.ptr ≠ some d := by
    apply ptr_ne_of_not_mem; rw [mem_iff_count]
    have := hcnt d; simp only [↓reduceIte] at this; omega
  have hucol : u.colour = Color.BLACK := by
    cases hc : u.colour
    · exact absurd hc hu
    · rfl
  obtain ⟨t1, e1, m1, f1, -⟩ := setColor_spec hp Color.BLACK
  have m1d : Models t1 (plug (Frame.L p Color.BLACK kp vp ps :: Frame.L ga cg kg vg u :: rest)
      (Shape.node d Color.RED l k v r)) := m1
  have m1g : Models t1 (plug rest (Shape.node ga cg
      (Shape.node p Color.BLACK (Shape.node d Color.RED l k v r) kp vp ps) kg vg u)) := m1
  have hcu1 := GetColor_ptr m1.sibling_rep
  simp only [Frame.sibling] at hcu1
  obtain ⟨t2, e2, m2, f2, -⟩ := setColor_spec m1g Color.RED
  have m2p : Models t2 (plug (Frame.L ga Color.RED kg vg u :: rest)
      (Shape.node p Color.BLACK (Shape.node d Color.RED l k v r) kp vp ps)) := m2
  have m2d : Models t2 (plug (Frame.L p Color.BLACK kp vp ps :: Frame.L ga Color.RED kg vg u :: rest)
      (Shape.node d Color.RED l k v r)) := m2
  obtain ⟨t3, e3, m3, f3⟩ := RotateRight_spec m2
  refine ⟨t3, ?_, m3, f3.1.trans (f2.1.trans f1.1), f3.2.1.trans (f2.2.1.trans f1.2.1)⟩
  simp [fix, grand, h.reads, hp.reads, hg.reads, hcu, hucol, hups, hups.symm, hpsd, hpsd.symm,
    e1, m1.reads, m1d.reads, m1g.reads, hcu1, e2, m2.reads, m2p.reads, m2d.reads, e3]

set_option maxHeartbeats 1600000 in
theorem fix_rotate_RR {t : Tree K V} {rest : List (Frame K V)} {d p ga : Nat} {cg : Color}
    {l r pl u : Shape K V} {k kp kg : K} {v vp vg : V} (fuel : Nat)
    (h : Models t (plug (Frame.R p Color.RED pl kp vp :: Frame.R ga cg u kg vg :: rest)
      (Shape.node d Color.RED l k v r)))
    (hu : u.colour ≠ Color.RED) :
    ∃ t', fix (fuel + 1) t (some d) = Res.ok t'
      ∧ Models t' (plug rest (Shape.node p Color.BLACK (Shape.node ga Color.RED u kg vg pl) kp vp
          (Shape.node d Color.RED l k v r)))
      ∧ t'.cmp = t.cmp ∧ t'.counter = t.counter := by
  have hp : Models t (plug (Frame.R ga cg u kg vg :: rest)
      (Shape.node p Color.RED pl kp vp (Shape.node d Color.RED l k v r))) := h
  have hg : Models t (plug rest (Shape.node ga cg u kg vg
      (Shape.node p Color.RED pl kp vp (Shape.node d Color.RED l k v r)))) := h
  have hcu := GetColor_ptr hp.sibling_rep
  simp only [Frame.sibling] at hcu
  have hcnt := fun a => h.counts a
  simp only [ctxBefore, ctxAfter, List.count_append, List.count_cons, List.count_nil,
    Shape.addrs, beq_iff_eq] at hcnt
  have hups : u.ptr ≠ some p := by
    apply ptr_ne_of_not_mem; rw [mem_iff_count]
    have := hcnt p; simp only [↓reduceIte] at this; omega
  have hpld : pl.ptr ≠ some d := by
    apply ptr_ne_of_not_mem; rw [mem_iff_count]
    have := hcnt d; simp only [↓reduceIte] at this; omega
  have hucol : u.colour = Color.BLACK := by
    cases hc : u.colour
    · exact absurd hc hu
    · rfl
  obtain ⟨t1, e1, m1, f1, -⟩ := setColor_spec hp Color.BLACK
  have m1d : Models t1 (plug (Frame.R p Color.BLACK pl kp vp :: Frame.R ga cg u kg vg :: rest)
      (Shape.node d Color.RED l k v r)) := m1
  have m1g : Models t1 (plug rest (Shape.node ga cg u kg vg
      (Shape.node p Color.BLACK pl kp vp (Shape.node d Color.RED l k v r)))) := m1
  have hcu1 := GetColor_ptr m1.sibling_rep
  simp only [Frame.sibling] at hcu1
  obtain ⟨t2, e2, m2, f2, -⟩ := setColor_spec m1g Color.RED
  have m2p : Models t2 (plug (Frame.R ga Color.RED u kg vg :: rest)
      (Shape.node p Color.BLACK pl kp vp (Shape.node d Color.RED l k v r))) := m2
  have m2d : Models t2 (plug (Frame.R p Color.BLACK pl kp vp :: Frame.R ga Color.RED u kg vg :: rest)
      (Shape.node d Color.RED l k v r)) := m2
  obtain ⟨t3, e3, m3, f3⟩ := RotateLeft_spec m2
  refine ⟨t3, ?_, m3, f3.1.trans (f2.1.trans f1.1), f3.2.1.trans (f2.2.1.trans f1.2.1)⟩
  simp [fix, grand, h.reads, hp.reads, hg.reads, hcu, hucol, hups, hups.symm, hpld, hpld.symm,
    e1, m1.reads, m1d.reads, m1g.reads, hcu1, e2, m2.reads, m2p.reads, m2d.reads, e3]

set_option maxHeartbeats 1600000 in
theorem fix_rotate_RL {t : Tree K V} {rest : List (Frame K V)} {d p ga : Nat} {cg : Color}
    {l r pl u : Shape K V} {k kp kg : K} {v vp vg : V} (fuel : Nat)
    (h : Models t (plug (Frame.R p Color.RED pl kp vp :: Frame.L ga cg kg vg u :: rest)
      (Shape.node d Color.RED l k v r)))
    (hu : u.colour ≠ Color.RED) :
    ∃ t', fix (fuel + 1) t (some d) = Res.ok t'
      ∧ Models t' (plug rest (Shape.node d Color.BLACK (Shape.node p Color.RED pl kp vp l) k v
          (Shape.node ga Color.RED r kg vg u)))
      ∧ t'.cmp = t.cmp ∧ t'.counter = t.counter := by
  have hp : Models t (plug (Frame.L ga cg kg vg u :: rest)
      (Shape.node p Color.RED pl kp vp (Shape.node d Color.RED l k v r))) := h
  have hg : Models t (plug rest (Shape.node ga cg
      (Shape.node p Color.RED pl kp vp (Shape.node d Color.RED l k v r)) kg vg u)) := h
  have hcu := GetColor_ptr hp.sibling_rep
  simp only [Frame.sibling] at hcu
  have hcnt := fun a => h.counts a
  simp only [ctxBefore, ctxAfter, List.count_append, List.count_cons, List.count_nil,
    Shape.addrs, beq_iff_eq] at hcnt
  have hpld : pl.ptr ≠ some d := by
    apply ptr_ne_of_not_mem; rw [mem_iff_count]
    have := hcnt d; simp only [↓reduceIte] at this; omega
  have hucol : u.colour = Color.BLACK := by
    cases hc : u.colour
    · exact absurd hc hu
    · rfl
  obtain ⟨t1, e1, m1, f1⟩ := RotateLeft_spec hp
  have m1p : Models t1 (plug (Frame.L d Color.RED k v r :: Frame.L ga cg kg vg u :: rest)
      (Shape.node p Color.RED pl kp vp l)) := m1
  obtain ⟨t2, e2, m2, f2, -⟩ := setColor_spec m1 Color.BLACK
  have m2p : Models t2 (plug (Frame.L d Color.BLACK k v r :: Frame.L ga cg kg vg u :: rest)
      (Shape.node p Color.RED pl kp vp l)) := m2
  have m2g : Models t2 (plug rest (Shape.node ga cg
      (Shape.node d Color.BLACK (Shape.node p Color.RED pl kp vp l) k v r) kg vg u)) := m2
  have hcu2 := GetColor_ptr m2.sibling_rep
  simp only [Frame.sibling] at hcu2
  obtain ⟨t3, e3, m3, f3, -⟩ := setColor_spec m2g Color.RED
  have m3d : Models t3 (plug (Frame.L ga Color.RED kg vg u :: rest)
      (Shape.node d Color.BLACK (Shape.node p Color.RED pl kp vp l) k v r)) := m3
  have m3p : Models t3 (plug (Frame.L d Color.BLACK k v r :: Frame.L ga Color.RED kg vg u :: rest)
      (Shape.node p Color.RED pl kp vp l)) := m3
  obtain ⟨t4, e4, m4, f4⟩ := RotateRight_spec m3
  refine ⟨t4, ?_, m4, f4.1.trans (f3.1.trans (f2.1.trans f1.1)),
    f4.2.1.trans (f3.2.1.trans (f2.2.1.trans f1.2.1))⟩
  simp [fix, grand, h.reads, hp.reads, hg.reads, hcu, hucol, hpld, hpld.symm,
    e1, m1.reads, m1p.reads, e2, m2.reads, m2p.reads, m2g.reads, hcu2, e3, m3.reads, m3d.reads,
    m3p.reads, e4]

set_option maxHeartbeats 1600000 in
theorem fix_rotate_LR {t : Tree K V} {rest : List (Frame K V)} {d p ga : Nat} {cg : Color}
    {l r ps u : Shape K V} {k kp kg : K} {v vp vg : V} (fuel : Nat)
    (h : Models t (plug (Frame.L p Color.RED kp vp ps :: Frame.R ga cg u kg vg :: rest)
      (Shape.node d Color.RED l k v r)))
    (hu : u.colour ≠ Color.RED) :
    ∃ t', fix (fuel + 1) t (some d) = Res.ok t'
      ∧ Models t' (plug rest (Shape.node d Color.BLACK (Shape.node ga Color.RED u kg vg l) k v
          (Shape.node p Color.RED r kp vp ps)))
      ∧ t'.cmp = t.cmp ∧ t'.counter = t.counter := by
  have hp : Models t (plug (Frame.R ga cg u kg vg :: rest)
      (Shape.node p Color.RED (Shape.node d Color.RED l k v r) kp vp ps)) := h
  have hg : Models t (plug rest (Shape.node ga cg u kg vg
      (Shape.node p Color.RED (Shape.node d Color.RED l k v r) kp vp ps))) := h
  have hcu := GetColor_ptr hp.sibling_rep
  simp only [Frame.sibling] at hcu
  have hcnt := fun a => h.counts a
  simp only [ctxBefore, ctxAfter, List.count_append, List.count_cons, List.count_nil,
    Shape.addrs, beq_iff_eq] at hcnt
  have hud : u.ptr ≠ some d := by
    apply ptr_ne_of_not_mem; rw [mem_iff_count]
    have := hcnt d; simp only [↓reduceIte] at this; omega
  have hucol : u.colour = Color.BLACK := by
    cases hc : u.colour
    · exact absurd hc hu
    · rfl
  obtain ⟨t1, e1, m1, f1⟩ := RotateRight_spec hp
  have m1p : Models t1 (plug (Frame.R d Color.RED l k v :: Frame.R ga cg u kg vg :: rest)
      (Shape.node p Color.RED r kp vp ps)) := m1
  have m1g : Models t1 (plug rest (Shape.node ga cg u kg vg
      (Shape.node d Color.RED l k v (Shape.node p Color.RED r kp vp ps)))) := m1
  obtain ⟨t2, e2, m2, f2, -⟩ := setColor_spec m1 Color.BLACK
  have m2p : Models t2 (plug (Frame.R d Color.BLACK l k v :: Frame.R ga cg u kg vg :: rest)
      (Shape.node p Color.RED r kp vp ps)) := m2
  have m2g : Models t2 (plug rest (Shape.node ga cg u kg vg
      (Shape.node d Color.BLACK l k v (Shape.node p Color.RED r kp vp ps)))) := m2
  have hcu2 := GetColor_ptr m2.sibling_rep
  simp only [Frame.sibling] at hcu2
  obtain ⟨t3, e3, m3, f3, -⟩ := setColor_spec m2g Color.RED
  have m3d : Models t3 (plug (Frame.R ga Color.RED u kg vg :: rest)
      (Shape.node d Color.BLACK l k v (Shape.node p Color.RED r kp vp ps))) := m3
  have m3p : Models t3 (plug (Frame.R d Color.BLACK l k v :: Frame.R ga Color.RED u kg vg :: rest)
      (Shape.node p Color.RED r kp vp ps)) := m3
  obtain ⟨t4, e4, m4, f4⟩ := RotateLeft_spec m3
  refine ⟨t4, ?_, m4, f4.1.trans (f3.1.trans (f2.1.trans f1.1)),
    f4.2.1.trans (f3.2.1.trans (f2.2.1.trans f1.2.1))⟩
  simp [fix, grand, h.reads, hp.reads, hg.reads, hcu, hucol, hud, hud.symm,
    e1, m1.reads, m1p.reads, m1g.reads, e2, m2.reads, m2p.reads, m2g.reads, hcu2, e3, m3.reads,
    m3d.reads, m3p.reads, e4]

theorem setColor_frame {t : Tree K V} {f : Frame K V} {ctx : List (Frame K V)} {s : Shape K V}
    (h : Models t (plug (f :: ctx) s)) (c' : Color) :
    ∃ t', setColor t (some f.addr) c' = Res.ok t'
      ∧ Models t' (plug (f.paint c' :: ctx) s)
      ∧ t'.cmp = t.cmp ∧ t'.counter = t.counter ∧ t'.root = t.root := by
  cases f with
  | L a c k v r =>
    have h' : Models t (plug ctx (Shape.node a c s k v r)) := h
    obtain ⟨t', e, m, fr, hr⟩ := setColor_spec h' c'
    exact ⟨t', e, m, fr.1, fr.2.1, hr⟩
  | R a c l k v =>
    have h' : Models t (plug ctx (Shape.node a c l k v s)) := h
    obtain ⟨t', e, m, fr, hr⟩ := setColor_spec h' c'
    exact ⟨t', e, m, fr.1, fr.2.1, hr⟩

theorem setColor_sibling {t : Tree K V} {f : Frame K V} {ctx : List (Frame K V)} {s : Shape K V}
    (h : Models t (plug (f :: ctx) s)) (hs : f.sibling.colour = Color.RED) (c' : Color) :
    ∃ t', setColor t f.sibling.ptr c' = Res.ok t'
      ∧ Models t' (plug (f.paintSibling c' :: ctx) s)
      ∧ t'.cmp = t.cmp ∧ t'.counter = t.counter ∧ t'.root = t.root := by
  cases f with
  | L a c k v r =>
    cases r with
    | nil => simp [Frame.sibling, Shape.colour] at hs
    | node b cb bl kb vb br =>
      have h' : Models t (plug (Frame.R a c s k v :: ctx) (Shape.node b cb bl kb vb br)) := h
      obtain ⟨t', e, m, fr, hr⟩ := setColor_spec h' c'
      exact ⟨t', e, m, fr.1, fr.2.1, hr⟩
  | R a c l k v =>
    cases l with
    | nil => simp [Frame.sibling, Shape.colour] at hs
    | node b cb bl kb vb br =>
      have h' : Models t (plug (Frame.L a c k v s :: ctx) (Shape.node b cb bl kb vb br)) := h
      obtain ⟨t', e, m, fr, hr⟩ := setColor_spec h' c'
      exact ⟨t', e, m, fr.1, fr.2.1, hr⟩

theorem Models.reads_frame {t : Tree K V} {f : Frame K V} {ctx : List (Frame K V)}
    {s : Shape K V} (h : Models t (plug (f :: ctx) s)) :
    getParent t (some f.addr) = Res.ok (ctxPtr ctx)
      ∧ getColorField t (some f.addr) = Res.ok f.colour
      ∧ GetColor t (some f.addr) = Res.ok f.colour := by
  cases f with
  | L a c k v r =>
    have h' : Models t (plug ctx (Shape.node a c s k v r)) := h
    exact ⟨h'.reads.1, h'.reads.2.2.2.1, h'.reads.2.2.2.2⟩
  | R a c l k v =>
    have h' : Models t (plug ctx (Shape.node a c l k v s)) := h
    exact ⟨h'.reads.1, h'.reads.2.2.2.1, h'.reads.2.2.2.2⟩

theorem ptr_plug_mem (f : Frame K V) (rest : List (Frame K V)) (s : Shape K V) :
    ∃ a, (plug (f :: rest) s).ptr = some a
      ∧ 1 ≤ (ctxBefore (f :: rest) ++ ctxAfter (f :: rest)).count a := by
  induction rest generalizing f s with
  | nil =>
    refine ⟨f.addr, by simp [plug], ?_⟩
    cases f <;> simp [ctxBefore, ctxAfter, List.count_append, List.count_cons]
  | cons g rest ih =>
    obtain ⟨a, h1, h2⟩ := ih g (f.fill s)
    refine ⟨a, h1, ?_⟩
    have := count_ctx_cons f (g :: rest) [] a
    simp only [List.append_nil] at this
    omega

theorem Models.root_ne {t : Tree K V} {g h : Frame K V} {rest : List (Frame K V)}
    {s : Shape K V} (m : Models t (plug (g :: h :: rest) s)) : t.root ≠ some g.addr := by
  have m' : Models t (plug (h :: rest) (g.fill s)) := m
  obtain ⟨a, h1, h2⟩ := ptr_plug_mem h rest (g.fill s)
  rw [m.root]
  show (plug (h :: rest) (g.fill s)).ptr ≠ some g.addr
  rw [h1]
  intro e
  simp only [Option.some.injEq] at e
  rw [e] at h2
  have := m'.counts g.addr
  have hg : 1 ≤ (g.fill s).addrs.count g.addr := mem_iff_count.1 (ptr_mem_addrs (ptr_fill g s))
  simp only [List.count_append] at h2
  omega

theorem Models.root_single {t : Tree K V} {g : Frame K V} {s : Shape K V}
    (m : Models t (plug [g] s)) : t.root = some g.addr := by
  rw [m.root]; simp [plug]

@[simp] theorem addr_paint (f : Frame K V) (c : Color) : (f.paint c).addr = f.addr := by
  cases f <;> rfl

@[simp] theorem addr_paintSibling (f : Frame K V) (c : Color) :
    (f.paintSibling c).addr = f.addr := by
  cases f <;> rfl

theorem paint_paintSibling (f : Frame K V) (c c' : Color) :
    (f.paintSibling c).paint c' = (f.paint c').paintSibling c := by
  cases f <;> rfl

set_option maxHeartbeats 1600000 in
theorem fix_recolor {t : Tree K V} {f g : Frame K V} {rest : List (Frame K V)} {d : Nat}
    {l r : Shape K V} {k : K} {v : V} (fuel : Nat)
    (h : Models t (plug (f :: g :: rest) (Shape.node d Color.RED l k v r)))
    (hf : f.colour = Color.RED) (hu : g.sibling.colour = Color.RED) :
    ∃ t2, Models t2 (plug (g.paintSibling Color.BLACK :: rest)
          ((f.paint Color.BLACK).fill (Shape.node d Color.RED l k v r)))
      ∧ t2.cmp = t.cmp ∧ t2.counter = t.counter
      ∧ (rest = [] → fix (fuel + 1) t (some d) = Res.ok t2)
      ∧ (rest ≠ [] → ∃ t3, Models t3 (plug ((g.paint Color.RED).paintSibling Color.BLACK :: rest)
              ((f.paint Color.BLACK).fill (Shape.node d Color.RED l k v r)))
          ∧ t3.cmp = t.cmp ∧ t3.counter = t.counter
          ∧ fix (fuel + 1) t (some d) = fix fuel t3 (some g.addr)) := by
  cases g with
  | L ga cg kg vg u =>
    have hp : Models t (plug (Frame.L ga cg kg vg u :: rest) (f.fill (Shape.node d Color.RED l k v r))) := h
    have hcu := GetColor_ptr hp.sibling_rep
    rw [hu] at hcu
    obtain ⟨t1, e1, m1, c1, n1, -⟩ := setColor_frame h Color.BLACK
    have m1p : Models t1 (plug (Frame.L ga cg kg vg u :: rest)
        ((f.paint Color.BLACK).fill (Shape.node d Color.RED l k v r))) := m1
    obtain ⟨t2, e2, m2, c2, n2, -⟩ := setColor_sibling m1p hu Color.BLACK
    have m1d : Models t1 (plug (f.paint Color.BLACK :: Frame.L ga cg kg vg u :: rest)
        (Shape.node d Color.RED l k v r)) := m1
    have m2d : Models t2 (plug (f.paint Color.BLACK :: (Frame.L ga cg kg vg u).paintSibling Color.BLACK :: rest)
        (Shape.node d Color.RED l k v r)) := m2
    have r0 := h.reads
    have r0p := h.reads_frame
    have r0g := hp.reads_frame
    have r1 := m1d.reads
    have r1p := m1d.reads_frame
    have r2 := m2d.reads
    have r2p := m2d.reads_frame
    have hg : Models t (plug rest (Shape.node ga cg (f.fill (Shape.node d Color.RED l k v r)) kg vg u)) := h
    have m1g : Models t1 (plug rest (Shape.node ga cg ((f.paint Color.BLACK).fill (Shape.node d Color.RED l k v r)) kg vg u)) := m1
    have r0g := hg.reads
    have r1g := m1g.reads
    simp only [addr_paint, addr_paintSibling, ctxPtr_cons, hf, Frame.sibling, addr_L, ptr_fill,
      Frame.paintSibling] at r0 r0p r1 r1p r2 r2p r0g r1g hcu e1 e2
    refine ⟨t2, m2, c2.trans c1, n2.trans n1, ?_, ?_⟩
    · intro hrest
      subst hrest
      have hroot := m2.root_single
      simp only [addr_paintSibling, addr_L] at hroot
      simp [fix, grand, r0, r0p, r0g, hcu, e1, r1, r1p, r1g, e2, r2, r2p, hroot]
    · intro hrest
      obtain ⟨h0, rest1, rfl⟩ := List.exists_cons_of_ne_nil hrest
      have hroot := m2.root_ne
      simp only [addr_paintSibling, addr_L] at hroot
      obtain ⟨t3, e3, m3, c3, n3, -⟩ := setColor_frame m2 Color.RED
      rw [paint_paintSibling] at m3
      have m3d : Models t3 (plug (f.paint Color.BLACK ::
          ((Frame.L ga cg kg vg u).paint Color.RED).paintSibling Color.BLACK :: h0 :: rest1)
          (Shape.node d Color.RED l k v r)) := m3
      have r3 := m3d.reads
      have r3p := m3d.reads_frame
      simp only [addr_paint, addr_paintSibling, ctxPtr_cons, addr_L] at r3 r3p e3
      refine ⟨t3, m3, c3.trans (c2.trans c1), n3.trans (n2.trans n1), ?_⟩
      simp [fix, grand, r0, r0p, r0g, hcu, e1, r1, r1p, r1g, e2, r2, r2p, hroot,
        hroot.symm, e3, r3, r3p]
  | R ga cg u kg vg =>
    have hp : Models t (plug (Frame.R ga cg u kg vg :: rest) (f.fill (Shape.node d Color.RED l k v r))) := h
    have hcu := GetColor_ptr hp.sibling_rep
    rw [hu] at hcu
    obtain ⟨t1, e1, m1, c1, n1, -⟩ := setColor_sibling hp hu Color.BLACK
    have m1d : Models t1 (plug (f :: (Frame.R ga cg u kg vg).paintSibling Color.BLACK :: rest)
        (Shape.node d Color.RED l k v r)) := m1
    obtain ⟨t2, e2, m2, c2, n2, -⟩ := setColor_frame m1d Color.BLACK
    have m2 : Models t2 (plug ((Frame.R ga cg u kg vg).paintSibling Color.BLACK :: rest)
        ((f.paint Color.BLACK).fill (Shape.node d Color.RED l k v r))) := m2
    have m2d : Models t2 (plug (f.paint Color.BLACK :: (Frame.R ga cg u kg vg).paintSibling Color.BLACK :: rest)
        (Shape.node d Color.RED l k v r)) := m2
    have r0 := h.reads
    have r0p := h.reads_frame
    have r0g := hp.reads_frame
    have r1 := m1d.reads
    have r1p := m1d.reads_frame
    have r2 := m2d.reads
    have r2p := m2d.reads_frame
    have hg : Models t (plug rest (Shape.node ga cg u kg vg (f.fill (Shape.node d Color.RED l k v r)))) := h
    have m1g : Models t1 (plug rest (Shape.node ga cg (u.paint Color.BLACK) kg vg (f.fill (Shape.node d Color.RED l k v r)))) := m1
    have r0g := hg.reads
    have r1g := m1g.reads
    simp only [addr_paint, addr_paintSibling, ctxPtr_cons, hf, Frame.sibling, addr_R, ptr_fill,
      Frame.paintSibling] at r0 r0p r1 r1p r2 r2p r0g r1g hcu e1 e2
    refine ⟨t2, m2, c2.trans c1, n2.trans n1, ?_, ?_⟩
    · intro hrest
      subst hrest
      have hroot := m2.root_single
      simp only [addr_paintSibling, addr_R] at hroot
      simp [fix, grand, r0, r0p, r0g, hcu, e1, r1, r1p, r1g, e2, r2, r2p, hroot]
    · intro hrest
      obtain ⟨h0, rest1, rfl⟩ := List.exists_cons_of_ne_nil hrest
      have hroot := m2.root_ne
      simp only [addr_paintSibling, addr_R] at hroot
      obtain ⟨t3, e3, m3, c3, n3, -⟩ := setColor_frame m2 Color.RED
      rw [paint_paintSibling] at m3
      have m3d : Models t3 (plug (f.paint Color.BLACK ::
          ((Frame.R ga cg u kg vg).paint Color.RED).paintSibling Color.BLACK :: h0 :: rest1)
          (Shape.node d Color.RED l k v r)) := m3
      have r3 := m3d.reads
      have r3p := m3d.reads_frame
      simp only [addr_paint, addr_paintSibling, ctxPtr_cons, addr_R] at r3 r3p e3
      refine ⟨t3, m3, c3.trans (c2.trans c1), n3.trans (n2.trans n1), ?_⟩
      simp [fix, grand, r0, r0p, r0g, hcu, e1, r1, r1p, r1g, e2, r2, r2p, hroot,
        hroot.symm, e3, r3, r3p]

theorem fixA_red (f g : Frame K V) (rest : List (Frame K V)) (d : Nat) (l : Shape K V) (k : K)
    (v : V) (r : Shape K V) :
    fixA (f :: g :: rest) (Shape.node d Color.RED l k v r)
      = if f.colour ≠ Color.RED then
          Res.ok (plug (f :: g :: rest) (Shape.node d Color.RED l k v r))
        else if g.sibling.colour = Color.RED then
          match rest with
          | [] =>
            Res.ok ((g.paintSibling Color.BLACK).fill
              ((f.paint Color.BLACK).fill (Shape.node d Color.RED l k v r)))
          | h :: rest1 =>
            fixA (h :: rest1) (((g.paint Color.RED).paintSibling Color.BLACK).fill
              ((f.paint Color.BLACK).fill (Shape.node d Color.RED l k v r)))
        else
          Res.ok (plug rest (fixRotate f g d l k v r)) := by
  cases rest <;> simp only [fixA]

theorem fix_sim : ∀ (fuel : Nat) (ctx : List (Frame K V)) (s : Shape K V) (t : Tree K V)
    (res : Shape K V), Models t (plug ctx s) → ctx.length < fuel → fixA ctx s = Res.ok res →
    ∃ t', fix fuel t s.ptr = Res.ok t' ∧ Models t' res ∧ t'.cmp = t.cmp
      ∧ t'.counter = t.counter := by
  intro fuel
  induction fuel with
  | zero => intro ctx s t res _ hlen; simp at hlen
  | succ fuel ih =>
    intro ctx s t res h hlen hres
    cases s with
    | nil => simp [fixA] at hres
    | node d c l k v r =>
      cases c with
      | BLACK =>
        simp only [fixA, Res.ok.injEq] at hres
        subst hres
        exact ⟨t, by simp [fix, h.reads], h, rfl, rfl⟩
      | RED =>
        match ctx, h, hlen, hres with
        | [], h, hlen, hres => simp [fixA] at hres
        | [f], h, hlen, hres =>
          simp only [fixA] at hres
          split at hres
          · simp at hres
          · rename_i hf
            simp only [Res.ok.injEq] at hres
            subst hres
            have hne : Color.RED ≠ f.colour := fun e => hf e.symm
            exact ⟨t, by simp [fix, h.reads, h.reads_frame, hne], h, rfl, rfl⟩
        | f :: g :: rest, h, hlen, hres =>
          rw [fixA_red] at hres
          split at hres
          · rename_i hf
            simp only [Res.ok.injEq] at hres
            subst hres
            have hne : Color.RED ≠ f.colour := fun e => hf e.symm
            exact ⟨t, by simp [fix, h.reads, h.reads_frame, hne], h, rfl, rfl⟩
          · rename_i hf
            have hf : f.colour = Color.RED := by
              cases hc : f.colour
              · rfl
              · rw [hc] at hf; simp at hf
            split at hres
            · rename_i hu
              obtain ⟨t2, m2, c2, n2, hnil, hcons⟩ := fix_recolor fuel h hf hu
              cases rest with
              | nil =>
                simp only [Res.ok.injEq] at hres
                subst hres
                exact ⟨t2, hnil rfl, m2, c2, n2⟩
              | cons h0 rest1 =>
                obtain ⟨t3, m3, c3, n3, e3⟩ := hcons (by simp)
                simp only at hres
                have m3' : Models t3 (plug (h0 :: rest1)
                    (((g.paint Color.RED).paintSibling Color.BLACK).fill
                      ((f.paint Color.BLACK).fill (Shape.node d Color.RED l k v r)))) := m3
                have hl : (h0 :: rest1).length < fuel := by
                  simp only [List.length_cons] at hlen ⊢; omega
                obtain ⟨t', e', m', c', n'⟩ := ih _ _ t3 res m3' hl hres
                refine ⟨t', ?_, m', c'.trans c3, n'.trans n3⟩
                rw [ptr_node, e3]
                simpa using e'
            · rename_i hu
              simp only [Res.ok.injEq] at hres
              subst hres
              cases f with
              | L p cp kp vp ps =>
                simp only [Frame.colour] at hf
                subst hf
                cases g with
                | L ga cg kg vg u => exact fix_rotate_LL fuel h hu
                | R ga cg u kg vg => exact fix_rotate_LR fuel h hu
              | R p cp pl kp vp =>
                simp only [Frame.colour] at hf
                subst hf
                cases g with
                | L ga cg kg vg u => exact fix_rotate_RL fuel h hu
                | R ga cg u kg vg => exact fix_rotate_RR fuel h hu

/-! ## Simulation of the search -/

theorem locate_plug (cmp : K → K → Int) (key : K) (s : Shape K V) (ctx : List (Frame K V)) :
    plug (locate cmp key s ctx).1 (locate cmp key s ctx).2 = plug ctx s := by
  induction s generalizing ctx with
  | nil => rfl
  | node a c l k v r ihl ihr =>
    simp only [locate]
    split
    · rw [ihr]; rfl
    · split
      · rw [ihl]; rfl
      · rfl

theorem innerSearch_sim {t : Tree K V} (key : K) : ∀ (fuel : Nat) (s : Shape K V)
    (ctx : List (Frame K V)), Models t (plug ctx s) → s.height < fuel →
    innerSearch fuel t (ctxPtr ctx) s.ptr key (ctxDir ctx)
      = Res.ok ((locate t.cmp key s ctx).2.isNode, ctxPtr (locate t.cmp key s ctx).1,
          ctxDir (locate t.cmp key s ctx).1) := by
  intro fuel
  induction fuel with
  | zero => intro s ctx _ h; simp at h
  | succ fuel ih =>
    intro s ctx h hlt
    cases s with
    | nil => simp [innerSearch, locate, Shape.isNode]
    | node a c l k v r =>
      have hc := h.cell
      simp only [Shape.height] at hlt
      have hr : Models t (plug (Frame.R a c l k v :: ctx) r) := h
      have hl : Models t (plug (Frame.L a c k v r :: ctx) l) := h
      have ihr := ih r _ hr (by omega)
      have ihl := ih l _ hl (by omega)
      simp only [ctxPtr_cons, addr_R, addr_L] at ihr ihl
      rw [show ctxDir (Frame.R a c l k v :: ctx) = Direction.RIGHT from rfl] at ihr
      rw [show ctxDir (Frame.L a c k v r :: ctx) = Direction.LEFT from rfl] at ihl
      simp only [innerSearch, locate, ptr_node, deref, hc]
      by_cases h1 : t.cmp key k > 0
      · simp [h1, ihr]
      · by_cases h2 : t.cmp key k < 0
        · simp [h1, h2, ihl]
        · have h3 : t.cmp key k = 0 := by omega
          simp [h1, h2, h3, Shape.isNode]

theorem Rep.bound {m : List (Node K V)} {par : Ptr} {s : Shape K V} (h : Rep m par s) :
    ∀ a ∈ s.addrs, a < m.length := by
  intro a ha
  obtain ⟨n, hn⟩ := h.lookup ha
  exact (List.getElem?_eq_some_iff.1 hn).1

theorem Models.size_le {t : Tree K V} {s : Shape K V} (h : Models t s) :
    s.addrs.length ≤ t.mem.length := by
  have hsub : s.addrs.toFinset ⊆ Finset.range t.mem.length := by
    intro a ha
    rw [List.mem_toFinset] at ha
    exact Finset.mem_range.2 (h.rep.bound a ha)
  have := Finset.card_le_card hsub
  rwa [List.toFinset_card_of_nodup h.nodup, Finset.card_range] at this

theorem height_le_size (s : Shape K V) : s.height ≤ s.addrs.length := by
  induction s with
  | nil => simp [Shape.height]
  | node a c l k v r ihl ihr =>
    simp only [Shape.height, Shape.addrs, List.length_append, List.length_cons]
    omega

theorem ctx_length_le (ctx : List (Frame K V)) (s : Shape K V) :
    ctx.length + s.addrs.length ≤ (plug ctx s).addrs.length := by
  induction ctx generalizing s with
  | nil => simp [plug]
  | cons f rest ih =>
    have := ih (f.fill s)
    rw [plug_cons]
    have h2 : (f.fill s).addrs.length = s.addrs.length + 1 + f.sibling.addrs.length := by
      cases f <;> simp [Frame.fill, Shape.addrs, Frame.sibling] <;> omega
    simp only [List.length_cons]
    omega

/-! ## Simulation of `InnerPut` and `Put` -/

theorem lookup_append_left {α : Type} (l : List α) (x : α) {i : Nat} {n : α}
    (h : l[i]? = some n) : (l ++ [x])[i]? = some n := by
  have hi := (List.getElem?_eq_some_iff.1 h).1
  rw [List.getElem?_append_left hi]; exact h

theorem Models.ctx_bound {t : Tree K V} {ctx : List (Frame K V)} {s : Shape K V}
    (h : Models t (plug ctx s)) : ∀ a ∈ ctxBefore ctx ++ ctxAfter ctx, a < t.mem.length := by
  intro a ha
  apply h.rep.bound a
  rw [addrs_plug]
  simp only [List.mem_append] at ha ⊢
  tauto

/-- Linking a freshly allocated RED leaf below the last cell of a search path. -/
theorem attach_spec {t : Tree K V} {f : Frame K V} {rest : List (Frame K V)}
    (h : Models t (plug (f :: rest) Shape.nil)) (key : K) (data : V) (n : Node K V)
    (hn : n = ⟨key, data, Color.RED, none, none, some f.addr⟩) :
    ∃ t', (if ctxDir (f :: rest) = Direction.LEFT then
            setLeft { t with mem := t.mem ++ [n] } (some f.addr) (some t.mem.length)
          else
            setRight { t with mem := t.mem ++ [n] } (some f.addr) (some t.mem.length))
          = Res.ok t'
      ∧ Models t' (plug (f :: rest)
          (Shape.node t.mem.length Color.RED Shape.nil key data Shape.nil))
      ∧ t'.cmp = t.cmp ∧ t'.counter = t.counter := by
  obtain ⟨hctx, -⟩ := (rep_plug _ _).1 h.rep
  obtain ⟨hf, -, -⟩ := hctx
  have hb := h.ctx_bound
  have hfl : f.addr < t.mem.length := (List.getElem?_eq_some_iff.1 hf).1
  have hfne : f.addr ≠ t.mem.length := by omega
  have hfne' : t.mem.length ≠ f.addr := by omega
  have hf' := lookup_append_left t.mem n hf
  have hnd := h.nodup
  rw [addrs_plug] at hnd
  have hnd' : (ctxBefore (f :: rest) ++ (Shape.node t.mem.length Color.RED Shape.nil key data
      Shape.nil : Shape K V).addrs ++ ctxAfter (f :: rest)).Nodup := by
    rw [List.nodup_iff_count_le_one] at hnd ⊢
    intro a
    have h1 := hnd a
    simp only [List.count_append, List.count_cons, List.count_nil, Shape.addrs,
      beq_iff_eq] at h1 ⊢
    split_ifs with e
    · subst e
      have h2 : ¬ t.mem.length ∈ ctxBefore (f :: rest) ++ ctxAfter (f :: rest) :=
        fun hm => Nat.lt_irrefl _ (hb _ hm)
      rw [mem_iff_count, List.count_append] at h2
      omega
    · omega
  have key1 : ∀ (t' : Tree K V) (cell : Node K V), t'.root = t.root →
      t'.mem = (t.mem ++ [n]).set f.addr cell →
      cell = f.cell (some t.mem.length) (ctxPtr rest) →
      Models t' (plug (f :: rest)
          (Shape.node t.mem.length Color.RED Shape.nil key data Shape.nil)) := by
    intro t' cell hr hm hcell
    refine Models.replace h ?_ ?_ ?_ ?_ hnd'
    · rw [hr, h.root]; exact ptr_plug_cons _ _ _ _
    · intro a ha hne
      have hal := hb a ha
      simp only [ctxPtr_cons, ne_eq, Option.some.injEq] at hne
      rw [hm, lookup_set, if_neg hne, List.getElem?_append_left hal]
    · intro f' rest' e
      cases e
      rw [hm, lookup_set, if_pos rfl, hf', hcell]
      rfl
    · refine ⟨?_, trivial, trivial⟩
      rw [hm, lookup_set, if_neg hfne', List.getElem?_concat_length, hn]
      rfl
  cases f with
  | L p cp kp vp ps =>
    simp only [ctxDir, if_true, setLeft, update, addr_L] at hf' ⊢
    rw [hf']
    exact ⟨_, rfl, key1 _ _ rfl rfl rfl, rfl, rfl⟩
  | R p cp ps kp vp =>
    simp only [ctxDir, setRight, update, addr_R] at hf' ⊢
    rw [if_neg (by decide), hf']
    exact ⟨_, rfl, key1 _ _ rfl rfl rfl, rfl, rfl⟩

theorem Models.addCounter {t : Tree K V} {s : Shape K V} (h : Models t s) (delta : Int) :
    Models (addCounter t delta) s :=
  ⟨h.root, h.rep, h.nodup⟩

theorem Models.hole_read {t : Tree K V} {f : Frame K V} {rest : List (Frame K V)}
    {s : Shape K V} (h : Models t (plug (f :: rest) s)) :
    (ctxDir (f :: rest) = Direction.LEFT → getLeft t (some f.addr) = Res.ok s.ptr)
      ∧ (ctxDir (f :: rest) ≠ Direction.LEFT → getRight t (some f.addr) = Res.ok s.ptr) := by
  cases f with
  | L a c k v r =>
    have h' : Models t (plug rest (Shape.node a c s k v r)) := h
    exact ⟨fun _ => h'.reads.2.1, fun hne => absurd rfl hne⟩
  | R a c l k v =>
    have h' : Models t (plug rest (Shape.node a c l k v s)) := h
    exact ⟨fun e => by simp [ctxDir] at e, fun _ => h'.reads.2.2.1⟩

theorem locate_length (cmp : K → K → Int) (key : K) (s : Shape K V) (ctx : List (Frame K V)) :
    ctx.length ≤ (locate cmp key s ctx).1.length
      ∧ (s.isNode = true → (locate cmp key s ctx).2 = Shape.nil →
          ctx.length < (locate cmp key s ctx).1.length) := by
  induction s generalizing ctx with
  | nil => simp [locate, Shape.isNode]
  | node a c l k v r ihl ihr =>
    simp only [locate]
    split
    · have := (ihr (Frame.R a c l k v :: ctx)).1
      simp only [List.length_cons] at this
      exact ⟨by omega, fun _ _ => by omega⟩
    · split
      · have := (ihl (Frame.L a c k v r :: ctx)).1
        simp only [List.length_cons] at this
        exact ⟨by omega, fun _ _ => by omega⟩
      · exact ⟨le_refl _, fun _ e => by simp at e⟩

theorem Models.budget_height {t : Tree K V} {s : Shape K V} (h : Models t s) :
    s.height < budget t := by
  have := h.size_le
  have := height_le_size s
  simp only [budget]
  omega

theorem Models.nil_of_root {t : Tree K V} {s : Shape K V} (h : Models t s)
    (hr : t.root = none) : s = Shape.nil := by
  cases s with
  | nil => rfl
  | node a c l k v r => rw [h.root] at hr; simp at hr

theorem InnerPut_empty {t : Tree K V} (h : Models t Shape.nil) (key : K) (data : V) :
    ∃ t', InnerPut t key data = Res.ok (t', some t.mem.length, false)
      ∧ Models t' (Shape.node t.mem.length Color.BLACK Shape.nil key data Shape.nil)
      ∧ t'.cmp = t.cmp ∧ t'.counter = wrap64 (t.counter + 1) := by
  have hr : t.root = none := h.root
  refine ⟨{ root := some t.mem.length, cmp := t.cmp, counter := wrap64 (t.counter + 1),
            mem := t.mem ++ [(⟨key, data, Color.BLACK, none, none, none⟩ : Node K V)] },
    by simp [InnerPut, addCounter, hr, alloc], ⟨rfl, ?_, by simp [Shape.addrs]⟩, rfl, rfl⟩
  exact ⟨by simp, trivial, trivial⟩

theorem InnerPut_search {t : Tree K V} {s0 : Shape K V} (h : Models t s0) (key : K) :
    innerSearch (budget (addCounter t 1)) (addCounter t 1) none (addCounter t 1).root key
        Direction.NODIR
      = Res.ok ((locate t.cmp key s0 []).2.isNode, ctxPtr (locate t.cmp key s0 []).1,
          ctxDir (locate t.cmp key s0 []).1) := by
  have h1 : Models (addCounter t 1) (plug [] s0) := h.addCounter 1
  have := innerSearch_sim key (budget (addCounter t 1)) s0 [] h1 (h.addCounter 1).budget_height
  rw [← (h.addCounter 1).root] at this
  exact this

theorem InnerPut_found_root {t : Tree K V} {s0 : Shape K V} (h : Models t s0) (key : K)
    (data : V) (hs : s0.isNode = true)
    (hl : (locate t.cmp key s0 []).1 = []) (hn : (locate t.cmp key s0 []).2.isNode = true) :
    InnerPut t key data = Res.panic := by
  have hr : t.root ≠ none := by
    rw [h.root]; cases s0 with
    | nil => simp [Shape.isNode] at hs
    | node a c l k v r => simp
  have hr' : (addCounter t 1).root ≠ none := hr
  simp only [InnerPut, hr', if_false]
  rw [InnerPut_search h key, hl, hn]
  simp [ctxDir, getRight, deref]

theorem InnerPut_found {t : Tree K V} {s0 : Shape K V} (h : Models t s0) (key : K)
    (data : V) {f : Frame K V} {rest : List (Frame K V)} {b : Nat} {c : Color}
    {l r : Shape K V} {k : K} {v : V}
    (hl : locate t.cmp key s0 [] = (f :: rest, Shape.node b c l k v r)) :
    ∃ t', InnerPut t key data = Res.ok (t', some b, false)
      ∧ Models t' (plug (f :: rest) (Shape.node b c l k data r))
      ∧ t'.cmp = t.cmp ∧ t'.counter = wrap64 (t.counter + 1)
      ∧ t'.root = t.root
      ∧ setPayload (addCounter t 1) (some b) data = Res.ok t' := by
  have hp : plug (f :: rest) (Shape.node b c l k v r) = s0 := by
    have := locate_plug t.cmp key s0 []
    rw [hl] at this
    exact this
  have hr : (addCounter t 1).root ≠ none := by
    show t.root ≠ none
    rw [h.root, ← hp]
    obtain ⟨a, h1, -⟩ := ptr_plug_mem f rest (Shape.node b c l k v r)
    rw [h1]; simp
  have h1 : Models (addCounter t 1) (plug (f :: rest) (Shape.node b c l k v r)) := by
    rw [hp]; exact h.addCounter 1
  obtain ⟨t', e, m, fr, hroot⟩ := setPayload_spec h1 data
  refine ⟨t', ?_, m, fr.1, fr.2.1, hroot, e⟩
  simp only [InnerPut, hr, if_false]
  rw [InnerPut_search h key, hl]
  have hh := h1.hole_read
  have hh' := m.hole_read
  simp only [ptr_node] at hh hh'
  by_cases hd : ctxDir (f :: rest) = Direction.LEFT
  · simp [Shape.isNode, hd, hh.1 hd, hh'.1 hd, e]
  · simp [Shape.isNode, hd, hh.2 hd, hh'.2 hd, e]

theorem InnerPut_new {t : Tree K V} {s0 : Shape K V} (h : Models t s0) (key : K)
    (data : V) {f : Frame K V} {rest : List (Frame K V)}
    (hl : locate t.cmp key s0 [] = (f :: rest, Shape.nil)) :
    ∃ t', InnerPut t key data = Res.ok (t', some t.mem.length, true)
      ∧ Models t' (plug (f :: rest)
          (Shape.node t.mem.length Color.RED Shape.nil key data Shape.nil))
      ∧ t'.cmp = t.cmp ∧ t'.counter = wrap64 (t.counter + 1) := by
  have hp : plug (f :: rest) Shape.nil = s0 := by
    have := locate_plug t.cmp key s0 []
    rw [hl] at this
    exact this
  have hr : (addCounter t 1).root ≠ none := by
    show t.root ≠ none
    rw [h.root, ← hp]
    obtain ⟨a, h1, -⟩ := ptr_plug_mem f rest (Shape.nil : Shape K V)
    rw [h1]; simp
  have h1 : Models (addCounter t 1) (plug (f :: rest) Shape.nil) := by
    rw [hp]; exact h.addCounter 1
  obtain ⟨t', e, m, hc, hn⟩ := attach_spec h1 key data _ rfl
  refine ⟨t', ?_, m, hc, hn⟩
  simp only [InnerPut, hr, if_false]
  rw [InnerPut_search h key, hl]
  simp only [Shape.isNode, alloc, ctxPtr_cons]
  have e' := e
  simp only [addCounter] at e' ⊢
  simp [e']

theorem Put_sim {t : Tree K V} {s0 : Shape K V} (h : Models t s0) (key : K) (data : V)
    (res : Shape K V) (hres : putA t.cmp key data t.mem.length s0 = Res.ok res) :
    ∃ t', Put t key data = Res.ok (t', none) ∧ Models t' res ∧ t'.cmp = t.cmp
      ∧ t'.counter = wrap64 (t.counter + 1) := by
  cases s0 with
  | nil =>
    simp only [putA, Res.ok.injEq] at hres
    subst hres
    obtain ⟨t', e, m, hc, hn⟩ := InnerPut_empty h key data
    exact ⟨t', by simp [Put, checkKey, e], m, hc, hn⟩
  | node a0 c0 l0 k0 v0 r0 =>
    simp only [putA] at hres
    have hlen := locate_length t.cmp key (Shape.node a0 c0 l0 k0 v0 r0) []
    generalize hl : locate t.cmp key (Shape.node a0 c0 l0 k0 v0 r0) [] = lr at hres hlen
    obtain ⟨ctx, s⟩ := lr
    cases s with
    | nil =>
      cases ctx with
      | nil =>
        have := hlen.2 rfl rfl
        simp at this
      | cons f rest =>
        simp only at hres
        obtain ⟨t1, e1, m1, c1, n1⟩ := InnerPut_new h key data hl
        have hb : (f :: rest).length < budget t1 := by
          have h1 := m1.size_le
          have h2 := ctx_length_le (f :: rest)
            (Shape.node t.mem.length Color.RED Shape.nil key data Shape.nil)
          simp only [Shape.addrs, List.length_append, List.length_cons, List.length_nil] at h2
          simp only [budget, List.length_cons] at h1 h2 ⊢
          omega
        obtain ⟨t2, e2, m2, c2, n2⟩ := fix_sim (budget t1) _ _ t1 res m1 hb hres
        refine ⟨t2, ?_, m2, c2.trans c1, n2.trans n1⟩
        simp only [ptr_node] at e2
        simp [Put, checkKey, e1, e2]
    | node b c l k v r =>
      cases ctx with
      | nil => simp at hres
      | cons f rest =>
        simp only [Res.ok.injEq] at hres
        subst hres
        obtain ⟨t1, e1, m1, c1, n1, -, -⟩ := InnerPut_found h key data hl
        exact ⟨t1, by simp [Put, checkKey, e1], m1, c1, n1⟩

/-- `Put` of a key equal to the key of the root cell panics: the search reports
the match with a `nil` parent, and `InnerPut` dereferences that parent. -/
theorem Put_root_panic {t : Tree K V} {a : Nat} {c : Color} {l r : Shape K V} {k : K} {v : V}
    (h : Models t (Shape.node a c l k v r)) (key : K) (data : V) (hk : t.cmp key k = 0) :
    Put t key data = Res.panic := by
  have hl : locate t.cmp key (Shape.node a c l k v r) [] = ([], Shape.node a c l k v r) := by
    simp [locate, hk]
  have := InnerPut_found_root h key data rfl (by rw [hl]) (by rw [hl]; rfl)
  simp [Put, checkKey, this]

/-! ## Red-black invariants -/

theorem pathBlacks_of_balanced {s : Shape K V} (h : s.balanced) :
    ∀ x ∈ s.pathBlacks, x = s.bh := by
  induction s with
  | nil => simp [Shape.pathBlacks, Shape.bh]
  | node a c l k v r ihl ihr =>
    obtain ⟨h1, h2, h3⟩ := h
    intro x hx
    simp only [Shape.pathBlacks, List.mem_map, List.mem_append] at hx
    obtain ⟨y, hy | hy, rfl⟩ := hx
    · rw [ihl h2 y hy]; rfl
    · rw [ihr h3 y hy, ← h1]; rfl

theorem pathBlacks_ne_nil (s : Shape K V) : s.pathBlacks ≠ [] := by
  induction s with
  | nil => simp [Shape.pathBlacks]
  | node a c l k v r ihl _ =>
    simp only [Shape.pathBlacks, ne_eq, List.map_eq_nil_iff, List.append_eq_nil, not_and]
    intro h; exact absurd h ihl

theorem bh_mem_pathBlacks (s : Shape K V) : s.bh ∈ s.pathBlacks := by
  induction s with
  | nil => simp [Shape.pathBlacks, Shape.bh]
  | node a c l k v r ihl _ =>
    simp only [Shape.pathBlacks, Shape.bh, List.mem_map, List.mem_append]
    exact ⟨l.bh, Or.inl ihl, rfl⟩

theorem balanced_of_pathBlacks {s : Shape K V} {n : Nat} (h : ∀ x ∈ s.pathBlacks, x = n) :
    s.balanced ∧ s.bh = n := by
  induction s generalizing n with
  | nil => exact ⟨trivial, h 0 (by simp [Shape.pathBlacks])⟩
  | node a c l k v r ihl ihr =>
    have hl : ∀ x ∈ l.pathBlacks, x = l.bh := by
      intro x hx
      have h1 := h (x + (if c = Color.BLACK then 1 else 0))
        (by simp only [Shape.pathBlacks, List.mem_map, List.mem_append]; exact ⟨x, Or.inl hx, rfl⟩)
      have h2 := h (l.bh + (if c = Color.BLACK then 1 else 0))
        (by simp only [Shape.pathBlacks, List.mem_map, List.mem_append]
            exact ⟨l.bh, Or.inl (bh_mem_pathBlacks l), rfl⟩)
      omega
    have hr : ∀ x ∈ r.pathBlacks, x = l.bh := by
      intro x hx
      have h1 := h (x + (if c = Color.BLACK then 1 else 0))
        (by simp only [Shape.pathBlacks, List.mem_map, List.mem_append]; exact ⟨x, Or.inr hx, rfl⟩)
      have h2 := h (l.bh + (if c = Color.BLACK then 1 else 0))
        (by simp only [Shape.pathBlacks, List.mem_map, List.mem_append]
            exact ⟨l.bh, Or.inl (bh_mem_pathBlacks l), rfl⟩)
      omega
    refine ⟨⟨((ihr hr).2).symm, (ihl hl).1, (ihr hr).1⟩, ?_⟩
    exact h _ (bh_mem_pathBlacks _)

theorem redBlack_iff (s : Shape K V) :
    s.RedBlack ↔ s.colour = Color.BLACK ∧ s.noRedRed ∧ s.balanced := by
  constructor
  · rintro ⟨h1, h2, n, h3⟩
    exact ⟨h1, h2, (balanced_of_pathBlacks h3).1⟩
  · rintro ⟨h1, h2, h3⟩
    exact ⟨h1, h2, s.bh, pathBlacks_of_balanced h3⟩

theorem colour_cases (c : Color) : c = Color.RED ∨ c = Color.BLACK := by
  cases c <;> simp

/-- A valid path filled with a valid subtree is a red-black tree. -/
theorem plug_redBlack : ∀ (ctx : List (Frame K V)) (s : Shape K V) (n : Nat),
    ctxOK ctx n → s.balanced → s.bh = n → s.noRedRed → holeOK ctx s →
    (plug ctx s).colour = Color.BLACK ∧ (plug ctx s).noRedRed ∧ (plug ctx s).balanced := by
  intro ctx
  induction ctx with
  | nil => intro s n _ hb _ hr hh; exact ⟨hh, hr, hb⟩
  | cons f rest ih =>
    intro s n hc hb hn hr hh
    obtain ⟨c1, c2, c3, c4, c5⟩ := hc
    rw [plug_cons]
    refine ih (f.fill s) _ c5 ?_ ?_ ?_ ?_
    · cases f <;> simp_all [Frame.fill, Shape.balanced, Frame.sibling]
    · cases f <;> simp_all [Frame.fill, Shape.bh, Frame.sibling, Frame.colour]
    · cases f <;> simp_all [Frame.fill, Shape.noRedRed, Frame.sibling, Frame.colour, holeOK]
    · cases rest with
      | nil =>
        simp only [holeOK]
        rcases colour_cases f.colour with hf | hf
        · exact absurd (c4 hf).2 (by simp [parentBlack])
        · cases f <;> simp_all [Frame.fill, Shape.colour, Frame.colour]
      | cons g rest1 =>
        simp only [holeOK]
        intro hg
        rcases colour_cases f.colour with hf | hf
        · have := (c4 hf).2
          simp only [parentBlack] at this
          rw [hg] at this; simp at this
        · cases f <;> simp_all [Frame.fill, Shape.colour, Frame.colour]

/-- Conversely, every decomposition of a red-black tree is a valid path around a
valid subtree. -/
theorem redBlack_plug : ∀ (ctx : List (Frame K V)) (s : Shape K V),
    (plug ctx s).colour = Color.BLACK → (plug ctx s).noRedRed → (plug ctx s).balanced →
    ctxOK ctx s.bh ∧ s.balanced ∧ s.noRedRed ∧ holeOK ctx s := by
  intro ctx
  induction ctx with
  | nil => intro s h1 h2 h3; exact ⟨trivial, h3, h2, h1⟩
  | cons f rest ih =>
    intro s h1 h2 h3
    rw [plug_cons] at h1 h2 h3
    obtain ⟨i1, i2, i3, i4⟩ := ih (f.fill s) h1 h2 h3
    have hpb : f.colour = Color.RED → parentBlack rest := by
      intro hf
      cases rest with
      | nil =>
        simp only [holeOK] at i4
        cases f <;> simp_all [Frame.fill, Shape.colour, Frame.colour]
      | cons g rest1 =>
        simp only [holeOK] at i4
        simp only [parentBlack]
        rcases colour_cases g.colour with hg | hg
        · have := i4 hg
          cases f <;> simp_all [Frame.fill, Shape.colour, Frame.colour]
        · exact hg
    cases f with
    | L a c k v r =>
      simp only [Frame.fill, Shape.balanced, Shape.noRedRed, Shape.bh] at i1 i2 i3
      refine ⟨⟨i2.2.2, i2.1.symm, i3.2.2, ?_, i1⟩, i2.2.1, i3.2.1, ?_⟩
      · intro hf; exact ⟨(i3.1 hf).2, hpb hf⟩
      · intro hf; exact (i3.1 hf).1
    | R a c l k v =>
      simp only [Frame.fill, Shape.balanced, Shape.noRedRed, Shape.bh] at i1 i2 i3
      refine ⟨⟨i2.2.1, i2.1, i3.2.1, ?_, ?_⟩, i2.2.2, i3.2.2, ?_⟩
      · intro hf; exact ⟨(i3.1 hf).1, hpb hf⟩
      · simp only [Frame.colour]; rw [← i2.1]; exact i1
      · intro hf; exact (i3.1 hf).2

@[simp] theorem colour_nil : (Shape.nil : Shape K V).colour = Color.BLACK := rfl

@[simp] theorem colour_node (a : Nat) (c : Color) (l : Shape K V) (k : K) (v : V)
    (r : Shape K V) : (Shape.node a c l k v r).colour = c := rfl

theorem colour_paint (c : Color) (s : Shape K V) (h : s.colour = Color.RED) :
    (s.paint c).colour = c := by
  cases s with
  | nil => simp [Shape.colour] at h
  | node a c0 l k v r => rfl

theorem paint_props (s : Shape K V) (h : s.colour = Color.RED) :
    (s.paint Color.BLACK).balanced = s.balanced
      ∧ (s.paint Color.BLACK).bh = s.bh + 1
      ∧ (s.noRedRed → (s.paint Color.BLACK).noRedRed) := by
  cases s with
  | nil => simp [Shape.colour] at h
  | node a c0 l k v r =>
    simp only [Shape.colour] at h
    subst h
    simp [Shape.paint, Shape.balanced, Shape.bh, Shape.noRedRed]

/-- The hypotheses of Case A and what they give for the repainted subtree. -/
theorem recolor_props (f g : Frame K V) (s : Shape K V) (m : Nat)
    (hs : s.balanced ∧ s.bh = m ∧ s.noRedRed)
    (hf : f.colour = Color.RED)
    (cf : f.sibling.balanced ∧ f.sibling.bh = m ∧ f.sibling.noRedRed
      ∧ f.sibling.colour = Color.BLACK)
    (cg : g.sibling.balanced ∧ g.sibling.bh = m ∧ g.sibling.noRedRed)
    (hu : g.sibling.colour = Color.RED) (c : Color) :
    ∃ l k v r, ((g.paint c).paintSibling Color.BLACK).fill ((f.paint Color.BLACK).fill s)
        = Shape.node g.addr c l k v r
      ∧ l.balanced ∧ r.balanced ∧ l.bh = m + 1 ∧ r.bh = m + 1 ∧ l.noRedRed ∧ r.noRedRed
      ∧ l.colour = Color.BLACK ∧ r.colour = Color.BLACK := by
  have pu := paint_props g.sibling hu
  have cu := colour_paint Color.BLACK g.sibling hu
  obtain ⟨s1, s2, s3⟩ := hs
  obtain ⟨f1, f2, f3, f4⟩ := cf
  obtain ⟨g1, g2, g3⟩ := cg
  obtain ⟨p1, p2, p3⟩ := pu
  cases f <;> cases g <;>
    (simp only [Frame.sibling, Frame.colour] at *
     subst hf
     refine ⟨_, _, _, _, rfl, ?_⟩
     simp [Shape.balanced, Shape.bh, Shape.noRedRed, Frame.paint, Frame.fill, *])

theorem rotate_props (f g : Frame K V) (d : Nat) (l : Shape K V) (k : K) (v : V)
    (r : Shape K V) (m : Nat)
    (hl : l.balanced ∧ l.bh = m ∧ l.noRedRed ∧ l.colour = Color.BLACK)
    (hr : r.balanced ∧ r.bh = m ∧ r.noRedRed ∧ r.colour = Color.BLACK)
    (hf : f.colour = Color.RED)
    (cf : f.sibling.balanced ∧ f.sibling.bh = m ∧ f.sibling.noRedRed
      ∧ f.sibling.colour = Color.BLACK)
    (cg : g.sibling.balanced ∧ g.sibling.bh = m ∧ g.sibling.noRedRed
      ∧ g.sibling.colour = Color.BLACK) :
    (fixRotate f g d l k v r).balanced ∧ (fixRotate f g d l k v r).bh = m + 1
      ∧ (fixRotate f g d l k v r).noRedRed
      ∧ (fixRotate f g d l k v r).colour = Color.BLACK := by
  obtain ⟨l1, l2, l3, l4⟩ := hl
  obtain ⟨r1, r2, r3, r4⟩ := hr
  obtain ⟨f1, f2, f3, f4⟩ := cf
  obtain ⟨g1, g2, g3, g4⟩ := cg
  cases f <;> cases g <;>
    (simp only [Frame.sibling, Frame.colour] at *
     subst hf
     simp [fixRotate, Shape.balanced, Shape.bh, Shape.noRedRed, *])

/-- Fix-up of a RED node with BLACK children inside a valid path leaves a
red-black tree (and does not panic). -/
theorem fixA_redBlack : ∀ (n : Nat) (ctx : List (Frame K V)), ctx.length ≤ n → ctx ≠ [] →
    ∀ (d : Nat) (l : Shape K V) (k : K) (v : V) (r : Shape K V) (m : Nat),
    ctxOK ctx m → l.balanced → r.balanced → l.bh = m → r.bh = m → l.noRedRed → r.noRedRed →
    l.colour = Color.BLACK → r.colour = Color.BLACK →
    ∃ res, fixA ctx (Shape.node d Color.RED l k v r) = Res.ok res
      ∧ res.colour = Color.BLACK ∧ res.noRedRed ∧ res.balanced := by
  intro n
  induction n with
  | zero =>
    intro ctx hlen hne
    cases ctx with
    | nil => exact absurd rfl hne
    | cons f rest => simp at hlen
  | succ n ih =>
    intro ctx hlen hne d l k v r m hc bl br hl hr nl nr cl cr
    have hs_bal : (Shape.node d Color.RED l k v r).balanced := ⟨hl.trans hr.symm, bl, br⟩
    have hs_bh : (Shape.node d Color.RED l k v r).bh = m := by simp [Shape.bh, hl]
    have hs_nrr : (Shape.node d Color.RED l k v r).noRedRed := ⟨fun _ => ⟨cl, cr⟩, nl, nr⟩
    match ctx, hlen, hne, hc with
    | [], _, hne, _ => exact absurd rfl hne
    | [f], _, _, hc =>
      obtain ⟨c1, c2, c3, c4, c5⟩ := hc
      have hf : f.colour = Color.BLACK := by
        rcases colour_cases f.colour with hf | hf
        · exact absurd (c4 hf).2 (by simp [parentBlack])
        · exact hf
      refine ⟨plug [f] (Shape.node d Color.RED l k v r), by simp [fixA, hf], ?_⟩
      exact plug_redBlack [f] _ m ⟨c1, c2, c3, c4, c5⟩ hs_bal hs_bh hs_nrr
        (by simp [holeOK, hf])
    | f :: g :: rest, hlen, _, hc =>
      rw [fixA_red]
      rcases colour_cases f.colour with hf | hf
      · obtain ⟨c1, c2, c3, c4, c5⟩ := hc
        obtain ⟨g1, g2, g3, g4, g5⟩ := c5
        have hg : g.colour = Color.BLACK := (c4 hf).2
        have hsib : f.sibling.colour = Color.BLACK := (c4 hf).1
        have hfne : ¬ f.colour = Color.BLACK := by rw [hf]; simp
        simp only [hfne, hg, if_true, if_false, Nat.add_zero] at g2 g5
        simp only [hf, ne_eq, not_true_eq_false, if_false]
        rcases colour_cases g.sibling.colour with hu | hu
        · simp only [hu, if_true]
          cases rest with
          | nil =>
            refine ⟨_, rfl, ?_⟩
            obtain ⟨l', k', v', r', e, p1, p2, p3, p4, p5, p6, p7, p8⟩ :=
              recolor_props f g (Shape.node d Color.RED l k v r) m ⟨hs_bal, hs_bh, hs_nrr⟩ hf
                ⟨c1, c2, c3, hsib⟩ ⟨g1, g2, g3⟩ hu Color.BLACK
            have hgp : g.paint Color.BLACK = g := by
              cases g <;> simp_all [Frame.paint, Frame.colour]
            rw [hgp] at e
            rw [e]
            exact ⟨rfl, ⟨fun _ => ⟨p7, p8⟩, p5, p6⟩, p3.trans p4.symm, p1, p2⟩
          | cons h0 rest1 =>
            simp only
            have hl' : (h0 :: rest1).length ≤ n := by
              simp only [List.length_cons] at hlen ⊢; omega
            obtain ⟨l', k', v', r', e, p1, p2, p3, p4, p5, p6, p7, p8⟩ :=
              recolor_props f g (Shape.node d Color.RED l k v r) m ⟨hs_bal, hs_bh, hs_nrr⟩ hf
                ⟨c1, c2, c3, hsib⟩ ⟨g1, g2, g3⟩ hu Color.RED
            rw [e]
            exact ih _ hl' (by simp) _ _ _ _ _ (m + 1) g5 p1 p2 p3 p4 p5 p6 p7 p8
        · have hu' : ¬ g.sibling.colour = Color.RED := by rw [hu]; simp
          simp only [hu', if_false]
          refine ⟨_, rfl, ?_⟩
          obtain ⟨q1, q2, q3, q4⟩ := rotate_props f g d l k v r m ⟨bl, hl, nl, cl⟩
            ⟨br, hr, nr, cr⟩ hf ⟨c1, c2, c3, hsib⟩ ⟨g1, g2, g3, hu⟩
          refine plug_redBlack rest _ (m + 1) g5 q1 q2 q3 ?_
          cases rest <;> simp [holeOK, q4]
      · refine ⟨plug (f :: g :: rest) (Shape.node d Color.RED l k v r), by simp [hf], ?_⟩
        exact plug_redBlack _ _ m hc hs_bal hs_bh hs_nrr (by simp [holeOK, hf])

/-! ## In-order contents -/

theorem items_plug (ctx : List (Frame K V)) (s : Shape K V) :
    (plug ctx s).items = ctxItemsBefore ctx ++ s.items ++ ctxItemsAfter ctx := by
  induction ctx generalizing s with
  | nil => simp [plug, ctxItemsBefore, ctxItemsAfter]
  | cons f rest ih =>
    cases f <;> simp [plug, Frame.fill, ctxItemsBefore, ctxItemsAfter, ih, Shape.items]

theorem items_plug_congr (ctx : List (Frame K V)) {s s' : Shape K V}
    (h : s.items = s'.items) : (plug ctx s).items = (plug ctx s').items := by
  rw [items_plug, items_plug, h]

theorem items_paint (c : Color) (s : Shape K V) : (s.paint c).items = s.items := by
  cases s <;> rfl

theorem items_recolor (f g : Frame K V) (s : Shape K V) (c c1 c2 : Color) :
    (((g.paint c).paintSibling c1).fill ((f.paint c2).fill s)).items
      = (g.fill (f.fill s)).items := by
  cases f <;> cases g <;>
    simp [Frame.fill, Frame.paint, Frame.paintSibling, Shape.items, items_paint]

theorem items_recolor' (f g : Frame K V) (s : Shape K V) (c1 c2 : Color) :
    ((g.paintSibling c1).fill ((f.paint c2).fill s)).items = (g.fill (f.fill s)).items := by
  cases f <;> cases g <;>
    simp [Frame.fill, Frame.paint, Frame.paintSibling, Shape.items, items_paint]

theorem items_rotate (f g : Frame K V) (d : Nat) (l : Shape K V) (k : K) (v : V)
    (r : Shape K V) :
    (fixRotate f g d l k v r).items = (g.fill (f.fill (Shape.node d Color.RED l k v r))).items := by
  cases f <;> cases g <;> simp [fixRotate, Frame.fill, Shape.items]

/-- Fix-up keeps the in-order sequence of (key, payload) pairs. -/
theorem fixA_items : ∀ (n : Nat) (ctx : List (Frame K V)), ctx.length ≤ n →
    ∀ (s res : Shape K V), fixA ctx s = Res.ok res → res.items = (plug ctx s).items := by
  intro n
  induction n with
  | zero =>
    intro ctx hlen s res h
    cases ctx with
    | cons f rest => simp at hlen
    | nil =>
      cases s with
      | nil => simp [fixA] at h
      | node d c l k v r =>
        cases c with
        | RED => simp [fixA] at h
        | BLACK => simp only [fixA, Res.ok.injEq] at h; rw [← h]
  | succ n ih =>
    intro ctx hlen s res h
    cases s with
    | nil => simp [fixA] at h
    | node d c l k v r =>
      cases c with
      | BLACK => simp only [fixA, Res.ok.injEq] at h; rw [← h]
      | RED =>
        match ctx, hlen, h with
        | [], _, h => simp [fixA] at h
        | [f], _, h =>
          simp only [fixA] at h
          split at h
          · simp at h
          · simp only [Res.ok.injEq] at h; rw [← h]
        | f :: g :: rest, hlen, h =>
          rw [fixA_red] at h
          split at h
          · simp only [Res.ok.injEq] at h; rw [← h]
          · split at h
            · cases rest with
              | nil =>
                simp only [Res.ok.injEq] at h
                rw [← h]
                exact items_recolor' f g _ _ _
              | cons h0 rest1 =>
                simp only at h
                have hl' : (h0 :: rest1).length ≤ n := by
                  simp only [List.length_cons] at hlen ⊢; omega
                rw [ih _ hl' _ _ h]
                exact items_plug_congr _ (items_recolor f g _ _ _ _)
            · simp only [Res.ok.injEq] at h
              rw [← h]
              exact items_plug_congr _ (items_rotate f g d l k v r)

/-! ## Comparator laws and association lists -/

namespace StrictTotal

variable {cmp : K → K → Int}

theorem eq_symm (h : StrictTotal cmp) {a b : K} (e : cmp a b = 0) : cmp b a = 0 := by
  have h1 := h.antisymm a b
  have h2 := h.antisymm b a
  omega

theorem le_of_eq (_h : StrictTotal cmp) {a b : K} (e : cmp a b = 0) : cmp a b ≤ 0 := by omega

theorem le_lt (h : StrictTotal cmp) {a b c : K} (h1 : cmp a b ≤ 0) (h2 : cmp b c < 0) :
    cmp a c < 0 := by
  have h3 := h.trans a b c h1 (by omega)
  by_contra hn
  have h4 : cmp a c = 0 := by omega
  have h5 := h.eq_symm h4
  have h6 := h.trans c a b (by omega) h1
  have h7 := (h.antisymm b c).1 h2
  omega

theorem lt_le (h : StrictTotal cmp) {a b c : K} (h1 : cmp a b < 0) (h2 : cmp b c ≤ 0) :
    cmp a c < 0 := by
  have h3 := h.trans a b c (by omega) h2
  by_contra hn
  have h4 : cmp a c = 0 := by omega
  have h5 := h.eq_symm h4
  have h6 := h.trans b c a h2 (by omega)
  have h7 := (h.antisymm a b).1 h1
  omega

theorem eq_trans (h : StrictTotal cmp) {a b c : K} (h1 : cmp a b = 0) (h2 : cmp b c = 0) :
    cmp a c = 0 := by
  have h3 := h.trans a b c (by omega) (by omega)
  have h4 := h.trans c b a (by have := h.eq_symm h2; omega) (by have := h.eq_symm h1; omega)
  have h5 := h.antisymm a c
  have h6 := h.antisymm c a
  omega

theorem gt_iff (h : StrictTotal cmp) {a b : K} : 0 < cmp a b ↔ cmp b a < 0 :=
  (h.antisymm b a).symm

end StrictTotal

theorem insertKV_mid {cmp : K → K → Int} (h : StrictTotal cmp) (key : K) (data : V)
    (B A : List (K × V)) (hB : ∀ x ∈ B, cmp x.1 key < 0) (hA : ∀ y ∈ A, cmp key y.1 < 0) :
    insertKV cmp key data (B ++ A) = B ++ (key, data) :: A := by
  induction B with
  | nil =>
    cases A with
    | nil => rfl
    | cons y A' =>
      obtain ⟨k, v⟩ := y
      have := hA (k, v) (by simp)
      simp [insertKV, this]
  | cons x B' ih =>
    obtain ⟨k, v⟩ := x
    have h1 := hB (k, v) (by simp)
    have h2 := (h.antisymm k key).1 h1
    have h3 : ¬ cmp key k < 0 := by simp only at h2; omega
    have h4 : ¬ cmp key k = 0 := by simp only at h2; omega
    rw [List.cons_append]
    simp only [insertKV, h3, h4, if_false]
    rw [ih (fun x hx => hB x (by simp [hx]))]
    rfl

theorem insertKV_hit {cmp : K → K → Int} (h : StrictTotal cmp) (key : K) (data : V)
    (B A : List (K × V)) (k : K) (v : V) (hB : ∀ x ∈ B, cmp x.1 key < 0)
    (hk : cmp key k = 0) :
    insertKV cmp key data (B ++ (k, v) :: A) = B ++ (k, data) :: A := by
  induction B with
  | nil => simp [insertKV, hk]
  | cons x B' ih =>
    obtain ⟨k1, v1⟩ := x
    have h1 := hB (k1, v1) (by simp)
    have h2 := (h.antisymm k1 key).1 h1
    have h3 : ¬ cmp key k1 < 0 := by simp only at h2; omega
    have h4 : ¬ cmp key k1 = 0 := by simp only at h2; omega
    rw [List.cons_append]
    simp only [insertKV, h3, h4, if_false]
    rw [ih (fun x hx => hB x (by simp [hx]))]
    rfl

theorem lookupKV_mid {cmp : K → K → Int} (h : StrictTotal cmp) (q : K)
    (B A : List (K × V)) (hB : ∀ x ∈ B, cmp x.1 q < 0) (hA : ∀ y ∈ A, cmp q y.1 < 0) :
    lookupKV cmp q (B ++ A) = none := by
  induction B with
  | nil =>
    induction A with
    | nil => rfl
    | cons y A' ih =>
      obtain ⟨k, v⟩ := y
      have := hA (k, v) (by simp)
      have h1 : ¬ cmp q k = 0 := by simp only at this; omega
      simp only [List.nil_append, lookupKV, h1, if_false] at ih ⊢
      exact ih (fun y hy => hA y (by simp [hy]))
  | cons x B' ih =>
    obtain ⟨k, v⟩ := x
    have h1 := hB (k, v) (by simp)
    have h2 := (h.antisymm k q).1 h1
    have h4 : ¬ cmp q k = 0 := by simp only at h2; omega
    simp only [List.cons_append, lookupKV, h4, if_false]
    exact ih (fun x hx => hB x (by simp [hx]))

theorem lookupKV_hit {cmp : K → K → Int} (h : StrictTotal cmp) (q : K)
    (B A : List (K × V)) (k : K) (v : V) (hB : ∀ x ∈ B, cmp x.1 q < 0) (hk : cmp q k = 0) :
    lookupKV cmp q (B ++ (k, v) :: A) = some v := by
  induction B with
  | nil => simp [lookupKV, hk]
  | cons x B' ih =>
    obtain ⟨k1, v1⟩ := x
    have h1 := hB (k1, v1) (by simp)
    have h2 := (h.antisymm k1 q).1 h1
    have h4 : ¬ cmp q k1 = 0 := by simp only at h2; omega
    simp only [List.cons_append, lookupKV, h4, if_false]
    exact ih (fun x hx => hB x (by simp [hx]))

theorem lookupKV_insertKV {cmp : K → K → Int} (h : StrictTotal cmp) (q key : K) (data : V)
    (L : List (K × V)) :
    lookupKV cmp q (insertKV cmp key data L)
      = if cmp q key = 0 then some data else lookupKV cmp q L := by
  induction L with
  | nil => simp [insertKV, lookupKV]
  | cons x L' ih =>
    obtain ⟨k, v⟩ := x
    simp only [insertKV]
    split
    · simp [lookupKV]
    · split
      · rename_i h1 h2
        simp only [lookupKV]
        by_cases hq : cmp q key = 0
        · simp [hq, h.eq_trans hq h2]
        · have : ¬ cmp q k = 0 := fun e => hq (h.eq_trans e (h.eq_symm h2))
          simp [hq, this]
      · rename_i h1 h2
        simp only [lookupKV, ih]
        by_cases hq : cmp q key = 0
        · have : ¬ cmp q k = 0 := fun e => h2 (h.eq_trans (h.eq_symm hq) e)
          simp [hq, this]
        · simp [hq]

theorem StrictTotal.refl {cmp : K → K → Int} (h : StrictTotal cmp) (a : K) : cmp a a = 0 := by
  have := h.antisymm a a
  omega

theorem mem_insertKV {cmp : K → K → Int} (h : StrictTotal cmp) (key : K) (data : V)
    (L : List (K × V)) :
    (∀ x ∈ (insertKV cmp key data L).map Prod.fst, x = key ∨ x ∈ L.map Prod.fst)
      ∧ (∀ x ∈ L.map Prod.fst, x ∈ (insertKV cmp key data L).map Prod.fst)
      ∧ (∃ x ∈ (insertKV cmp key data L).map Prod.fst, cmp key x = 0) := by
  induction L with
  | nil => simp [insertKV, h.refl]
  | cons y L' ih =>
    obtain ⟨k, v⟩ := y
    obtain ⟨i1, i2, x, i3, i4⟩ := ih
    simp only [insertKV]
    split
    · refine ⟨?_, ?_, key, ?_, h.refl key⟩
      · intro z hz
        simp only [List.map_cons, List.mem_cons] at hz ⊢
        tauto
      · intro z hz
        simp only [List.map_cons, List.mem_cons] at hz ⊢
        tauto
      · simp
    · split
      · rename_i h1 h2
        refine ⟨?_, ?_, k, ?_, h2⟩
        · intro z hz
          simp only [List.map_cons, List.mem_cons] at hz ⊢
          tauto
        · intro z hz
          simp only [List.map_cons, List.mem_cons] at hz ⊢
          tauto
        · simp
      · refine ⟨?_, ?_, x, ?_, i4⟩
        · intro z hz
          simp only [List.map_cons, List.mem_cons] at hz ⊢
          rcases hz with hz | hz
          · exact Or.inr (Or.inl hz)
          · rcases i1 z hz with e | e
            · exact Or.inl e
            · exact Or.inr (Or.inr e)
        · intro z hz
          simp only [List.map_cons, List.mem_cons] at hz ⊢
          rcases hz with hz | hz
          · exact Or.inl hz
          · exact Or.inr (i2 z hz)
        · simp only [List.map_cons, List.mem_cons]
          exact Or.inr i3

theorem sorted_insertKV {cmp : K → K → Int} (h : StrictTotal cmp) (key : K) (data : V)
    (L : List (K × V)) (hs : Sorted cmp L) : Sorted cmp (insertKV cmp key data L) := by
  induction L with
  | nil => simp [insertKV, Sorted]
  | cons y L' ih =>
    obtain ⟨k, v⟩ := y
    simp only [Sorted, List.pairwise_cons] at hs
    obtain ⟨hs1, hs2⟩ := hs
    simp only [insertKV]
    split
    · rename_i h1
      simp only [Sorted, List.pairwise_cons]
      refine ⟨?_, hs1, hs2⟩
      intro z hz
      simp only [List.mem_cons] at hz
      rcases hz with rfl | hz
      · exact h1
      · exact h.lt_le h1 (by have := hs1 z hz; omega)
    · split
      · simp only [Sorted, List.pairwise_cons]
        exact ⟨hs1, hs2⟩
      · rename_i h1 h2
        have hk : cmp k key < 0 := by
          have := h.antisymm k key
          omega
        simp only [Sorted, List.pairwise_cons]
        refine ⟨?_, ih hs2⟩
        intro z hz
        have hz' : z.1 ∈ (insertKV cmp key data L').map Prod.fst := List.mem_map_of_mem _ hz
        rcases (mem_insertKV h key data L').1 z.1 hz' with e | e
        · rw [e]; exact hk
        · simp only [List.mem_map] at e
          obtain ⟨w, hw, ew⟩ := e
          rw [← ew]
          exact hs1 w hw

theorem lastPut_snoc {cmp : K → K → Int} (k k' : K) (v : V) (ops : List (K × V)) :
    lastPut cmp k (ops ++ [(k', v)]) = if cmp k k' = 0 then some v else lastPut cmp k ops := by
  induction ops with
  | nil => simp [lastPut]
  | cons op ops' ih =>
    obtain ⟨k1, v1⟩ := op
    rw [List.cons_append]
    simp only [lastPut]
    rw [ih]
    by_cases h : cmp k k' = 0
    · simp [h]
    · simp [h]

theorem contents_snoc (cmp : K → K → Int) (ops : List (K × V)) (k : K) (v : V) :
    contents cmp (ops ++ [(k, v)]) = insertKV cmp k v (contents cmp ops) := by
  simp [contents, List.foldl_append]

theorem sorted_contents {cmp : K → K → Int} (h : StrictTotal cmp) (ops : List (K × V)) :
    Sorted cmp (contents cmp ops) := by
  induction ops using List.reverseRecOn with
  | nil => simp [contents, Sorted]
  | append_singleton ops op ih =>
    obtain ⟨k, v⟩ := op
    rw [contents_snoc]
    exact sorted_insertKV h k v _ ih

theorem lookupKV_contents {cmp : K → K → Int} (h : StrictTotal cmp) (q : K)
    (ops : List (K × V)) : lookupKV cmp q (contents cmp ops) = lastPut cmp q ops := by
  induction ops using List.reverseRecOn with
  | nil => rfl
  | append_singleton ops op ih =>
    obtain ⟨k, v⟩ := op
    rw [contents_snoc, lookupKV_insertKV h, lastPut_snoc, ih]

theorem lastPut_isSome {cmp : K → K → Int} (k : K) (ops : List (K × V)) :
    (lastPut cmp k ops).isSome = ops.any (fun kv => decide (cmp k kv.1 = 0)) := by
  induction ops with
  | nil => rfl
  | cons op ops' ih =>
    obtain ⟨k1, v1⟩ := op
    simp only [lastPut, List.any_cons]
    rw [← ih]
    cases hl : lastPut cmp k ops' with
    | some w => simp
    | none =>
      by_cases hk : cmp k k1 = 0
      · simp [hk]
      · simp [hk]

theorem keys_contents {cmp : K → K → Int} (h : StrictTotal cmp) (ops : List (K × V)) :
    (∀ x ∈ (contents cmp ops).map Prod.fst, x ∈ ops.map Prod.fst)
      ∧ (∀ k ∈ ops.map Prod.fst, ∃ x ∈ (contents cmp ops).map Prod.fst, cmp k x = 0) := by
  induction ops using List.reverseRecOn with
  | nil => simp [contents]
  | append_singleton ops op ih =>
    obtain ⟨k, v⟩ := op
    obtain ⟨i1, i2⟩ := ih
    obtain ⟨m1, m2, x0, m3, m4⟩ := mem_insertKV h k v (contents cmp ops)
    rw [contents_snoc]
    constructor
    · intro x hx
      simp only [List.map_append, List.map_cons, List.map_nil, List.mem_append,
        List.mem_singleton]
      rcases m1 x hx with e | e
      · exact Or.inr e
      · exact Or.inl (i1 x e)
    · intro k1 hk1
      simp only [List.map_append, List.map_cons, List.map_nil, List.mem_append,
        List.mem_singleton] at hk1
      rcases hk1 with hk1 | rfl
      · obtain ⟨x, hx, ex⟩ := i2 k1 hk1
        exact ⟨x, m2 x hx, ex⟩
      · exact ⟨x0, m3, m4⟩

theorem sorted_node {cmp : K → K → Int} {a : Nat} {c : Color} {l r : Shape K V} {k : K} {v : V}
    (hs : Sorted cmp (Shape.node a c l k v r).items) :
    Sorted cmp l.items ∧ Sorted cmp r.items ∧ (∀ x ∈ l.items, cmp x.1 k < 0)
      ∧ (∀ y ∈ r.items, cmp k y.1 < 0) := by
  simp only [Sorted, Shape.items, List.pairwise_append, List.pairwise_cons, List.mem_cons] at hs
  obtain ⟨h1, ⟨h2, h3⟩, h4⟩ := hs
  exact ⟨h1, h3, fun x hx => h4 x hx (k, v) (Or.inl rfl), h2⟩

theorem locate_bounds {cmp : K → K → Int} (h : StrictTotal cmp) (key : K) :
    ∀ (s : Shape K V) (ctx : List (Frame K V)), Sorted cmp s.items →
    (∀ x ∈ ctxItemsBefore ctx, cmp x.1 key < 0) → (∀ y ∈ ctxItemsAfter ctx, cmp key y.1 < 0) →
    (∀ x ∈ ctxItemsBefore (locate cmp key s ctx).1, cmp x.1 key < 0)
      ∧ (∀ y ∈ ctxItemsAfter (locate cmp key s ctx).1, cmp key y.1 < 0)
      ∧ (∀ b c l k v r, (locate cmp key s ctx).2 = Shape.node b c l k v r →
          cmp key k = 0 ∧ (∀ x ∈ l.items, cmp x.1 key < 0) ∧ (∀ y ∈ r.items, cmp key y.1 < 0)) := by
  intro s
  induction s with
  | nil =>
    intro ctx _ hB hA
    exact ⟨hB, hA, fun b c l k v r e => by simp [locate] at e⟩
  | node a c l k v r ihl ihr =>
    intro ctx hs hB hA
    obtain ⟨sl, sr, hl, hr⟩ := sorted_node hs
    simp only [locate]
    split
    · rename_i h1
      have hk : cmp k key < 0 := (h.antisymm k key).2 h1
      refine ihr _ sr ?_ hA
      intro x hx
      simp only [ctxItemsBefore, List.mem_append, List.mem_singleton] at hx
      rcases hx with hx | hx | rfl
      · exact hB x hx
      · exact h.lt_le (hl x hx) (by omega)
      · exact hk
    · split
      · rename_i h1 h2
        refine ihl _ sl hB ?_
        intro y hy
        simp only [ctxItemsAfter, List.mem_append, List.mem_cons] at hy
        rcases hy with (rfl | hy) | hy
        · exact h2
        · exact h.lt_le h2 (by have := hr y hy; omega)
        · exact hA y hy
      · rename_i h1 h2
        have hk : cmp key k = 0 := by omega
        refine ⟨hB, hA, ?_⟩
        intro b c' l' k' v' r' e
        simp only [Shape.node.injEq] at e
        obtain ⟨-, -, rfl, rfl, -, rfl⟩ := e
        refine ⟨hk, ?_, ?_⟩
        · intro x hx
          exact h.lt_le (hl x hx) (by have := h.eq_symm hk; omega)
        · intro y hy
          exact h.le_lt (by omega) (hr y hy)

/-- What a search from the root finds, in terms of the in-order contents. -/
theorem locate_items {cmp : K → K → Int} (h : StrictTotal cmp) (key : K) (s0 : Shape K V)
    (hs : Sorted cmp s0.items) :
    s0.items = ctxItemsBefore (locate cmp key s0 []).1 ++ (locate cmp key s0 []).2.items
        ++ ctxItemsAfter (locate cmp key s0 []).1
      ∧ (∀ x ∈ ctxItemsBefore (locate cmp key s0 []).1, cmp x.1 key < 0)
      ∧ (∀ y ∈ ctxItemsAfter (locate cmp key s0 []).1, cmp key y.1 < 0)
      ∧ (∀ b c l k v r, (locate cmp key s0 []).2 = Shape.node b c l k v r →
          cmp key k = 0 ∧ (∀ x ∈ l.items, cmp x.1 key < 0) ∧ (∀ y ∈ r.items, cmp key y.1 < 0)) := by
  have h1 := locate_plug cmp key s0 []
  have h2 := items_plug (locate cmp key s0 []).1 (locate cmp key s0 []).2
  rw [h1] at h2
  exact ⟨h2, locate_bounds h key s0 [] hs (by simp [ctxItemsBefore]) (by simp [ctxItemsAfter])⟩

theorem lookupKV_locate {cmp : K → K → Int} (h : StrictTotal cmp) (key : K) (s0 : Shape K V)
    (hs : Sorted cmp s0.items) :
    lookupKV cmp key s0.items
      = match (locate cmp key s0 []).2 with
        | Shape.nil => none
        | Shape.node _ _ _ _ v _ => some v := by
  obtain ⟨h1, h2, h3, h4⟩ := locate_items h key s0 hs
  rw [h1]
  cases hl : (locate cmp key s0 []).2 with
  | nil =>
    simp only [Shape.items, List.append_nil]
    exact lookupKV_mid h key _ _ h2 h3
  | node b c l k v r =>
    obtain ⟨e1, e2, e3⟩ := h4 b c l k v r hl
    simp only [Shape.items]
    have : ctxItemsBefore (locate cmp key s0 []).1 ++ (l.items ++ (k, v) :: r.items)
        ++ ctxItemsAfter (locate cmp key s0 []).1
        = (ctxItemsBefore (locate cmp key s0 []).1 ++ l.items)
          ++ (k, v) :: (r.items ++ ctxItemsAfter (locate cmp key s0 []).1) := by
      simp
    rw [this]
    apply lookupKV_hit h key _ _ k v _ e1
    intro x hx
    rcases List.mem_append.1 hx with hx | hx
    · exact h2 x hx
    · exact e2 x hx

/-- On sorted contents, `putA` inserts into the association list. -/
theorem putA_items {cmp : K → K → Int} (h : StrictTotal cmp) (key : K) (data : V) (a : Nat)
    (s0 res : Shape K V) (hs : Sorted cmp s0.items)
    (hres : putA cmp key data a s0 = Res.ok res) :
    res.items = insertKV cmp key data s0.items := by
  cases s0 with
  | nil =>
    simp only [putA, Res.ok.injEq] at hres
    rw [← hres]
    rfl
  | node a0 c0 l0 k0 v0 r0 =>
    obtain ⟨h1, h2, h3, h4⟩ := locate_items h key _ hs
    simp only [putA] at hres
    generalize hl : locate cmp key (Shape.node a0 c0 l0 k0 v0 r0) [] = lr at hres h1 h2 h3 h4
    obtain ⟨ctx, s⟩ := lr
    simp only at h1 h2 h3 h4
    cases s with
    | nil =>
      simp only at hres
      rw [fixA_items ctx.length ctx (le_refl _) _ _ hres, items_plug, h1]
      simp only [Shape.items, List.append_nil, List.nil_append, List.append_assoc,
        List.singleton_append]
      exact (insertKV_mid h key data _ _ h2 h3).symm
    | node b c l k v r =>
      obtain ⟨e1, e2, e3⟩ := h4 b c l k v r rfl
      cases ctx with
      | nil => simp at hres
      | cons f rest =>
        simp only [Res.ok.injEq] at hres
        rw [← hres, items_plug, h1]
        simp only [Shape.items, List.append_assoc, List.cons_append]
        rw [← List.append_assoc, ← List.append_assoc]
        refine (insertKV_hit h key data _ _ k v ?_ e1).symm
        intro x hx
        rcases List.mem_append.1 hx with hx | hx
        · exact h2 x hx
        · exact e2 x hx

/-! ## Runs of `Put` calls -/

/-- `putA` keeps the red-black invariants, and completes unless the key is
found at the root. -/
theorem putA_redBlack (cmp : K → K → Int) (key : K) (data : V) (a : Nat) (s0 : Shape K V)
    (hrb : s0.colour = Color.BLACK ∧ s0.noRedRed ∧ s0.balanced)
    (hroot : ∀ a0 c0 l0 k0 v0 r0, s0 = Shape.node a0 c0 l0 k0 v0 r0 → cmp key k0 ≠ 0) :
    ∃ res, putA cmp key data a s0 = Res.ok res
      ∧ res.colour = Color.BLACK ∧ res.noRedRed ∧ res.balanced := by
  cases s0 with
  | nil =>
    exact ⟨_, rfl, rfl, ⟨fun _ => ⟨rfl, rfl⟩, trivial, trivial⟩, ⟨rfl, trivial, trivial⟩⟩
  | node a0 c0 l0 k0 v0 r0 =>
    have hk := hroot a0 c0 l0 k0 v0 r0 rfl
    have hlen := locate_length cmp key (Shape.node a0 c0 l0 k0 v0 r0) []
    have hp := locate_plug cmp key (Shape.node a0 c0 l0 k0 v0 r0) []
    simp only [putA]
    generalize hl : locate cmp key (Shape.node a0 c0 l0 k0 v0 r0) [] = lr at hlen hp
    obtain ⟨ctx, s⟩ := lr
    simp only at hp hlen
    have hp' : plug ctx s = Shape.node a0 c0 l0 k0 v0 r0 := hp
    rw [← hp'] at hrb
    obtain ⟨i1, i2, i3, i4⟩ := redBlack_plug ctx s hrb.1 hrb.2.1 hrb.2.2
    cases s with
    | nil =>
      have hne : ctx ≠ [] := by
        intro e
        have := hlen.2 rfl rfl
        rw [e] at this
        simp at this
      simp only
      exact fixA_redBlack ctx.length ctx (le_refl _) hne a Shape.nil key data Shape.nil 0 i1
        trivial trivial rfl rfl trivial trivial rfl rfl
    | node b c l k v r =>
      cases ctx with
      | nil =>
        exfalso
        simp only [locate] at hl
        split at hl
        · have := (locate_length cmp key r0 [Frame.R a0 c0 l0 k0 v0]).1
          rw [hl] at this
          simp at this
        · split at hl
          · have := (locate_length cmp key l0 [Frame.L a0 c0 k0 v0 r0]).1
            rw [hl] at this
            simp at this
          · apply hk; omega
      | cons f rest =>
        refine ⟨_, rfl, ?_⟩
        exact plug_redBlack (f :: rest) _ _ i1 i2 rfl i3 i4

/-- One completed `Put` on a modelled red-black tree, on shapes. -/
theorem Put_inv {t t' : Tree K V} {s0 : Shape K V} {e : Option Err} (h : Models t s0)
    (hrb : s0.colour = Color.BLACK ∧ s0.noRedRed ∧ s0.balanced) (key : K) (data : V)
    (hput : Put t key data = Res.ok (t', e)) :
    ∃ res, putA t.cmp key data t.mem.length s0 = Res.ok res ∧ Models t' res
      ∧ (res.colour = Color.BLACK ∧ res.noRedRed ∧ res.balanced)
      ∧ e = none ∧ t'.cmp = t.cmp ∧ t'.counter = wrap64 (t.counter + 1) := by
  have hroot : ∀ a0 c0 l0 k0 v0 r0, s0 = Shape.node a0 c0 l0 k0 v0 r0 → t.cmp key k0 ≠ 0 := by
    intro a0 c0 l0 k0 v0 r0 e0 hk
    subst e0
    rw [Put_root_panic h key data hk] at hput
    simp at hput
  obtain ⟨res, h1, h2⟩ := putA_redBlack t.cmp key data t.mem.length s0 hrb hroot
  obtain ⟨t'', e1, m, hc, hn⟩ := Put_sim h key data res h1
  rw [e1] at hput
  simp only [Res.ok.injEq, Prod.mk.injEq] at hput
  obtain ⟨rfl, rfl⟩ := hput
  exact ⟨res, h1, m, h2, rfl, hc, hn⟩

theorem PutAll_cons (t : Tree K V) (k : K) (v : V) (rest : List (K × V)) :
    PutAll t ((k, v) :: rest) = (Put t k v >>= fun r => PutAll r.1 rest) := rfl

/-- Every tree built by completed `Put` calls from a modelled red-black tree is a
modelled red-black tree. -/
theorem PutAll_redBlack : ∀ (ops : List (K × V)) (t0 t : Tree K V) (s0 : Shape K V),
    Models t0 s0 → (s0.colour = Color.BLACK ∧ s0.noRedRed ∧ s0.balanced) →
    PutAll t0 ops = Res.ok t →
    ∃ s, Models t s ∧ (s.colour = Color.BLACK ∧ s.noRedRed ∧ s.balanced)
      ∧ t.cmp = t0.cmp := by
  intro ops
  induction ops with
  | nil =>
    intro t0 t s0 h hrb hput
    simp only [PutAll, Res.ok.injEq] at hput
    subst hput
    exact ⟨s0, h, hrb, rfl⟩
  | cons op rest ih =>
    intro t0 t s0 h hrb hput
    obtain ⟨k, v⟩ := op
    rw [PutAll_cons, Res.bind_eq_ok] at hput
    obtain ⟨⟨t1, e⟩, h1, h2⟩ := hput
    obtain ⟨res, -, m, hrb', -, hc, -⟩ := Put_inv h hrb k v h1
    obtain ⟨s, ms, hs, hcs⟩ := ih t1 t res m hrb' h2
    exact ⟨s, ms, hs, hcs.trans hc⟩

/-- Contents of a tree built by completed `Put` calls. -/
theorem PutAll_contents {cmp : K → K → Int} (hcmp : StrictTotal cmp) :
    ∀ (ops : List (K × V)) (t0 t : Tree K V) (s0 : Shape K V),
    Models t0 s0 → (s0.colour = Color.BLACK ∧ s0.noRedRed ∧ s0.balanced) →
    t0.cmp = cmp → Sorted cmp s0.items → PutAll t0 ops = Res.ok t →
    ∃ s, Models t s ∧ (s.colour = Color.BLACK ∧ s.noRedRed ∧ s.balanced) ∧ t.cmp = cmp
      ∧ s.items = ops.foldl (fun acc kv => insertKV cmp kv.1 kv.2 acc) s0.items := by
  intro ops
  induction ops with
  | nil =>
    intro t0 t s0 h hrb hc _ hput
    simp only [PutAll, Res.ok.injEq] at hput
    subst hput
    exact ⟨s0, h, hrb, hc, rfl⟩
  | cons op rest ih =>
    intro t0 t s0 h hrb hc hs hput
    obtain ⟨k, v⟩ := op
    rw [PutAll_cons, Res.bind_eq_ok] at hput
    obtain ⟨⟨t1, e⟩, h1, h2⟩ := hput
    obtain ⟨res, hres, m, hrb', -, hc1, -⟩ := Put_inv h hrb k v h1
    rw [hc] at hres
    have hi := putA_items hcmp k v _ s0 res hs hres
    have hs' : Sorted cmp res.items := by rw [hi]; exact sorted_insertKV hcmp k v _ hs
    obtain ⟨s, ms, hs2, hcs, hit⟩ := ih t1 t res m hrb' (hc1.trans hc) hs' h2
    refine ⟨s, ms, hs2, hcs, ?_⟩
    rw [hit, hi]
    rfl

theorem Models.newTree (c : K → K → Int) : Models (NewTree c : Tree K V) Shape.nil :=
  ⟨rfl, trivial, by simp [Shape.addrs]⟩

theorem search_root {t : Tree K V} {s0 : Shape K V} (h : Models t s0) (key : K) :
    innerSearch (budget t) t none t.root key Direction.NODIR
      = Res.ok ((locate t.cmp key s0 []).2.isNode, ctxPtr (locate t.cmp key s0 []).1,
          ctxDir (locate t.cmp key s0 []).1) := by
  have h1 : Models t (plug [] s0) := h
  have := innerSearch_sim key (budget t) s0 [] h1 h.budget_height
  rw [← h.root] at this
  exact this

theorem Has_sim {t : Tree K V} {s0 : Shape K V} (h : Models t s0) (key : K) :
    Has t key = Res.ok (locate t.cmp key s0 []).2.isNode := by
  simp [Has, search_root h key]

theorem GetNode_sim {t : Tree K V} {s0 : Shape K V} (h : Models t s0) (key : K) :
    GetNode t key = Res.ok (locate t.cmp key s0 []).2.ptr := by
  have hp := locate_plug t.cmp key s0 []
  simp only [GetNode, search_root h key, Res.ok_bind]
  generalize hl : locate t.cmp key s0 [] = lr at hp
  obtain ⟨ctx, s⟩ := lr
  simp only at hp ⊢
  cases s with
  | nil => simp [Shape.isNode]
  | node b c l k v r =>
    cases ctx with
    | nil =>
      have : s0 = Shape.node b c l k v r := hp.symm
      simp [Shape.isNode, h.root, this]
    | cons f rest =>
      have h1 : Models t (plug (f :: rest) (Shape.node b c l k v r)) := by rw [hp]; exact h
      have hh := h1.hole_read
      simp only [ptr_node] at hh
      by_cases hd : ctxDir (f :: rest) = Direction.LEFT
      · simp [Shape.isNode, hd, hh.1 hd]
      · simp [Shape.isNode, hd, hh.2 hd]

theorem Get_sim {t : Tree K V} {s0 : Shape K V} (h : Models t s0) (key : K) :
    Get t key = Res.ok (match (locate t.cmp key s0 []).2 with
      | Shape.nil => (false, Iface.nil)
      | Shape.node _ _ _ _ v _ => (true, Iface.val v)) := by
  have hp := locate_plug t.cmp key s0 []
  simp only [Get, checkKey, GetNode_sim h key, Res.ok_bind]
  generalize hl : locate t.cmp key s0 [] = lr at hp
  obtain ⟨ctx, s⟩ := lr
  simp only at hp ⊢
  cases s with
  | nil => simp
  | node b c l k v r =>
    have h1 : Models t (plug ctx (Shape.node b c l k v r)) := by rw [hp]; exact h
    simp [deref, h1.cell]

theorem cmpInt_strictTotal : StrictTotal cmpInt :=
  ⟨fun a b => by simp only [cmpInt]; omega, fun a b c => by simp only [cmpInt]; omega⟩

set_option maxRecDepth 100000 in
theorem demo_putAll : PutAll (NewTree cmpInt) demoOps = Res.ok demoTree := by
  rfl

theorem demo_models : Models demoTree demoShape := by
  refine ⟨rfl, ?_, by decide⟩
  simp [demoTree, demoShape, Rep]

theorem keys_insertKV (cmp : K → K → Int) (key : K) (data : V) (L : List (K × V)) :
    (insertKV cmp key data L).map Prod.fst = insertKey cmp key (L.map Prod.fst) := by
  induction L with
  | nil => rfl
  | cons x L' ih =>
    obtain ⟨k, v⟩ := x
    simp only [insertKV, List.map_cons, insertKey]
    split
    · rfl
    · split
      · rfl
      · simp only [List.map_cons, ih]

theorem keys_contents_eq (cmp : K → K → Int) (ops : List (K × V)) :
    (contents cmp ops).map Prod.fst = collapse cmp (ops.map Prod.fst) := by
  induction ops using List.reverseRecOn with
  | nil => rfl
  | append_singleton ops op ih =>
    obtain ⟨k, v⟩ := op
    rw [contents_snoc, keys_insertKV, ih]
    simp [collapse, List.foldl_append]

theorem wrap64_id (x : Int) (h1 : -(2 ^ 63) ≤ x) (h2 : x < 2 ^ 63) : wrap64 x = x := by
  simp only [wrap64]
  omega

theorem wrap64_succ (x : Int) : wrap64 (wrap64 x + 1) = wrap64 (x + 1) := by
  simp only [wrap64]
  omega

theorem iterate_count (n : Nat) :
    (fun c : Int => wrap64 (c + 1))^[n] 0 = wrap64 n := by
  induction n with
  | zero => rfl
  | succ n ih =>
    rw [Function.iterate_succ_apply', ih, wrap64_succ]
    push_cast
    rfl

theorem PutAll_counter : ∀ (ops : List (K × V)) (t0 t : Tree K V) (s0 : Shape K V),
    Models t0 s0 → (s0.colour = Color.BLACK ∧ s0.noRedRed ∧ s0.balanced) →
    PutAll t0 ops = Res.ok t →
    t.counter = (fun c : Int => wrap64 (c + 1))^[ops.length] t0.counter := by
  intro ops
  induction ops with
  | nil =>
    intro t0 t s0 _ _ hput
    simp only [PutAll, Res.ok.injEq] at hput
    subst hput
    rfl
  | cons op rest ih =>
    intro t0 t s0 h hrb hput
    obtain ⟨k, v⟩ := op
    rw [PutAll_cons, Res.bind_eq_ok] at hput
    obtain ⟨⟨t1, e⟩, h1, h2⟩ := hput
    obtain ⟨res, -, m, hrb', -, -, hn⟩ := Put_inv h hrb k v h1
    rw [ih t1 t res m hrb' h2, List.length_cons, Function.iterate_succ_apply, hn]

theorem redBlack_nil :
    (Shape.nil : Shape K V).colour = Color.BLACK ∧ (Shape.nil : Shape K V).noRedRed
      ∧ (Shape.nil : Shape K V).balanced :=
  ⟨rfl, trivial, trivial⟩

/-! ## Claims C1, C2, C3, C5 and C6 -/

/-- C1. For a comparator that is a strict total order and a run of `Put` calls
on a new tree that all complete, `Get k` returns `(true, v)` with `v` the payload
of the last `Put` whose key compares equal to `k`, and `(false, nil)` when there
was no such `Put` (so `Get` on the empty tree reports not-found). -/
theorem get_after_puts (cmp : K → K → Int) (hcmp : StrictTotal cmp) (ops : List (K × V))
    (t : Tree K V) (hput : PutAll (NewTree cmp) ops = Res.ok t) (k : K) :
    Get t k = Res.ok (match lastPut cmp k ops with
      | some v => (true, Iface.val v)
      | none => (false, Iface.nil)) := by
  obtain ⟨s, m, -, hc, hi⟩ := PutAll_contents hcmp ops _ t Shape.nil (Models.newTree cmp)
    redBlack_nil rfl (by simp [Sorted, Shape.items]) hput
  have hs : Sorted cmp s.items := by rw [hi]; exact sorted_contents hcmp ops
  have h1 := lookupKV_locate hcmp k s hs
  have h2 : lookupKV cmp k s.items = lastPut cmp k ops := by
    rw [hi]; exact lookupKV_contents hcmp k ops
  rw [Get_sim m k, hc, ← h2, h1]
  cases (locate cmp k s []).2 <;> rfl

/-- Witness of C1: after the demo run, key 3 has the payload of its last `Put`. -/
theorem get_after_puts_witness :
    StrictTotal cmpInt ∧ PutAll (NewTree cmpInt) demoOps = Res.ok demoTree
      ∧ Get demoTree 3 = Res.ok (match lastPut cmpInt 3 demoOps with
          | some v => (true, Iface.val v)
          | none => (false, Iface.nil)) :=
  ⟨cmpInt_strictTotal, demo_putAll,
    get_after_puts cmpInt cmpInt_strictTotal demoOps demoTree demo_putAll 3⟩

/-- C2. Every tree reached from the empty tree by completed `Put` calls has
consistent links and satisfies the red-black invariants: the root (if present) is
BLACK, no RED node has a RED parent, and every root-to-NIL path has the same
number of BLACK nodes. -/
theorem redblack_after_puts (cmp : K → K → Int) (ops : List (K × V)) (t : Tree K V)
    (hput : PutAll (NewTree cmp) ops = Res.ok t) :
    ∃ s, Models t s ∧ s.colour = Color.BLACK ∧ s.noRedRed
      ∧ ∃ n, ∀ x ∈ s.pathBlacks, x = n := by
  obtain ⟨s, m, ⟨h1, h2, h3⟩, -⟩ := PutAll_redBlack ops _ t Shape.nil (Models.newTree cmp)
    redBlack_nil hput
  exact ⟨s, m, h1, h2, s.bh, pathBlacks_of_balanced h3⟩

/-- Witness of C2 on the demo run. -/
theorem redblack_after_puts_witness :
    PutAll (NewTree cmpInt) demoOps = Res.ok demoTree
      ∧ ∃ s, Models demoTree s ∧ s.colour = Color.BLACK ∧ s.noRedRed
        ∧ ∃ n, ∀ x ∈ s.pathBlacks, x = n :=
  ⟨demo_putAll, redblack_after_puts cmpInt demoOps demoTree demo_putAll⟩

/-- C3. For every tree built by completed `Put` calls under a strict total
order, the in-order sequence of keys is strictly increasing and is the sorted,
duplicate-collapsed sequence of the keys that were `Put`: every key of the tree
was `Put`, and every key that was `Put` has its equal in the tree. -/
theorem inorder_after_puts (cmp : K → K → Int) (hcmp : StrictTotal cmp) (ops : List (K × V))
    (t : Tree K V) (hput : PutAll (NewTree cmp) ops = Res.ok t) :
    ∃ s, Models t s ∧ s.keys.Pairwise (fun a b => cmp a b < 0)
      ∧ s.keys = collapse cmp (ops.map Prod.fst)
      ∧ (∀ x ∈ s.keys, x ∈ ops.map Prod.fst)
      ∧ (∀ k ∈ ops.map Prod.fst, ∃ x ∈ s.keys, cmp k x = 0) := by
  obtain ⟨s, m, -, hc, hi⟩ := PutAll_contents hcmp ops _ t Shape.nil (Models.newTree cmp)
    redBlack_nil rfl (by simp [Sorted, Shape.items]) hput
  have hi' : s.items = contents cmp ops := hi
  have hs : Sorted cmp s.items := by rw [hi']; exact sorted_contents hcmp ops
  refine ⟨s, m, ?_, ?_, ?_, ?_⟩
  · simp only [Shape.keys, List.pairwise_map]
    exact hs
  · simp only [Shape.keys, hi', keys_contents_eq]
  · simp only [Shape.keys, hi']
    exact (keys_contents hcmp ops).1
  · simp only [Shape.keys, hi']
    exact (keys_contents hcmp ops).2

/-- Witness of C3 on the demo run. -/
theorem inorder_after_puts_witness :
    StrictTotal cmpInt ∧ PutAll (NewTree cmpInt) demoOps = Res.ok demoTree
      ∧ ∃ s, Models demoTree s ∧ s.keys.Pairwise (fun a b => cmpInt a b < 0)
        ∧ s.keys = collapse cmpInt (demoOps.map Prod.fst)
        ∧ (∀ x ∈ s.keys, x ∈ demoOps.map Prod.fst)
        ∧ (∀ k ∈ demoOps.map Prod.fst, ∃ x ∈ s.keys, cmpInt k x = 0) :=
  ⟨cmpInt_strictTotal, demo_putAll,
    inorder_after_puts cmpInt cmpInt_strictTotal demoOps demoTree demo_putAll⟩

/-- C5. After a run of `n` completed `Put` calls on a new tree, `Size` returns
`n` (as the `int64` it is, so for every `n` below 2^63 exactly `n`): every `Put`
adds one to the counter, whether it made a new node or overwrote a payload.  So
`Size` is 0 on the empty tree, grows with every call, and can exceed the number
of nodes (4 against 3 after the demo run). -/
theorem size_after_puts (cmp : K → K → Int) (ops : List (K × V)) (t : Tree K V)
    (hput : PutAll (NewTree cmp) ops = Res.ok t) :
    Size t = wrap64 ops.length
      ∧ ((ops.length : Int) < 2 ^ 63 → Size t = ops.length)
      ∧ Size (NewTree cmp : Tree K V) = 0
      ∧ (demoTree.mem.length : Int) < Size demoTree := by
  have h1 : Size t = wrap64 ops.length := by
    have := PutAll_counter ops _ t Shape.nil (Models.newTree cmp) redBlack_nil hput
    rw [Size, this]
    exact iterate_count ops.length
  refine ⟨h1, ?_, rfl, by decide⟩
  intro hn
  rw [h1]
  exact wrap64_id _ (by omega) hn

/-- Witness of C5 on the demo run. -/
theorem size_after_puts_witness :
    PutAll (NewTree cmpInt) demoOps = Res.ok demoTree
      ∧ ((demoOps.length : Int) < 2 ^ 63)
      ∧ Size demoTree = demoOps.length :=
  ⟨demo_putAll, by decide,
    (size_after_puts cmpInt demoOps demoTree demo_putAll).2.1 (by decide)⟩

/-- C6. For every tree built by completed `Put` calls under a strict total
order, `Has k` returns whether some earlier `Put` had a key comparing equal to
`k`, and `Get k` reports found exactly in that case; on the empty tree `Has` is
false.  `Has` only reads the tree: it returns nothing but the boolean. -/
theorem has_after_puts (cmp : K → K → Int) (hcmp : StrictTotal cmp) (ops : List (K × V))
    (t : Tree K V) (hput : PutAll (NewTree cmp) ops = Res.ok t) (k : K) :
    Has t k = Res.ok (ops.any (fun kv => decide (cmp k kv.1 = 0)))
      ∧ (∃ x, Get t k = Res.ok (ops.any (fun kv => decide (cmp k kv.1 = 0)), x))
      ∧ Has (NewTree cmp : Tree K V) k = Res.ok false := by
  obtain ⟨s, m, -, hc, hi⟩ := PutAll_contents hcmp ops _ t Shape.nil (Models.newTree cmp)
    redBlack_nil rfl (by simp [Sorted, Shape.items]) hput
  have hs : Sorted cmp s.items := by rw [hi]; exact sorted_contents hcmp ops
  have h1 := lookupKV_locate hcmp k s hs
  have h2 : lookupKV cmp k s.items = lastPut cmp k ops := by
    rw [hi]; exact lookupKV_contents hcmp k ops
  have h3 := @lastPut_isSome K V cmp k ops
  rw [← h2, h1] at h3
  refine ⟨?_, ?_, ?_⟩
  · rw [Has_sim m k, hc, ← h3]
    cases (locate cmp k s []).2 <;> rfl
  · rw [Get_sim m k, hc, ← h3]
    cases (locate cmp k s []).2
    · exact ⟨_, rfl⟩
    · exact ⟨_, rfl⟩
  · rw [Has_sim (Models.newTree cmp) k]
    rfl

/-- Witness of C6 on the demo run. -/
theorem has_after_puts_witness :
    StrictTotal cmpInt ∧ PutAll (NewTree cmpInt) demoOps = Res.ok demoTree
      ∧ Has demoTree 8 = Res.ok true ∧ Has demoTree 5 = Res.ok false :=
  ⟨cmpInt_strictTotal, demo_putAll,
    (has_after_puts cmpInt cmpInt_strictTotal demoOps demoTree demo_putAll 8).1,
    (has_after_puts cmpInt cmpInt_strictTotal demoOps demoTree demo_putAll 5).1⟩

/-! ## Rotations: claims C7, C8, C9, and claim C4 -/

theorem exists_plug_of_mem : ∀ (s : Shape K V) (ctx0 : List (Frame K V)) (a : Nat),
    a ∈ s.addrs → ∃ ctx c l k v r, plug ctx0 s = plug ctx (Shape.node a c l k v r) := by
  intro s
  induction s with
  | nil => intro ctx0 a ha; simp [Shape.addrs] at ha
  | node b c l k v r ihl ihr =>
    intro ctx0 a ha
    simp only [Shape.addrs, List.mem_append, List.mem_cons] at ha
    rcases ha with ha | rfl | ha
    · exact ihl (Frame.L b c k v r :: ctx0) a ha
    · exact ⟨ctx0, c, l, k, v, r, rfl⟩
    · exact ihr (Frame.R b c l k v :: ctx0) a ha

theorem Rep.unique {m m' : List (Node K V)} {par : Ptr} {s : Shape K V}
    (h : Rep m par s) (h' : Rep m' par s) : ∀ a ∈ s.addrs, m[a]? = m'[a]? := by
  induction s generalizing par with
  | nil => intro a ha; simp [Shape.addrs] at ha
  | node b c l k v r ihl ihr =>
    intro a ha
    simp only [Shape.addrs, List.mem_append, List.mem_cons] at ha
    rcases ha with ha | rfl | ha
    · exact ihl h.2.1 h'.2.1 a ha
    · rw [h.1, h'.1]
    · exact ihr h.2.2 h'.2.2 a ha

theorem colours_plug_congr (ctx : List (Frame K V)) {s s' : Shape K V}
    (h : s.colours = s'.colours) : (plug ctx s).colours = (plug ctx s').colours := by
  induction ctx generalizing s s' with
  | nil => exact h
  | cons f rest ih =>
    rw [plug_cons, plug_cons]
    apply ih
    cases f <;> simp [Frame.fill, Shape.colours, h]

/-- Two tree states that model the same shape and agree outside it are equal. -/
theorem Models.ext {t t' : Tree K V} {s : Shape K V} (h : Models t s) (h' : Models t' s)
    (hc : t'.cmp = t.cmp) (hn : t'.counter = t.counter)
    (hout : ∀ a, a ∉ s.addrs → t'.mem[a]? = t.mem[a]?) : t' = t := by
  have hm : t'.mem = t.mem := by
    apply List.ext_getElem?
    intro i
    by_cases hi : i ∈ s.addrs
    · exact h'.rep.unique h.rep i hi
    · exact hout i hi
  have hr : t'.root = t.root := by rw [h.root, h'.root]
  cases t
  cases t'
  simp only [Tree.mk.injEq]
  exact ⟨hr, hc, hn, hm⟩

theorem rotate_left_right {t : Tree K V} {ctx : List (Frame K V)} {y x : Nat} {cy cx : Color}
    {A B C : Shape K V} {kx ky : K} {vx vy : V}
    (h : Models t (plug ctx (Shape.node x cx A kx vx (Shape.node y cy B ky vy C)))) :
    ∃ t', RotateLeft t (some x) = Res.ok t' ∧ RotateRight t' (some y) = Res.ok t := by
  obtain ⟨t1, e1, m1, f1⟩ := RotateLeft_spec h
  obtain ⟨t2, e2, m2, f2⟩ := RotateRight_spec m1
  refine ⟨t1, e1, ?_⟩
  rw [e2]
  congr 1
  refine Models.ext h m2 (f2.1.trans f1.1) (f2.2.1.trans f1.2.1) ?_
  intro a ha
  have ha' : a ∉ (plug ctx (Shape.node y cy (Shape.node x cx A kx vx B) ky vy C)).addrs := by
    rw [addrs_plug] at ha ⊢
    simpa [Shape.addrs] using ha
  rw [f2.2.2.2 a ha', f1.2.2.2 a ha]

theorem rotate_right_left {t : Tree K V} {ctx : List (Frame K V)} {y x : Nat} {cy cx : Color}
    {A B C : Shape K V} {kx ky : K} {vx vy : V}
    (h : Models t (plug ctx (Shape.node y cy (Shape.node x cx A kx vx B) ky vy C))) :
    ∃ t', RotateRight t (some y) = Res.ok t' ∧ RotateLeft t' (some x) = Res.ok t := by
  obtain ⟨t1, e1, m1, f1⟩ := RotateRight_spec h
  obtain ⟨t2, e2, m2, f2⟩ := RotateLeft_spec m1
  refine ⟨t1, e1, ?_⟩
  rw [e2]
  congr 1
  refine Models.ext h m2 (f2.1.trans f1.1) (f2.2.1.trans f1.2.1) ?_
  intro a ha
  have ha' : a ∉ (plug ctx (Shape.node x cx A kx vx (Shape.node y cy B ky vy C))).addrs := by
    rw [addrs_plug] at ha ⊢
    simpa [Shape.addrs] using ha
  rw [f2.2.2.2 a ha', f1.2.2.2 a ha]

/-- A cell of a modelled tree whose right child is present sits in the tree as the
upper node of a right-leaning pair. -/
theorem Models.focus_right {t : Tree K V} {s : Shape K V} (h : Models t s) {x y : Nat}
    (hx : x ∈ s.addrs) (hy : getRight t (some x) = Res.ok (some y)) :
    ∃ ctx cx cy A B C kx vx ky vy,
      s = plug ctx (Shape.node x cx A kx vx (Shape.node y cy B ky vy C)) := by
  obtain ⟨ctx, c, l, k, v, r, e⟩ := exists_plug_of_mem s [] x hx
  have e' : s = plug ctx (Shape.node x c l k v r) := e
  subst e'
  rw [h.reads.2.2.1] at hy
  simp only [Res.ok.injEq] at hy
  cases r with
  | nil => simp at hy
  | node b cb bl kb vb br =>
    simp only [ptr_node, Option.some.injEq] at hy
    subst hy
    exact ⟨ctx, c, cb, l, bl, br, k, v, kb, vb, rfl⟩

theorem Models.focus_left {t : Tree K V} {s : Shape K V} (h : Models t s) {x y : Nat}
    (hy : y ∈ s.addrs) (hx : getLeft t (some y) = Res.ok (some x)) :
    ∃ ctx cx cy A B C kx vx ky vy,
      s = plug ctx (Shape.node y cy (Shape.node x cx A kx vx B) ky vy C) := by
  obtain ⟨ctx, c, l, k, v, r, e⟩ := exists_plug_of_mem s [] y hy
  have e' : s = plug ctx (Shape.node y c l k v r) := e
  subst e'
  rw [h.reads.2.1] at hx
  simp only [Res.ok.injEq] at hx
  cases l with
  | nil => simp at hx
  | node b cb bl kb vb br =>
    simp only [ptr_node, Option.some.injEq] at hx
    subst hx
    exact ⟨ctx, cb, c, bl, br, r, kb, vb, k, v, rfl⟩

/-- C7. In a tree with consistent links, for a node `a` whose right child `b` is
present, `RotateLeft a` followed by `RotateRight b` gives back the very same
state (root pointer, every link, every colour, every cell); and for a node `a`
whose left child `b` is present, `RotateRight a` followed by `RotateLeft b`
does. -/
theorem rotation_roundtrip (t : Tree K V) (s : Shape K V) (a : Nat) (h : Models t s)
    (ha : a ∈ s.addrs) :
    (∀ b, getRight t (some a) = Res.ok (some b) →
        ∃ t', RotateLeft t (some a) = Res.ok t' ∧ RotateRight t' (some b) = Res.ok t)
      ∧ (∀ b, getLeft t (some a) = Res.ok (some b) →
        ∃ t', RotateRight t (some a) = Res.ok t' ∧ RotateLeft t' (some b) = Res.ok t) := by
  constructor
  · intro b hb
    obtain ⟨ctx, cx, cy, A, B, C, kx, vx, ky, vy, e⟩ := h.focus_right ha hb
    subst e
    exact rotate_left_right h
  · intro b hb
    obtain ⟨ctx, cx, cy, A, B, C, kx, vx, ky, vy, e⟩ := h.focus_left ha hb
    subst e
    exact rotate_right_left h

/-- Witness of C7 at the root of the demo tree, which has both children. -/
theorem rotation_roundtrip_witness :
    Models demoTree demoShape ∧ 0 ∈ demoShape.addrs
      ∧ (∃ t', RotateLeft demoTree (some 0) = Res.ok t'
          ∧ RotateRight t' (some 2) = Res.ok demoTree)
      ∧ (∃ t', RotateRight demoTree (some 0) = Res.ok t'
          ∧ RotateLeft t' (some 1) = Res.ok demoTree) :=
  ⟨demo_models, by decide,
    (rotation_roundtrip demoTree demoShape 0 demo_models (by decide)).1 2 rfl,
    (rotation_roundtrip demoTree demoShape 0 demo_models (by decide)).2 1 rfl⟩

theorem Models.root_inner {t : Tree K V} {f : Frame K V} {rest : List (Frame K V)}
    {s : Shape K V} (m : Models t (plug (f :: rest) s)) {x : Nat} (hx : x ∈ s.addrs) :
    t.root ≠ some x := by
  obtain ⟨a, h1, h2⟩ := ptr_plug_mem f rest s
  rw [m.root, h1]
  intro e
  simp only [Option.some.injEq] at e
  rw [e] at h2
  have := m.counts x
  rw [mem_iff_count] at hx
  simp only [List.count_append] at h2
  omega

theorem rotate_root (ctx : List (Frame K V)) (t t' : Tree K V) (s s' : Shape K V) (x y : Nat)
    (m : Models t (plug ctx s)) (m' : Models t' (plug ctx s'))
    (hs : s.ptr = some x) (hs' : s'.ptr = some y) :
    t'.root = if t.root = some x then some y else t.root := by
  cases ctx with
  | nil =>
    have h1 : t.root = some x := by rw [m.root]; exact hs
    have h2 : t'.root = some y := by rw [m'.root]; exact hs'
    simp [h1, h2]
  | cons f rest =>
    have h1 : t.root ≠ some x := m.root_inner (ptr_mem_addrs hs)
    rw [if_neg h1, m.root, m'.root]
    exact ptr_plug_cons _ _ _ _

/-- C8. In a tree with consistent links, a rotation at a node whose required
child is present keeps the in-order sequence of (key, payload) pairs and every
node's colour; it only re-roots the subtree at that node (the path above it is
the same) and retargets the root pointer when the node was the root.  Cells
outside the tree, the comparator and the counter are untouched. -/
theorem rotation_preserves (t : Tree K V) (s : Shape K V) (a : Nat) (h : Models t s)
    (ha : a ∈ s.addrs) :
    (∀ b, getRight t (some a) = Res.ok (some b) →
        ∃ t' ctx ca cb A B C ka va kb vb,
          RotateLeft t (some a) = Res.ok t'
          ∧ s = plug ctx (Shape.node a ca A ka va (Shape.node b cb B kb vb C))
          ∧ Models t' (plug ctx (Shape.node b cb (Shape.node a ca A ka va B) kb vb C))
          ∧ (plug ctx (Shape.node b cb (Shape.node a ca A ka va B) kb vb C)).items = s.items
          ∧ (plug ctx (Shape.node b cb (Shape.node a ca A ka va B) kb vb C)).colours
              = s.colours
          ∧ t'.root = (if t.root = some a then some b else t.root)
          ∧ Framed t t' s)
      ∧ (∀ b, getLeft t (some a) = Res.ok (some b) →
        ∃ t' ctx ca cb A B C ka va kb vb,
          RotateRight t (some a) = Res.ok t'
          ∧ s = plug ctx (Shape.node a ca (Shape.node b cb A kb vb B) ka va C)
          ∧ Models t' (plug ctx (Shape.node b cb A kb vb (Shape.node a ca B ka va C)))
          ∧ (plug ctx (Shape.node b cb A kb vb (Shape.node a ca B ka va C))).items = s.items
          ∧ (plug ctx (Shape.node b cb A kb vb (Shape.node a ca B ka va C))).colours
              = s.colours
          ∧ t'.root = (if t.root = some a then some b else t.root)
          ∧ Framed t t' s) := by
  constructor
  · intro b hb
    obtain ⟨ctx, cx, cy, A, B, C, kx, vx, ky, vy, e⟩ := h.focus_right ha hb
    subst e
    obtain ⟨t1, e1, m1, f1⟩ := RotateLeft_spec h
    refine ⟨t1, ctx, cx, cy, A, B, C, kx, vx, ky, vy, e1, rfl, m1, ?_, ?_, ?_, f1⟩
    · exact items_plug_congr ctx (by simp [Shape.items])
    · exact colours_plug_congr ctx (by simp [Shape.colours])
    · exact rotate_root ctx t t1 _ _ a b h m1 rfl rfl
  · intro b hb
    obtain ⟨ctx, cx, cy, A, B, C, kx, vx, ky, vy, e⟩ := h.focus_left ha hb
    subst e
    obtain ⟨t1, e1, m1, f1⟩ := RotateRight_spec h
    refine ⟨t1, ctx, cy, cx, A, B, C, ky, vy, kx, vx, e1, rfl, m1, ?_, ?_, ?_, f1⟩
    · exact items_plug_congr ctx (by simp [Shape.items])
    · exact colours_plug_congr ctx (by simp [Shape.colours])
    · exact rotate_root ctx t t1 _ _ a b h m1 rfl rfl

/-- Witness of C8 at the root of the demo tree: both rotations complete. -/
theorem rotation_preserves_witness :
    Models demoTree demoShape ∧ 0 ∈ demoShape.addrs
      ∧ (∃ t', RotateLeft demoTree (some 0) = Res.ok t')
      ∧ (∃ t', RotateRight demoTree (some 0) = Res.ok t') :=
  ⟨demo_models, by decide,
    (let ⟨t', _, _, _, _, _, _, _, _, _, _, e, _⟩ :=
      (rotation_preserves demoTree demoShape 0 demo_models (by decide)).1 2 rfl
     ⟨t', e⟩),
    (let ⟨t', _, _, _, _, _, _, _, _, _, _, e, _⟩ :=
      (rotation_preserves demoTree demoShape 0 demo_models (by decide)).2 1 rfl
     ⟨t', e⟩)⟩

/-- A rotation to the left at a cell whose right child is absent panics: `y := x.right` is `nil` and `y.left` is read. -/
theorem RotateLeft_absent {t : Tree K V} {x : Nat}
    (hr : getRight t (some x) = Res.ok none) :
    RotateLeft t (some x) = Res.panic := by
  simp [RotateLeft, hr, getLeft, deref]

/-- C9 (the code departs from the claim).  `RotateLeft` on a node whose right
child is absent does not return: on the one-node tree left by `Put 7` it panics,
whereas `RotateRight`, which has the guard, returns that tree unchanged. -/
theorem rotateLeft_absent_panics :
    (PutAll (NewTree cmpInt) [((7 : Int), (70 : Nat))] >>= fun t => RotateLeft t t.root)
        = Res.panic
      ∧ (PutAll (NewTree cmpInt) [((7 : Int), (70 : Nat))] >>= fun t => RotateRight t t.root)
        = PutAll (NewTree cmpInt) [((7 : Int), (70 : Nat))]
      ∧ ∃ t, PutAll (NewTree cmpInt) [((7 : Int), (70 : Nat))] = Res.ok t := by
  refine ⟨rfl, rfl, _, rfl⟩

/-- C4 (the code departs from the claim).  `Put` of the key held by the root
node does not complete: after `Put 7`, a second `Put 7` panics, because
`InnerPut` dereferences the `nil` parent that the search returns for the root;
a `Put` of a key held by another node (3 in the demo run) does complete. -/
theorem put_root_key_panics :
    PutAll (NewTree cmpInt) [((7 : Int), (70 : Nat)), (7, 71)] = Res.panic
      ∧ (∃ t, PutAll (NewTree cmpInt) [((7 : Int), (70 : Nat))] = Res.ok t)
      ∧ PutAll (NewTree cmpInt) demoOps = Res.ok demoTree := by
  refine ⟨rfl, ⟨_, rfl⟩, demo_putAll⟩

/-! ## Pre-order dump: claim C10 -/

theorem foldl_append_string (acc : String) (L : List String) :
    L.foldl (fun a x => a ++ x) acc = acc ++ joinStrings L := by
  induction L generalizing acc with
  | nil => simp [joinStrings]
  | cons x L' ih =>
    simp only [List.foldl_cons, joinStrings]
    rw [ih (acc ++ x), ih ("" ++ x), String.empty_append, String.append_assoc]

theorem joinStrings_nil : joinStrings [] = "" := rfl

theorem joinStrings_cons (x : String) (L : List String) :
    joinStrings (x :: L) = x ++ joinStrings L := by
  simp only [joinStrings, List.foldl_cons]
  rw [foldl_append_string, String.empty_append]
  rfl

theorem joinStrings_append (A B : List String) :
    joinStrings (A ++ B) = joinStrings A ++ joinStrings B := by
  induction A with
  | nil => simp [joinStrings_nil]
  | cons x A' ih => rw [List.cons_append, joinStrings_cons, joinStrings_cons, ih,
      String.append_assoc]

theorem dumpSlice_isSome (fmt : Nat → Int → String) (s : Shape K V) (level : Int) :
    (dumpSlice fmt s level = none ↔ s.isNode = false) := by
  cases s with
  | nil => simp [dumpSlice, Shape.isNode]
  | node a c l k v r =>
    simp only [dumpSlice, Shape.isNode]
    split <;> simp

theorem join_dumpSlice (fmt : Nat → Int → String) (s : Shape K V) (level : Int) :
    joinStrings ((dumpSlice fmt s level).getD []) = referenceDump fmt s level := by
  induction s generalizing level with
  | nil => rfl
  | node a c l k v r ihl ihr =>
    simp only [dumpSlice, referenceDump, ne_eq, dumpSlice_isSome]
    by_cases h : l.isNode = false ∧ r.isNode = false
    · have h' : ¬ (¬ l.isNode = false ∨ ¬ r.isNode = false) := by tauto
      simp only [h, h', if_false, and_self, if_true, Option.getD_some]
      simp [joinStrings_cons, joinStrings_nil]
    · have h' : (¬ l.isNode = false ∨ ¬ r.isNode = false) := by tauto
      simp only [h, h', if_false, if_true, Option.getD_some]
      simp only [joinStrings_append, joinStrings_cons, joinStrings_nil, ihl, ihr,
        String.append_empty, String.append_assoc]

theorem PreOrderStringAt_sim {t : Tree K V} (fmt : Nat → Int → String) :
    ∀ (fuel : Nat) (s : Shape K V) (ctx : List (Frame K V)) (level : Int),
    Models t (plug ctx s) → s.height < fuel →
    PreOrderStringAt fuel t s.ptr fmt level = Res.ok (dumpSlice fmt s level) := by
  intro fuel
  induction fuel with
  | zero => intro s ctx level _ h; simp at h
  | succ fuel ih =>
    intro s ctx level h hlt
    cases s with
    | nil => simp [PreOrderStringAt, dumpSlice]
    | node a c l k v r =>
      simp only [Shape.height] at hlt
      have hr : Models t (plug (Frame.R a c l k v :: ctx) r) := h
      have hl : Models t (plug (Frame.L a c k v r :: ctx) l) := h
      have ihr := ih r _ (level + 1) hr (by omega)
      have ihl := ih l _ (level + 1) hl (by omega)
      simp only [PreOrderStringAt, ptr_node, h.reads, Res.ok_bind, ihl, ihr, dumpSlice]
      cases hsl : dumpSlice fmt l (level + 1) <;> cases hsr : dumpSlice fmt r (level + 1) <;>
        simp

/-- C10. For every tree with consistent links and every formatter,
`PreOrderString` returns the reference pre-order dump of the tree from its root
at level 0: nothing for an absent node, the formatted node alone for a leaf, and
for a node with a child the formatted node followed by both parenthesised
groups, an absent side giving `()`. -/
theorem preorder_is_reference (t : Tree K V) (s : Shape K V) (h : Models t s)
    (fmt : Nat → Int → String) :
    PreOrderString t fmt = Res.ok (referenceDump fmt s 0) := by
  have h1 : Models t (plug [] s) := h
  have := PreOrderStringAt_sim fmt (budget t) s [] 0 h1 h.budget_height
  rw [← h.root] at this
  simp only [PreOrderString, this, Res.ok_bind, Res.pure_eq, join_dumpSlice]

/-- Witness of C10 on the demo tree. -/
theorem preorder_is_reference_witness :
    Models demoTree demoShape
      ∧ PreOrderString demoTree (fun a _ => toString a)
          = Res.ok (referenceDump (fun a _ => toString a) demoShape 0) :=
  ⟨demo_models, preorder_is_reference demoTree demoShape demo_models _⟩

/-! ## The test scenarios, evaluated -/

set_option maxRecDepth 1000000 in
theorem multiPut_run : PutAll (NewTree IntComparator) multiPutOps = Res.ok multiPutTree := by
  rfl

set_option maxRecDepth 1000000 in
theorem multiPut_colours : PreOrderString multiPutTree (colourFormat multiPutTree)
    = Res.ok "10(7(3)(8))(26R(18(11)(22))(35(30)(85R(45()(83R))(90()(100R)))))" := by
  rfl

set_option maxRecDepth 1000000 in
theorem multiPut_blackDeep : BlackDeep multiPutTree = Res.ok 3 := by
  rfl

set_option maxRecDepth 1000000 in
theorem putTest_run : PutAll (NewTree IntComparator) putTestOps = Res.ok putTestTree := by
  rfl

set_option maxRecDepth 1000000 in
theorem putTest_colours : PreOrderString putTestTree (colourFormat putTestTree)
    = Res.ok "7(3)(10R(8)(17(16R)(18R)))" := by
  rfl

set_option maxRecDepth 1000000 in
theorem putTest_keys : PreOrderString putTestTree (keyFormat putTestTree)
    = Res.ok "7(3)(10(8)(17(16)(18)))" := by
  rfl

/-- C11: starting from the empty tree with `IntComparator`, the `Put` calls of
the keys 7, 3, 18, 10, 8, 11, 22, 26, 30, 45, 35, 90, 85, 83, 100 in this order
all complete, the pre-order dump of the result with colours is exactly
`10(7(3)(8))(26R(18(11)(22))(35(30)(85R(45()(83R))(90()(100R)))))`, and
`BlackDeep` returns 3. -/
theorem multi_put_scenario :
    ∃ t, PutAll (NewTree IntComparator) multiPutOps = Res.ok t
      ∧ multiPutOps.map Prod.fst = [7, 3, 18, 10, 8, 11, 22, 26, 30, 45, 35, 90, 85, 83, 100]
      ∧ PreOrderString t (colourFormat t)
          = Res.ok "10(7(3)(8))(26R(18(11)(22))(35(30)(85R(45()(83R))(90()(100R)))))"
      ∧ BlackDeep t = Res.ok 3 :=
  ⟨multiPutTree, multiPut_run, rfl, multiPut_colours, multiPut_blackDeep⟩

/-- C12, as stated, fails: after the `Put` calls of 7, 3, 8, 18, 10, 16, 17 the
dump with colours is not `7(3)(10(8)(17(16)(18)))`. -/
theorem put_test_not_all_black :
    ¬ ∃ t, PutAll (NewTree IntComparator) putTestOps = Res.ok t
      ∧ PreOrderString t (colourFormat t) = Res.ok "7(3)(10(8)(17(16)(18)))" := by
  rintro ⟨t, hrun, hdump⟩
  rw [putTest_run] at hrun
  injection hrun with ht
  subst ht
  rw [putTest_colours] at hdump
  injection hdump with hs
  exact absurd hs (by decide)

/-- C12, amended: starting from the empty tree with `IntComparator`, the `Put`
calls of the keys 7, 3, 8, 18, 10, 16, 17 in this order all complete and the
pre-order dump of the result with colours is exactly
`7(3)(10R(8)(17(16R)(18R)))` (nodes 10, 16 and 18 are RED); the dump of the keys
alone is `7(3)(10(8)(17(16)(18)))`. -/
theorem put_test_scenario :
    ∃ t, PutAll (NewTree IntComparator) putTestOps = Res.ok t
      ∧ putTestOps.map Prod.fst = [7, 3, 8, 18, 10, 16, 17]
      ∧ PreOrderString t (colourFormat t) = Res.ok "7(3)(10R(8)(17(16R)(18R)))"
      ∧ PreOrderString t (keyFormat t) = Res.ok "7(3)(10(8)(17(16)(18)))" :=
  ⟨putTestTree, putTest_run, rfl, putTest_colours, putTest_keys⟩

/-- C13, as stated, fails: on a tree that holds key 7, `Delete(7)` returns no
error (and the tree is as before). -/
theorem delete_returns_nil :
    Delete demoTree 7 = Res.ok (demoTree, none)
      ∧ ¬ ∃ t e, Delete demoTree 7 = Res.ok (t, some e) := by
  refine ⟨rfl, ?_⟩
  rintro ⟨t, e, h⟩
  simp [Delete, checkKey] at h

/-- C13, amended: `Delete` is a stub that does not fail: for every tree and
every key it returns `nil` (no error) and leaves the tree state as it was. -/
theorem delete_is_noop (t : Tree K V) (key : K) : Delete t key = Res.ok (t, none) := rfl

/-- C18, at the failing input: `IntComparator(9223372036854775807, -1)` is
`-9223372036854775808`, negative although the first argument is the greater;
and `IntComparator(-9223372036854775808, 1)` is positive although the first
argument is the smaller. -/
theorem intComparator_overflow :
    IntComparator 9223372036854775807 (-1) = -9223372036854775808
      ∧ ¬ (IntComparator 9223372036854775807 (-1) < 0 ↔ (9223372036854775807 : Int) < -1)
      ∧ IntComparator (-9223372036854775808) 1 = 9223372036854775807
      ∧ ¬ (0 < IntComparator (-9223372036854775808) 1 ↔ (-9223372036854775808 : Int) > 1) := by
  decide

/-! ## Black depth and height -/

theorem wrap64_add (x c : Int) : wrap64 (wrap64 x + c) = wrap64 (x + c) := by
  simp only [wrap64]
  omega

theorem bh_cast (c : Color) (n : Nat) :
    ((n + (if c = Color.BLACK then 1 else 0) : Nat) : Int) = (n : Int) + c.toInt := by
  cases c <;> simp [Color.toInt]

/-- The loop of `BlackDeep` adds the black height of the shape it walks down. -/
theorem BlackDeepLoop_sim {t : Tree K V} : ∀ (s : Shape K V) (fuel : Nat) (par : Ptr) (rs : Int),
    Rep t.mem par s → s.height < fuel →
    BlackDeepLoop fuel t s.ptr (wrap64 rs) = Res.ok (wrap64 (rs + s.bh)) := by
  intro s
  induction s with
  | nil =>
    intro fuel par rs _ hf
    cases fuel with
    | zero => simp at hf
    | succ fuel => simp [BlackDeepLoop, Shape.ptr, Shape.bh]
  | node a c l k v r ihl _ =>
    intro fuel par rs h hf
    cases fuel with
    | zero => simp at hf
    | succ fuel =>
      have hl : l.height < fuel := by
        simp only [Shape.height] at hf
        omega
      have := ihl fuel (some a) (rs + c.toInt) h.2.1 hl
      simp only [BlackDeepLoop, ptr_node, deref, h.1, Res.ok_bind, wrap64_add, this, Shape.bh,
        bh_cast, reduceCtorEq, ↓reduceIte]
      congr 2
      omega

theorem BlackDeep_sim {t : Tree K V} {s : Shape K V} (h : Models t s) :
    BlackDeep t = Res.ok (wrap64 s.bh) := by
  have := BlackDeepLoop_sim s (budget t) none 0 h.rep h.budget_height
  rw [← h.root] at this
  simpa [BlackDeep, wrap64] using this

theorem size_eq_addrs (s : Shape K V) : s.size = s.addrs.length := by
  induction s with
  | nil => rfl
  | node a c l k v r ihl ihr =>
    simp only [Shape.size, Shape.addrs, List.length_append, List.length_cons, ihl, ihr]
    omega

theorem size_eq_items (s : Shape K V) : s.size = s.items.length := by
  induction s with
  | nil => rfl
  | node a c l k v r ihl ihr =>
    simp only [Shape.size, Shape.items, List.length_append, List.length_cons, ihl, ihr]
    omega

theorem bh_le_height (s : Shape K V) : s.bh ≤ s.height := by
  induction s with
  | nil => simp [Shape.bh, Shape.height]
  | node a c l k v r ihl ihr =>
    simp only [Shape.bh, Shape.height]
    split <;> omega

theorem height_le_size' (s : Shape K V) : s.height ≤ s.size := by
  rw [size_eq_addrs]
  exact height_le_size s

theorem length_insertKV (cmp : K → K → Int) (key : K) (data : V) (L : List (K × V)) :
    (insertKV cmp key data L).length ≤ L.length + 1 := by
  induction L with
  | nil => simp [insertKV]
  | cons x L' ih =>
    obtain ⟨k, v⟩ := x
    simp only [insertKV]
    split
    · simp
    · split
      · simp
      · simp only [List.length_cons]
        omega

theorem length_contents (cmp : K → K → Int) (ops : List (K × V)) :
    (contents cmp ops).length ≤ ops.length := by
  induction ops using List.reverseRecOn with
  | nil => simp [contents]
  | append_singleton ops kv ih =>
    have := length_insertKV cmp kv.1 kv.2 (contents cmp ops)
    simp only [contents, List.foldl_append, List.foldl_cons, List.foldl_nil,
      List.length_append, List.length_singleton] at ih this ⊢
    omega

/-- In a shape without red-red edges whose subtrees are balanced, the longest
path has at most twice the black height, plus one when the root is RED. -/
theorem height_le_bh (s : Shape K V) (h1 : s.noRedRed) (h2 : s.balanced) :
    s.height ≤ 2 * s.bh + (if s.colour = Color.RED then 1 else 0) := by
  induction s with
  | nil => simp [Shape.height]
  | node a c l k v r ihl ihr =>
    obtain ⟨hc, hl, hr⟩ := h1
    obtain ⟨hb, bl, br⟩ := h2
    have i1 := ihl hl bl
    have i2 := ihr hr br
    cases c with
    | RED =>
      obtain ⟨cl, cr⟩ := hc rfl
      simp only [cl, cr, reduceCtorEq, ↓reduceIte] at i1 i2
      simp only [Shape.height, Shape.bh, Shape.colour, reduceCtorEq, ↓reduceIte]
      omega
    | BLACK =>
      simp only [Shape.height, Shape.bh, Shape.colour, reduceCtorEq, ↓reduceIte]
      split at i1 <;> split at i2 <;> omega

/-- A balanced shape of black height `b` has at least `2 ^ b - 1` cells. -/
theorem pow_bh_le_size (s : Shape K V) (h : s.balanced) : 2 ^ s.bh ≤ s.size + 1 := by
  induction s with
  | nil => simp [Shape.bh, Shape.size]
  | node a c l k v r ihl ihr =>
    obtain ⟨hb, bl, br⟩ := h
    have i1 := ihl bl
    have i2 := ihr br
    rw [← hb] at i2
    simp only [Shape.bh, Shape.size]
    split
    · rw [pow_succ]
      omega
    · have : 0 < 2 ^ l.bh := pow_pos (by decide) _
      simp only [add_zero]
      omega

/-- C15. For every tree built by completed `Put` calls under a strict total
order, all root-to-NIL paths hold the same number `n` of BLACK nodes, which is
the number of BLACK nodes on the leftmost spine, and `BlackDeep` returns `n` (the
`int` value of `n`; exactly `n` for fewer than 2^63 calls); it returns 0 on the
empty tree. -/
theorem blackDeep_after_puts (cmp : K → K → Int) (hcmp : StrictTotal cmp) (ops : List (K × V))
    (t : Tree K V) (hput : PutAll (NewTree cmp) ops = Res.ok t) :
    ∃ s n, Models t s ∧ (∀ x ∈ s.pathBlacks, x = n) ∧ n = s.bh
      ∧ BlackDeep t = Res.ok (wrap64 n)
      ∧ (ops.length < 2 ^ 63 → BlackDeep t = Res.ok (n : Int))
      ∧ (s = Shape.nil → BlackDeep t = Res.ok 0) := by
  obtain ⟨s, m, ⟨-, -, hb⟩, -, hi⟩ := PutAll_contents hcmp ops _ t Shape.nil (Models.newTree cmp)
    redBlack_nil rfl (by simp [Sorted, Shape.items]) hput
  have hi' : s.items = contents cmp ops := hi
  refine ⟨s, s.bh, m, pathBlacks_of_balanced hb, rfl, BlackDeep_sim m, ?_, ?_⟩
  · intro hlen
    have h1 := bh_le_height s
    have h2 := height_le_size' s
    have h3 := length_contents cmp ops
    rw [size_eq_items, hi'] at h2
    have hbound : s.bh < 2 ^ 63 := by omega
    have hint : ((s.bh : Nat) : Int) < 2 ^ 63 := by exact_mod_cast hbound
    have hpos : (0 : Int) ≤ (s.bh : Int) := Int.ofNat_nonneg _
    rw [BlackDeep_sim m, wrap64_id _ (by omega) hint]
  · intro hs
    rw [BlackDeep_sim m, hs]
    simp only [Shape.bh, Nat.cast_zero]
    rw [wrap64_id] <;> norm_num

/-- Witness of C15 on the demo run. -/
theorem blackDeep_after_puts_witness :
    StrictTotal cmpInt ∧ PutAll (NewTree cmpInt) demoOps = Res.ok demoTree
      ∧ ∃ s n, Models demoTree s ∧ (∀ x ∈ s.pathBlacks, x = n) ∧ n = s.bh
        ∧ BlackDeep demoTree = Res.ok (wrap64 n)
        ∧ (demoOps.length < 2 ^ 63 → BlackDeep demoTree = Res.ok (n : Int))
        ∧ (s = Shape.nil → BlackDeep demoTree = Res.ok 0) :=
  ⟨cmpInt_strictTotal, demo_putAll,
    blackDeep_after_puts cmpInt cmpInt_strictTotal demoOps demoTree demo_putAll⟩

/-- C17. For every tree built by completed `Put` calls, with `n` nodes and `h`
nodes on its longest root-to-NIL path: `2 ^ ceil(h / 2) ≤ n + 1`, hence
`h ≤ 2 * log2 (n + 1)`, and the search of `Get`, `Has` and `Put` for any key
ends within `h + 1` calls of `innerSearch` (it visits at most `h` nodes). -/
theorem height_after_puts (cmp : K → K → Int) (ops : List (K × V))
    (t : Tree K V) (hput : PutAll (NewTree cmp) ops = Res.ok t) :
    ∃ s, Models t s ∧ 2 ^ ((s.height + 1) / 2) ≤ s.size + 1
      ∧ s.height ≤ 2 * Nat.log 2 (s.size + 1)
      ∧ ∀ key, ∃ r, innerSearch (s.height + 1) t none t.root key Direction.NODIR = Res.ok r := by
  obtain ⟨s, m, ⟨hc, hn, hb⟩, -⟩ := PutAll_redBlack ops _ t Shape.nil (Models.newTree cmp)
    redBlack_nil hput
  have h1 := height_le_bh s hn hb
  simp only [hc, reduceCtorEq, ↓reduceIte, add_zero] at h1
  have h2 := pow_bh_le_size s hb
  have h3 : (s.height + 1) / 2 ≤ s.bh := by omega
  have h4 : 2 ^ ((s.height + 1) / 2) ≤ s.size + 1 :=
    le_trans (Nat.pow_le_pow_right (by decide) h3) h2
  refine ⟨s, m, h4, ?_, ?_⟩
  · have h5 : (s.height + 1) / 2 ≤ Nat.log 2 (s.size + 1) :=
      Nat.le_log_of_pow_le (by decide) h4
    omega
  · intro key
    have hm : Models t (plug [] s) := m
    have := innerSearch_sim key (s.height + 1) s [] hm (Nat.lt_succ_self _)
    rw [← m.root] at this
    exact ⟨_, this⟩

/-- Witness of C17 on the demo run. -/
theorem height_after_puts_witness :
    PutAll (NewTree cmpInt) demoOps = Res.ok demoTree
      ∧ ∃ s, Models demoTree s ∧ 2 ^ ((s.height + 1) / 2) ≤ s.size + 1
        ∧ s.height ≤ 2 * Nat.log 2 (s.size + 1)
        ∧ ∀ key, ∃ r, innerSearch (s.height + 1) demoTree none demoTree.root key
            Direction.NODIR = Res.ok r :=
  ⟨demo_putAll, height_after_puts cmpInt demoOps demoTree demo_putAll⟩

/-! ## Raw insertion -/

theorem toBST_plug_congr (ctx : List (Frame K V)) {s s' : Shape K V}
    (h : s.toBST = s'.toBST) : (plug ctx s).toBST = (plug ctx s').toBST := by
  induction ctx generalizing s s' with
  | nil => exact h
  | cons f rest ih =>
    rw [plug_cons, plug_cons]
    apply ih
    cases f <;> simp only [Frame.fill, Shape.toBST, h]

/-- Filling the place where the search ends is ordinary insertion. -/
theorem locate_insert (cmp : K → K → Int) (key : K) (data : V) (a : Nat) :
    ∀ (s : Shape K V) (ctx : List (Frame K V)),
    ∃ sI : Shape K V, sI.toBST = BST.insert cmp key data s.toBST
      ∧ (plug (locate cmp key s ctx).1 ((locate cmp key s ctx).2.attach key data a)).toBST
          = (plug ctx sI).toBST := by
  intro s
  induction s with
  | nil =>
    intro ctx
    exact ⟨Shape.node a Color.RED Shape.nil key data Shape.nil, rfl, rfl⟩
  | node b c l k v r ihl ihr =>
    intro ctx
    simp only [locate]
    split
    · rename_i h1
      obtain ⟨rI, e1, e2⟩ := ihr (Frame.R b c l k v :: ctx)
      refine ⟨Shape.node b c l k v rI, ?_, e2⟩
      simp only [Shape.toBST, BST.insert, h1, if_true, e1]
    · rename_i h1
      split
      · rename_i h2
        obtain ⟨lI, e1, e2⟩ := ihl (Frame.L b c k v r :: ctx)
        refine ⟨Shape.node b c lI k v r, ?_, e2⟩
        simp only [Shape.toBST, BST.insert, h1, h2, if_true, if_false, e1]
      · rename_i h2
        refine ⟨Shape.node b c l k data r, ?_, rfl⟩
        simp only [Shape.toBST, BST.insert, h1, h2, if_false]

theorem locate_attach_toBST (cmp : K → K → Int) (key : K) (data : V) (a : Nat)
    (s : Shape K V) :
    (plug (locate cmp key s []).1 ((locate cmp key s []).2.attach key data a)).toBST
      = BST.insert cmp key data s.toBST := by
  obtain ⟨sI, e1, e2⟩ := locate_insert cmp key data a s []
  rw [e2]
  exact e1

/-- The search ends at the root only when the key compares equal to the root key. -/
theorem locate_root (cmp : K → K → Int) (key : K) {a : Nat} {c : Color} {l r : Shape K V}
    {k : K} {v : V} {s : Shape K V}
    (h : locate cmp key (Shape.node a c l k v r) [] = ([], s)) : cmp key k = 0 := by
  have hl : ∀ (s : Shape K V) ctx, ctx.length ≤ (locate cmp key s ctx).1.length :=
    fun s ctx => (locate_length cmp key s ctx).1
  simp only [locate] at h
  split at h
  · have := hl r [Frame.R a c l k v]
    rw [h] at this
    simp at this
  · split at h
    · have := hl l [Frame.L a c k v r]
      rw [h] at this
      simp at this
    · omega

/-- A found key is a key of the shape. -/
theorem locate_found (cmp : K → K → Int) (key : K) : ∀ (s : Shape K V) (ctx : List (Frame K V))
    {b : Nat} {c : Color} {l r : Shape K V} {k : K} {v : V},
    (locate cmp key s ctx).2 = Shape.node b c l k v r →
    cmp key k = 0 ∧ (k, v) ∈ s.items := by
  intro s
  induction s with
  | nil => intro ctx b c l r k v h; simp [locate] at h
  | node b0 c0 l0 k0 v0 r0 ihl ihr =>
    intro ctx b c l r k v h
    simp only [locate] at h
    split at h
    · obtain ⟨e, hm⟩ := ihr _ h
      exact ⟨e, by simp [Shape.items, hm]⟩
    · split at h
      · obtain ⟨e, hm⟩ := ihl _ h
        exact ⟨e, by simp [Shape.items, hm]⟩
      · simp only [Shape.node.injEq] at h
        obtain ⟨-, -, -, rfl, rfl, -⟩ := h
        exact ⟨by omega, by simp [Shape.items]⟩

/-- The search for a key that no key of the tree equals ends at an empty place
below a node. -/
theorem locate_absent (cmp : K → K → Int) (key : K) (s : Shape K V) (hs : s.isNode = true)
    (hk : ∀ kv ∈ s.items, cmp key kv.1 ≠ 0) :
    ∃ f rest, locate cmp key s [] = (f :: rest, Shape.nil) := by
  generalize hl : locate cmp key s [] = lr
  obtain ⟨ctx, s'⟩ := lr
  cases s' with
  | node b c l k v r =>
    have h : (locate cmp key s []).2 = Shape.node b c l k v r := by rw [hl]
    obtain ⟨e, hm⟩ := locate_found cmp key s [] h
    exact absurd e (hk _ hm)
  | nil =>
    cases ctx with
    | nil =>
      have := (locate_length cmp key s []).2 hs (by rw [hl])
      rw [hl] at this
      simp at this
    | cons f rest => exact ⟨f, rest, rfl⟩

theorem update_frame {t t' : Tree K V} {a : Nat} {g : Node K V → Node K V}
    (h : update t (some a) g = Res.ok t') :
    t'.root = t.root ∧ t'.mem.length = t.mem.length
      ∧ ∀ b, b ≠ a → t'.mem[b]? = t.mem[b]? := by
  simp only [update] at h
  split at h
  · simp at h
  · simp only [Res.ok.injEq] at h
    subst h
    refine ⟨rfl, by simp, ?_⟩
    intro b hb
    simp only [lookup_set, if_neg hb]

/-- Raw insertion of a new key: the new RED leaf is the only new cell, the
parent is the only old cell that changes, and it changes in one child link. -/
theorem InnerPut_new_frame {t : Tree K V} {s0 : Shape K V} (h : Models t s0) (key : K)
    (data : V) {f : Frame K V} {rest : List (Frame K V)}
    (hl : locate t.cmp key s0 [] = (f :: rest, Shape.nil)) :
    ∃ t', InnerPut t key data = Res.ok (t', some t.mem.length, true)
      ∧ Models t' (plug (f :: rest)
          (Shape.node t.mem.length Color.RED Shape.nil key data Shape.nil))
      ∧ t'.root = t.root ∧ t'.mem.length = t.mem.length + 1
      ∧ (∀ b, b ≠ f.addr → b < t.mem.length → t'.mem[b]? = t.mem[b]?)
      ∧ t'.mem[t.mem.length]? = some ⟨key, data, Color.RED, none, none, some f.addr⟩
      ∧ t.mem[f.addr]? = some (f.cell none (ctxPtr rest))
      ∧ t'.mem[f.addr]? = some (f.cell (some t.mem.length) (ctxPtr rest)) := by
  have hp : plug (f :: rest) Shape.nil = s0 := by
    have := locate_plug t.cmp key s0 []
    rw [hl] at this
    exact this
  have hr : (addCounter t 1).root ≠ none := by
    show t.root ≠ none
    rw [h.root, ← hp]
    obtain ⟨a, h1, -⟩ := ptr_plug_mem f rest (Shape.nil : Shape K V)
    rw [h1]; simp
  have h0 : Models t (plug (f :: rest) Shape.nil) := by rw [hp]; exact h
  have h1 : Models (addCounter t 1) (plug (f :: rest) Shape.nil) := by
    rw [hp]; exact h.addCounter 1
  obtain ⟨t', e, m, hc, hn⟩ := attach_spec h1 key data _ rfl
  have hrun : InnerPut t key data = Res.ok (t', some t.mem.length, true) := by
    simp only [InnerPut, hr, if_false]
    rw [InnerPut_search h key, hl]
    simp only [Shape.isNode, alloc, ctxPtr_cons]
    have e' := e
    simp only [addCounter] at e' ⊢
    simp [e']
  have hfr : t'.root = t.root ∧ t'.mem.length = t.mem.length + 1
      ∧ ∀ b, b ≠ f.addr → t'.mem[b]? = (t.mem ++ [(⟨key, data, Color.RED, none, none,
          some f.addr⟩ : Node K V)])[b]? := by
    split at e
    · obtain ⟨a1, a2, a3⟩ := update_frame e
      exact ⟨a1, by simpa [addCounter] using a2, a3⟩
    · obtain ⟨a1, a2, a3⟩ := update_frame e
      exact ⟨a1, by simpa [addCounter] using a2, a3⟩
  obtain ⟨hctx0, -⟩ := (rep_plug _ _).1 h0.rep
  obtain ⟨hctx1, hnew⟩ := (rep_plug _ _).1 m.rep
  refine ⟨t', hrun, m, hfr.1, hfr.2.1, ?_, hnew.1, hctx0.1, hctx1.1⟩
  intro b hb hlt
  rw [hfr.2.2 b hb, List.getElem?_append_left hlt]

/-- Raw insertion below the root, on shapes: whatever the search finds, the
result is the tree with the found place filled. -/
theorem InnerPut_attach {t : Tree K V} {s0 : Shape K V} (h : Models t s0) (key : K)
    (data : V) {f : Frame K V} {rest : List (Frame K V)} {s1 : Shape K V}
    (hl : locate t.cmp key s0 [] = (f :: rest, s1)) :
    ∃ t' n b, InnerPut t key data = Res.ok (t', n, b)
      ∧ Models t' (plug (f :: rest) (s1.attach key data t.mem.length))
      ∧ t'.cmp = t.cmp := by
  cases s1 with
  | nil =>
    obtain ⟨t', e, m, hc, -⟩ := InnerPut_new h key data hl
    exact ⟨t', _, _, e, m, hc⟩
  | node b c l k v r =>
    obtain ⟨t', e, m, hc, -⟩ := InnerPut_found h key data hl
    exact ⟨t', _, _, e, m, hc⟩

theorem insert_root (cmp : K → K → Int) (key : K) (data : V) (l : BST K V) (k : K) (v : V)
    (r : BST K V) :
    ∃ l' v' r', BST.insert cmp key data (BST.node l k v r) = BST.node l' k v' r' := by
  simp only [BST.insert]
  split
  · exact ⟨_, _, _, rfl⟩
  · split
    · exact ⟨_, _, _, rfl⟩
    · exact ⟨_, _, _, rfl⟩

theorem InnerPutAll_cons (t : Tree K V) (k : K) (v : V) (rest : List (K × V)) :
    InnerPutAll t ((k, v) :: rest) = (InnerPut t k v >>= fun r => InnerPutAll r.1 rest) := rfl

/-- A run of raw insertions into a non-empty tree, none with a key equal to the
root key, completes and is the run of ordinary insertions. -/
theorem InnerPutAll_sim : ∀ (ops : List (K × V)) (t0 : Tree K V) (s0 : Shape K V)
    (lB : BST K V) (k : K) (vB : V) (rB : BST K V),
    Models t0 s0 → s0.toBST = BST.node lB k vB rB → (∀ kv ∈ ops, t0.cmp kv.1 k ≠ 0) →
    ∃ t s, InnerPutAll t0 ops = Res.ok t ∧ Models t s ∧ t.cmp = t0.cmp
      ∧ s.toBST = ops.foldl (fun b kv => BST.insert t0.cmp kv.1 kv.2 b) s0.toBST := by
  intro ops
  induction ops with
  | nil =>
    intro t0 s0 lB k vB rB h _ _
    exact ⟨t0, s0, rfl, h, rfl, rfl⟩
  | cons kv rest ih =>
    intro t0 s0 lB k vB rB h hroot hk
    obtain ⟨k1, v1⟩ := kv
    cases s0 with
    | nil => simp [Shape.toBST] at hroot
    | node a c l k0 v0 r =>
      have hk0 : k0 = k := by
        simp only [Shape.toBST, BST.node.injEq] at hroot
        exact hroot.2.1
      subst hk0
      generalize hl : locate t0.cmp k1 (Shape.node a c l k0 v0 r) [] = lr
      obtain ⟨ctx, s1⟩ := lr
      cases ctx with
      | nil =>
        have := locate_root t0.cmp k1 hl
        exact absurd this (hk (k1, v1) (by simp))
      | cons f ctx1 =>
        obtain ⟨t1, n, b, e, m, hc⟩ := InnerPut_attach h k1 v1 hl
        have hb := locate_attach_toBST t0.cmp k1 v1 t0.mem.length (Shape.node a c l k0 v0 r)
        rw [hl] at hb
        simp only at hb
        obtain ⟨l', v', r', hi⟩ := insert_root t0.cmp k1 v1 l.toBST k0 v0 r.toBST
        have hroot1 : (plug (f :: ctx1) (s1.attach k1 v1 t0.mem.length)).toBST
            = BST.node l' k0 v' r' := by
          rw [hb]; exact hi
        have hk' : ∀ kv ∈ rest, t1.cmp kv.1 k0 ≠ 0 := by
          intro kv hm
          rw [hc]
          exact hk kv (List.mem_cons_of_mem _ hm)
        obtain ⟨t, s, e2, m2, hc2, hs⟩ := ih t1 _ l' k0 v' r' m hroot1 hk'
        refine ⟨t, s, ?_, m2, hc2.trans hc, ?_⟩
        · rw [InnerPutAll_cons, e]
          exact e2
        · rw [hs, hc, hb]
          rfl

set_option maxRecDepth 1000000 in
theorem innerPut_run : InnerPutAll (NewTree IntComparator) innerPutOps = Res.ok innerPutTree := by
  rfl

set_option maxRecDepth 1000000 in
theorem innerPut_keys : PreOrderString innerPutTree (keyFormat innerPutTree)
    = Res.ok "7(3)(8()(18(10)()))" := by
  rfl

/-- What `InnerPut` does where it completes: raw insertion.  On an empty tree it makes a BLACK root and
returns `needfix = false`.  On a non-empty tree with consistent links that holds
no key equal to `key`, the search ends below its last visited node `f`, and
`InnerPut` returns a new RED leaf with `needfix = true`: the leaf is the one new
cell, its parent link is `f`, it is the LEFT or RIGHT child of `f` as the search
direction says, every other old cell and the root pointer are unchanged.  Hence
a run of `InnerPut` calls from the empty tree (no later key equal to the first
one) completes and builds the tree of ordinary unbalanced insertion; the keys
7, 3, 8, 18, 10 give the pre-order dump `7(3)(8()(18(10)()))`. -/
theorem innerPut_is_bst_insert (cmp : K → K → Int) :
    (∀ (t : Tree K V) (key : K) (data : V), t.root = none →
      ∃ t', InnerPut t key data = Res.ok (t', some t.mem.length, false)
        ∧ Models t' (Shape.node t.mem.length Color.BLACK Shape.nil key data Shape.nil))
    ∧ (∀ (t : Tree K V) (s : Shape K V) (key : K) (data : V), Models t s → s.isNode = true →
        (∀ kv ∈ s.items, t.cmp key kv.1 ≠ 0) →
        ∃ t' f rest, s = plug (f :: rest) Shape.nil
          ∧ innerSearch (budget t) t none t.root key Direction.NODIR
              = Res.ok (false, some f.addr, ctxDir (f :: rest))
          ∧ InnerPut t key data = Res.ok (t', some t.mem.length, true)
          ∧ Models t' (plug (f :: rest)
              (Shape.node t.mem.length Color.RED Shape.nil key data Shape.nil))
          ∧ t'.root = t.root ∧ t'.mem.length = t.mem.length + 1
          ∧ (∀ b, b ≠ f.addr → b < t.mem.length → t'.mem[b]? = t.mem[b]?)
          ∧ t'.mem[t.mem.length]? = some ⟨key, data, Color.RED, none, none, some f.addr⟩
          ∧ t.mem[f.addr]? = some (f.cell none (ctxPtr rest))
          ∧ t'.mem[f.addr]? = some (f.cell (some t.mem.length) (ctxPtr rest)))
    ∧ (∀ (k0 : K) (v0 : V) (rest : List (K × V)), (∀ kv ∈ rest, cmp kv.1 k0 ≠ 0) →
        ∃ t s, InnerPutAll (NewTree cmp) ((k0, v0) :: rest) = Res.ok t ∧ Models t s
          ∧ s.toBST = ((k0, v0) :: rest).foldl (fun b kv => BST.insert cmp kv.1 kv.2 b)
              BST.leaf)
    ∧ (∃ t, InnerPutAll (NewTree IntComparator) innerPutOps = Res.ok t
        ∧ innerPutOps.map Prod.fst = [7, 3, 8, 18, 10]
        ∧ PreOrderString t (keyFormat t) = Res.ok "7(3)(8()(18(10)()))") := by
  refine ⟨?_, ?_, ?_, ⟨innerPutTree, innerPut_run, rfl, innerPut_keys⟩⟩
  · intro t key data hr
    have h : Models t Shape.nil := ⟨hr, trivial, List.nodup_nil⟩
    obtain ⟨t', e, m, -⟩ := InnerPut_empty h key data
    exact ⟨t', e, m⟩
  · intro t s key data h hs hk
    obtain ⟨f, rest, hl⟩ := locate_absent t.cmp key s hs hk
    have hp : plug (f :: rest) Shape.nil = s := by
      have := locate_plug t.cmp key s []
      rw [hl] at this
      exact this
    have hsearch := search_root h key
    rw [hl] at hsearch
    obtain ⟨t', e, m, a1, a2, a3, a4, a5, a6⟩ := InnerPut_new_frame h key data hl
    exact ⟨t', f, rest, hp.symm, hsearch, e, m, a1, a2, a3, a4, a5, a6⟩
  · intro k0 v0 rest hk
    obtain ⟨t1, e1, m1, c1, -⟩ := InnerPut_empty (Models.newTree cmp) k0 v0
    have hk1 : ∀ kv ∈ rest, t1.cmp kv.1 k0 ≠ 0 := by
      intro kv hm
      rw [c1]
      exact hk kv hm
    obtain ⟨t, s, e, m, -, hs⟩ := InnerPutAll_sim rest t1 _ BST.leaf k0 v0 BST.leaf m1 rfl hk1
    refine ⟨t, s, ?_, m, ?_⟩
    · rw [InnerPutAll_cons, e1]
      exact e
    · rw [hs, c1]
      rfl

/-- An instance of `innerPut_is_bst_insert`: raw insertion of key 5 into the demo tree, and the run of
raw insertions of 7, 3, 8. -/
theorem innerPut_is_bst_insert_witness :
    (Models demoTree demoShape ∧ demoShape.isNode = true
      ∧ (∀ kv ∈ demoShape.items, demoTree.cmp 5 kv.1 ≠ 0)
      ∧ ∃ t' f rest, demoShape = plug (f :: rest) Shape.nil
          ∧ innerSearch (budget demoTree) demoTree none demoTree.root 5 Direction.NODIR
              = Res.ok (false, some f.addr, ctxDir (f :: rest))
          ∧ InnerPut demoTree 5 50 = Res.ok (t', some demoTree.mem.length, true)
          ∧ Models t' (plug (f :: rest)
              (Shape.node demoTree.mem.length Color.RED Shape.nil 5 50 Shape.nil))
          ∧ t'.root = demoTree.root ∧ t'.mem.length = demoTree.mem.length + 1
          ∧ (∀ b, b ≠ f.addr → b < demoTree.mem.length → t'.mem[b]? = demoTree.mem[b]?)
          ∧ t'.mem[demoTree.mem.length]? = some ⟨5, 50, Color.RED, none, none, some f.addr⟩
          ∧ demoTree.mem[f.addr]? = some (f.cell none (ctxPtr rest))
          ∧ t'.mem[f.addr]? = some (f.cell (some demoTree.mem.length) (ctxPtr rest)))
    ∧ ((∀ kv ∈ [((3 : Int), (30 : Nat)), (8, 80)], cmpInt kv.1 7 ≠ 0)
      ∧ ∃ t s, InnerPutAll (NewTree cmpInt) [(7, 70), (3, 30), (8, 80)] = Res.ok t ∧ Models t s
          ∧ s.toBST = [((7 : Int), (70 : Nat)), (3, 30), (8, 80)].foldl
              (fun b kv => BST.insert cmpInt kv.1 kv.2 b) BST.leaf) :=
  ⟨⟨demo_models, rfl, by decide,
      (innerPut_is_bst_insert cmpInt).2.1 demoTree demoShape 5 50 demo_models rfl (by decide)⟩,
    ⟨by decide, (innerPut_is_bst_insert cmpInt).2.2.1 7 70 [(3, 30), (8, 80)] (by decide)⟩⟩

/-! ## `fixLog` and `fix` -/

theorem Res.bind_assoc {α β γ : Type} (x : Res α) (f : α → Res β) (g : β → Res γ) :
    ((x >>= f) >>= g) = (x >>= fun a => f a >>= g) := by
  cases x <;> rfl

theorem Res.ite_bind {α β : Type} (c : Prop) [Decidable c] (x y : Res α) (f : α → Res β) :
    ((if c then x else y) >>= f) = if c then x >>= f else y >>= f := by
  split <;> rfl

theorem Res.bind_ok {α : Type} (x : Res α) : (x >>= fun a => Res.ok a) = x := by
  cases x <;> rfl

/-- The record does not influence the run: `fixLog` ends in the state in which
`fix` ends, panics where `fix` panics and runs out of budget where `fix` does. -/
theorem fixLog_state : ∀ (fuel : Nat) (t : Tree K V) (d : Ptr),
    (fixLog fuel t d >>= fun r => Res.ok r.1) = fix fuel t d := by
  intro fuel
  induction fuel with
  | zero => intro t d; rfl
  | succ fuel ih =>
    intro t d
    simp only [fixLog, fix, Res.bind_assoc, Res.ite_bind, Res.pure_eq, Res.ok_bind, Res.bind_ok, ih]

/-! ## Simulation of `fixLog` -/

theorem Models.lifted {t : Tree K V} {ctx : List (Frame K V)} {a : Nat} {c : Color}
    {l r : Shape K V} {k : K} {v : V} (h : Models t (plug ctx (Shape.node a c l k v r))) :
    liftedChild t Direction.RIGHT (some a) = l.ptr
      ∧ liftedChild t Direction.LEFT (some a) = r.ptr := by
  have := h.cell
  simp [liftedChild, deref, this]

set_option maxHeartbeats 1600000 in
theorem fixLog_rotate_LL {t : Tree K V} {rest : List (Frame K V)} {d p ga : Nat} {cg : Color}
    {l r ps u : Shape K V} {k kp kg : K} {v vp vg : V} (fuel : Nat)
    (h : Models t (plug (Frame.L p Color.RED kp vp ps :: Frame.L ga cg kg vg u :: rest)
      (Shape.node d Color.RED l k v r)))
    (hu : u.colour ≠ Color.RED) :
    ∃ t', fixLog (fuel + 1) t (some d)
        = Res.ok (t', Event.call (some d) :: rotateLog (Frame.L p Color.RED kp vp ps) (Frame.L ga cg kg vg u) d)
      ∧ Models t' (plug rest (Shape.node p Color.BLACK (Shape.node d Color.RED l k v r) kp vp
          (Shape.node ga Color.RED ps kg vg u)))
      ∧ t'.cmp = t.cmp ∧ t'.counter = t.counter := by
  have hp : Models t (plug (Frame.L ga cg kg vg u :: rest)
      (Shape.node p Color.RED (Shape.node d Color.RED l k v r) kp vp ps)) := h
  have hg : Models t (plug rest (Shape.node ga cg
      (Shape.node p Color.RED (Shape.node d Color.RED l k v r) kp vp ps) kg vg u)) := h
  have hcu := GetColor_ptr hp.sibling_rep
  have hcs := GetColor_ptr h.sibling_rep
  simp only [Frame.sibling] at hcu hcs
  have hcnt := fun a => h.counts a
  simp only [ctxBefore, ctxAfter, List.count_append, List.count_cons, List.count_nil,
    Shape.addrs, beq_iff_eq] at hcnt
  have hups : u.ptr ≠ some p := by
    apply ptr_ne_of_not_mem; rw [mem_iff_count]
    have := hcnt p; simp only [↓reduceIte] at this; omega
  have hpsd : ps.ptr ≠ some d := by
    apply ptr_ne_of_not_mem; rw [mem_iff_count]
    have := hcnt d; simp only [↓reduceIte] at this; omega
  have hucol : u.colour = Color.BLACK := by
    cases hc : u.colour
    · exact absurd hc hu
    · rfl
  obtain ⟨t1, e1, m1, f1, -⟩ := setColor_spec hp Color.BLACK
  have m1d : Models t1 (plug (Frame.L p Color.BLACK kp vp ps :: Frame.L ga cg kg vg u :: rest)
      (Shape.node d Color.RED l k v r)) := m1
  have m1g : Models t1 (plug rest (Shape.node ga cg
      (Shape.node p Color.BLACK (Shape.node d Color.RED l k v r) kp vp ps) kg vg u)) := m1
  have hcu1 := GetColor_ptr m1.sibling_rep
  simp only [Frame.sibling] at hcu1
  obtain ⟨t2, e2, m2, f2, -⟩ := setColor_spec m1g Color.RED
  have m2p : Models t2 (plug (Frame.L ga Color.RED kg vg u :: rest)
      (Shape.node p Color.BLACK (Shape.node d Color.RED l k v r) kp vp ps)) := m2
  have m2d : Models t2 (plug (Frame.L p Color.BLACK kp vp ps :: Frame.L ga Color.RED kg vg u :: rest)
      (Shape.node d Color.RED l k v r)) := m2
  obtain ⟨t3, e3, m3, f3⟩ := RotateRight_spec m2
  refine ⟨t3, ?_, m3, f3.1.trans (f2.1.trans f1.1), f3.2.1.trans (f2.2.1.trans f1.2.1)⟩
  simp [fixLog, rotateLog, m2.lifted, grand, h.reads, hp.reads, hg.reads, hcu, hucol, hups, hups.symm, hpsd, hpsd.symm,
    e1, m1.reads, m1d.reads, m1g.reads, hcu1, e2, m2.reads, m2p.reads, m2d.reads, e3]

set_option maxHeartbeats 1600000 in
theorem fixLog_rotate_RR {t : Tree K V} {rest : List (Frame K V)} {d p ga : Nat} {cg : Color}
    {l r pl u : Shape K V} {k kp kg : K} {v vp vg : V} (fuel : Nat)
    (h : Models t (plug (Frame.R p Color.RED pl kp vp :: Frame.R ga cg u kg vg :: rest)
      (Shape.node d Color.RED l k v r)))
    (hu : u.colour ≠ Color.RED) :
    ∃ t', fixLog (fuel + 1) t (some d)
        = Res.ok (t', Event.call (some d) :: rotateLog (Frame.R p Color.RED pl kp vp) (Frame.R ga cg u kg vg) d)
      ∧ Models t' (plug rest (Shape.node p Color.BLACK (Shape.node ga Color.RED u kg vg pl) kp vp
          (Shape.node d Color.RED l k v r)))
      ∧ t'.cmp = t.cmp ∧ t'.counter = t.counter := by
  have hp : Models t (plug (Frame.R ga cg u kg vg :: rest)
      (Shape.node p Color.RED pl kp vp (Shape.node d Color.RED l k v r))) := h
  have hg : Models t (plug rest (Shape.node ga cg u kg vg
      (Shape.node p Color.RED pl kp vp (Shape.node d Color.RED l k v r)))) := h
  have hcu := GetColor_ptr hp.sibling_rep
  simp only [Frame.sibling] at hcu
  have hcnt := fun a => h.counts a
  simp only [ctxBefore, ctxAfter, List.count_append, List.count_cons, List.count_nil,
    Shape.addrs, beq_iff_eq] at hcnt
  have hups : u.ptr ≠ some p := by
    apply ptr_ne_of_not_mem; rw [mem_iff_count]
    have := hcnt p; simp only [↓reduceIte] at this; omega
  have hpld : pl.ptr ≠ some d := by
    apply ptr_ne_of_not_mem; rw [mem_iff_count]
    have := hcnt d; simp only [↓reduceIte] at this; omega
  have hucol : u.colour = Color.BLACK := by
    cases hc : u.colour
    · exact absurd hc hu
    · rfl
  obtain ⟨t1, e1, m1, f1, -⟩ := setColor_spec hp Color.BLACK
  have m1d : Models t1 (plug (Frame.R p Color.BLACK pl kp vp :: Frame.R ga cg u kg vg :: rest)
      (Shape.node d Color.RED l k v r)) := m1
  have m1g : Models t1 (plug rest (Shape.node ga cg u kg vg
      (Shape.node p Color.BLACK pl kp vp (Shape.node d Color.RED l k v r)))) := m1
  have hcu1 := GetColor_ptr m1.sibling_rep
  simp only [Frame.sibling] at hcu1
  obtain ⟨t2, e2, m2, f2, -⟩ := setColor_spec m1g Color.RED
  have m2p : Models t2 (plug (Frame.R ga Color.RED u kg vg :: rest)
      (Shape.node p Color.BLACK pl kp vp (Shape.node d Color.RED l k v r))) := m2
  have m2d : Models t2 (plug (Frame.R p Color.BLACK pl kp vp :: Frame.R ga Color.RED u kg vg :: rest)
      (Shape.node d Color.RED l k v r)) := m2
  obtain ⟨t3, e3, m3, f3⟩ := RotateLeft_spec m2
  refine ⟨t3, ?_, m3, f3.1.trans (f2.1.trans f1.1), f3.2.1.trans (f2.2.1.trans f1.2.1)⟩
  simp [fixLog, rotateLog, m2.lifted, grand, h.reads, hp.reads, hg.reads, hcu, hucol, hups, hups.symm, hpld, hpld.symm,
    e1, m1.reads, m1d.reads, m1g.reads, hcu1, e2, m2.reads, m2p.reads, m2d.reads, e3]

set_option maxHeartbeats 1600000 in
theorem fixLog_rotate_RL {t : Tree K V} {rest : List (Frame K V)} {d p ga : Nat} {cg : Color}
    {l r pl u : Shape K V} {k kp kg : K} {v vp vg : V} (fuel : Nat)
    (h : Models t (plug (Frame.R p Color.RED pl kp vp :: Frame.L ga cg kg vg u :: rest)
      (Shape.node d Color.RED l k v r)))
    (hu : u.colour ≠ Color.RED) :
    ∃ t', fixLog (fuel + 1) t (some d)
        = Res.ok (t', Event.call (some d) :: rotateLog (Frame.R p Color.RED pl kp vp) (Frame.L ga cg kg vg u) d)
      ∧ Models t' (plug rest (Shape.node d Color.BLACK (Shape.node p Color.RED pl kp vp l) k v
          (Shape.node ga Color.RED r kg vg u)))
      ∧ t'.cmp = t.cmp ∧ t'.counter = t.counter := by
  have hp : Models t (plug (Frame.L ga cg kg vg u :: rest)
      (Shape.node p Color.RED pl kp vp (Shape.node d Color.RED l k v r))) := h
  have hg : Models t (plug rest (Shape.node ga cg
      (Shape.node p Color.RED pl kp vp (Shape.node d Color.RED l k v r)) kg vg u)) := h
  have hcu := GetColor_ptr hp.sibling_rep
  simp only [Frame.sibling] at hcu
  have hcnt := fun a => h.counts a
  simp only [ctxBefore, ctxAfter, List.count_append, List.count_cons, List.count_nil,
    Shape.addrs, beq_iff_eq] at hcnt
  have hpld : pl.ptr ≠ some d := by
    apply ptr_ne_of_not_mem; rw [mem_iff_count]
    have := hcnt d; simp only [↓reduceIte] at this; omega
  have hucol : u.colour = Color.BLACK := by
    cases hc : u.colour
    · exact absurd hc hu
    · rfl
  obtain ⟨t1, e1, m1, f1⟩ := RotateLeft_spec hp
  have m1p : Models t1 (plug (Frame.L d Color.RED k v r :: Frame.L ga cg kg vg u :: rest)
      (Shape.node p Color.RED pl kp vp l)) := m1
  obtain ⟨t2, e2, m2, f2, -⟩ := setColor_spec m1 Color.BLACK
  have m2p : Models t2 (plug (Frame.L d Color.BLACK k v r :: Frame.L ga cg kg vg u :: rest)
      (Shape.node p Color.RED pl kp vp l)) := m2
  have m2g : Models t2 (plug rest (Shape.node ga cg
      (Shape.node d Color.BLACK (Shape.node p Color.RED pl kp vp l) k v r) kg vg u)) := m2
  have hcu2 := GetColor_ptr m2.sibling_rep
  simp only [Frame.sibling] at hcu2
  obtain ⟨t3, e3, m3, f3, -⟩ := setColor_spec m2g Color.RED
  have m3d : Models t3 (plug (Frame.L ga Color.RED kg vg u :: rest)
      (Shape.node d Color.BLACK (Shape.node p Color.RED pl kp vp l) k v r)) := m3
  have m3p : Models t3 (plug (Frame.L d Color.BLACK k v r :: Frame.L ga Color.RED kg vg u :: rest)
      (Shape.node p Color.RED pl kp vp l)) := m3
  obtain ⟨t4, e4, m4, f4⟩ := RotateRight_spec m3
  refine ⟨t4, ?_, m4, f4.1.trans (f3.1.trans (f2.1.trans f1.1)),
    f4.2.1.trans (f3.2.1.trans (f2.2.1.trans f1.2.1))⟩
  simp [fixLog, rotateLog, hp.lifted, m3.lifted, grand, h.reads, hp.reads, hg.reads, hcu, hucol, hpld, hpld.symm,
    e1, m1.reads, m1p.reads, e2, m2.reads, m2p.reads, m2g.reads, hcu2, e3, m3.reads, m3d.reads,
    m3p.reads, e4]

set_option maxHeartbeats 1600000 in
theorem fixLog_rotate_LR {t : Tree K V} {rest : List (Frame K V)} {d p ga : Nat} {cg : Color}
    {l r ps u : Shape K V} {k kp kg : K} {v vp vg : V} (fuel : Nat)
    (h : Models t (plug (Frame.L p Color.RED kp vp ps :: Frame.R ga cg u kg vg :: rest)
      (Shape.node d Color.RED l k v r)))
    (hu : u.colour ≠ Color.RED) :
    ∃ t', fixLog (fuel + 1) t (some d)
        = Res.ok (t', Event.call (some d) :: rotateLog (Frame.L p Color.RED kp vp ps) (Frame.R ga cg u kg vg) d)
      ∧ Models t' (plug rest (Shape.node d Color.BLACK (Shape.node ga Color.RED u kg vg l) k v
          (Shape.node p Color.RED r kp vp ps)))
      ∧ t'.cmp = t.cmp ∧ t'.counter = t.counter := by
  have hp : Models t (plug (Frame.R ga cg u kg vg :: rest)
      (Shape.node p Color.RED (Shape.node d Color.RED l k v r) kp vp ps)) := h
  have hg : Models t (plug rest (Shape.node ga cg u kg vg
      (Shape.node p Color.RED (Shape.node d Color.RED l k v r) kp vp ps))) := h
  have hcu := GetColor_ptr hp.sibling_rep
  simp only [Frame.sibling] at hcu
  have hcnt := fun a => h.counts a
  simp only [ctxBefore, ctxAfter, List.count_append, List.count_cons, List.count_nil,
    Shape.addrs, beq_iff_eq] at hcnt
  have hud : u.ptr ≠ some d := by
    apply ptr_ne_of_not_mem; rw [mem_iff_count]
    have := hcnt d; simp only [↓reduceIte] at this; omega
  have hucol : u.colour = Color.BLACK := by
    cases hc : u.colour
    · exact absurd hc hu
    · rfl
  obtain ⟨t1, e1, m1, f1⟩ := RotateRight_spec hp
  have m1p : Models t1 (plug (Frame.R d Color.RED l k v :: Frame.R ga cg u kg vg :: rest)
      (Shape.node p Color.RED r kp vp ps)) := m1
  have m1g : Models t1 (plug rest (Shape.node ga cg u kg vg
      (Shape.node d Color.RED l k v (Shape.node p Color.RED r kp vp ps)))) := m1
  obtain ⟨t2, e2, m2, f2, -⟩ := setColor_spec m1 Color.BLACK
  have m2p : Models t2 (plug (Frame.R d Color.BLACK l k v :: Frame.R ga cg u kg vg :: rest)
      (Shape.node p Color.RED r kp vp ps)) := m2
  have m2g : Models t2 (plug rest (Shape.node ga cg u kg vg
      (Shape.node d Color.BLACK l k v (Shape.node p Color.RED r kp vp ps)))) := m2
  have hcu2 := GetColor_ptr m2.sibling_rep
  simp only [Frame.sibling] at hcu2
  obtain ⟨t3, e3, m3, f3, -⟩ := setColor_spec m2g Color.RED
  have m3d : Models t3 (plug (Frame.R ga Color.RED u kg vg :: rest)
      (Shape.node d Color.BLACK l k v (Shape.node p Color.RED r kp vp ps))) := m3
  have m3p : Models t3 (plug (Frame.R d Color.BLACK l k v :: Frame.R ga Color.RED u kg vg :: rest)
      (Shape.node p Color.RED r kp vp ps)) := m3
  obtain ⟨t4, e4, m4, f4⟩ := RotateLeft_spec m3
  refine ⟨t4, ?_, m4, f4.1.trans (f3.1.trans (f2.1.trans f1.1)),
    f4.2.1.trans (f3.2.1.trans (f2.2.1.trans f1.2.1))⟩
  simp [fixLog, rotateLog, hp.lifted, m3.lifted, grand, h.reads, hp.reads, hg.reads, hcu, hucol, hud, hud.symm,
    e1, m1.reads, m1p.reads, m1g.reads, e2, m2.reads, m2p.reads, m2g.reads, hcu2, e3, m3.reads,
    m3d.reads, m3p.reads, e4]

set_option maxHeartbeats 1600000 in
theorem fixLog_recolor {t : Tree K V} {f g : Frame K V} {rest : List (Frame K V)} {d : Nat}
    {l r : Shape K V} {k : K} {v : V} (fuel : Nat)
    (h : Models t (plug (f :: g :: rest) (Shape.node d Color.RED l k v r)))
    (hf : f.colour = Color.RED) (hu : g.sibling.colour = Color.RED) :
    ∃ t2, Models t2 (plug (g.paintSibling Color.BLACK :: rest)
          ((f.paint Color.BLACK).fill (Shape.node d Color.RED l k v r)))
      ∧ t2.cmp = t.cmp ∧ t2.counter = t.counter
      ∧ (rest = [] → fixLog (fuel + 1) t (some d)
          = Res.ok (t2, [Event.call (some d), Event.caseA]))
      ∧ (rest ≠ [] → ∃ t3, Models t3 (plug ((g.paint Color.RED).paintSibling Color.BLACK :: rest)
              ((f.paint Color.BLACK).fill (Shape.node d Color.RED l k v r)))
          ∧ t3.cmp = t.cmp ∧ t3.counter = t.counter
          ∧ fixLog (fuel + 1) t (some d) = (fixLog fuel t3 (some g.addr) >>= fun r =>
              Res.ok (r.1, Event.call (some d) :: Event.caseA :: r.2))) := by
  cases g with
  | L ga cg kg vg u =>
    have hp : Models t (plug (Frame.L ga cg kg vg u :: rest) (f.fill (Shape.node d Color.RED l k v r))) := h
    have hcu := GetColor_ptr hp.sibling_rep
    rw [hu] at hcu
    obtain ⟨t1, e1, m1, c1, n1, -⟩ := setColor_frame h Color.BLACK
    have m1p : Models t1 (plug (Frame.L ga cg kg vg u :: rest)
        ((f.paint Color.BLACK).fill (Shape.node d Color.RED l k v r))) := m1
    obtain ⟨t2, e2, m2, c2, n2, -⟩ := setColor_sibling m1p hu Color.BLACK
    have m1d : Models t1 (plug (f.paint Color.BLACK :: Frame.L ga cg kg vg u :: rest)
        (Shape.node d Color.RED l k v r)) := m1
    have m2d : Models t2 (plug (f.paint Color.BLACK :: (Frame.L ga cg kg vg u).paintSibling Color.BLACK :: rest)
        (Shape.node d Color.RED l k v r)) := m2
    have r0 := h.reads
    have r0p := h.reads_frame
    have r0g := hp.reads_frame
    have r1 := m1d.reads
    have r1p := m1d.reads_frame
    have r2 := m2d.reads
    have r2p := m2d.reads_frame
    have hg : Models t (plug rest (Shape.node ga cg (f.fill (Shape.node d Color.RED l k v r)) kg vg u)) := h
    have m1g : Models t1 (plug rest (Shape.node ga cg ((f.paint Color.BLACK).fill (Shape.node d Color.RED l k v r)) kg vg u)) := m1
    have r0g := hg.reads
    have r1g := m1g.reads
    simp only [addr_paint, addr_paintSibling, ctxPtr_cons, hf, Frame.sibling, addr_L, ptr_fill,
      Frame.paintSibling] at r0 r0p r1 r1p r2 r2p r0g r1g hcu e1 e2
    refine ⟨t2, m2, c2.trans c1, n2.trans n1, ?_, ?_⟩
    · intro hrest
      subst hrest
      have hroot := m2.root_single
      simp only [addr_paintSibling, addr_L] at hroot
      simp [fixLog, grand, r0, r0p, r0g, hcu, e1, r1, r1p, r1g, e2, r2, r2p, hroot]
    · intro hrest
      obtain ⟨h0, rest1, rfl⟩ := List.exists_cons_of_ne_nil hrest
      have hroot := m2.root_ne
      simp only [addr_paintSibling, addr_L] at hroot
      obtain ⟨t3, e3, m3, c3, n3, -⟩ := setColor_frame m2 Color.RED
      rw [paint_paintSibling] at m3
      have m3d : Models t3 (plug (f.paint Color.BLACK ::
          ((Frame.L ga cg kg vg u).paint Color.RED).paintSibling Color.BLACK :: h0 :: rest1)
          (Shape.node d Color.RED l k v r)) := m3
      have r3 := m3d.reads
      have r3p := m3d.reads_frame
      simp only [addr_paint, addr_paintSibling, ctxPtr_cons, addr_L] at r3 r3p e3
      refine ⟨t3, m3, c3.trans (c2.trans c1), n3.trans (n2.trans n1), ?_⟩
      simp [fixLog, grand, r0, r0p, r0g, hcu, e1, r1, r1p, r1g, e2, r2, r2p, hroot,
        hroot.symm, e3, r3, r3p]
  | R ga cg u kg vg =>
    have hp : Models t (plug (Frame.R ga cg u kg vg :: rest) (f.fill (Shape.node d Color.RED l k v r))) := h
    have hcu := GetColor_ptr hp.sibling_rep
    rw [hu] at hcu
    obtain ⟨t1, e1, m1, c1, n1, -⟩ := setColor_sibling hp hu Color.BLACK
    have m1d : Models t1 (plug (f :: (Frame.R ga cg u kg vg).paintSibling Color.BLACK :: rest)
        (Shape.node d Color.RED l k v r)) := m1
    obtain ⟨t2, e2, m2, c2, n2, -⟩ := setColor_frame m1d Color.BLACK
    have m2 : Models t2 (plug ((Frame.R ga cg u kg vg).paintSibling Color.BLACK :: rest)
        ((f.paint Color.BLACK).fill (Shape.node d Color.RED l k v r))) := m2
    have m2d : Models t2 (plug (f.paint Color.BLACK :: (Frame.R ga cg u kg vg).paintSibling Color.BLACK :: rest)
        (Shape.node d Color.RED l k v r)) := m2
    have r0 := h.reads
    have r0p := h.reads_frame
    have r0g := hp.reads_frame
    have r1 := m1d.reads
    have r1p := m1d.reads_frame
    have r2 := m2d.reads
    have r2p := m2d.reads_frame
    have hg : Models t (plug rest (Shape.node ga cg u kg vg (f.fill (Shape.node d Color.RED l k v r)))) := h
    have m1g : Models t1 (plug rest (Shape.node ga cg (u.paint Color.BLACK) kg vg (f.fill (Shape.node d Color.RED l k v r)))) := m1
    have r0g := hg.reads
    have r1g := m1g.reads
    simp only [addr_paint, addr_paintSibling, ctxPtr_cons, hf, Frame.sibling, addr_R, ptr_fill,
      Frame.paintSibling] at r0 r0p r1 r1p r2 r2p r0g r1g hcu e1 e2
    refine ⟨t2, m2, c2.trans c1, n2.trans n1, ?_, ?_⟩
    · intro hrest
      subst hrest
      have hroot := m2.root_single
      simp only [addr_paintSibling, addr_R] at hroot
      simp [fixLog, grand, r0, r0p, r0g, hcu, e1, r1, r1p, r1g, e2, r2, r2p, hroot]
    · intro hrest
      obtain ⟨h0, rest1, rfl⟩ := List.exists_cons_of_ne_nil hrest
      have hroot := m2.root_ne
      simp only [addr_paintSibling, addr_R] at hroot
      obtain ⟨t3, e3, m3, c3, n3, -⟩ := setColor_frame m2 Color.RED
      rw [paint_paintSibling] at m3
      have m3d : Models t3 (plug (f.paint Color.BLACK ::
          ((Frame.R ga cg u kg vg).paint Color.RED).paintSibling Color.BLACK :: h0 :: rest1)
          (Shape.node d Color.RED l k v r)) := m3
      have r3 := m3d.reads
      have r3p := m3d.reads_frame
      simp only [addr_paint, addr_paintSibling, ctxPtr_cons, addr_R] at r3 r3p e3
      refine ⟨t3, m3, c3.trans (c2.trans c1), n3.trans (n2.trans n1), ?_⟩
      simp [fixLog, grand, r0, r0p, r0g, hcu, e1, r1, r1p, r1g, e2, r2, r2p, hroot,
        hroot.symm, e3, r3, r3p]

theorem fixLogA_red (f g : Frame K V) (rest : List (Frame K V)) (d : Nat) :
    fixLogA (f :: g :: rest) d
      = if f.colour ≠ Color.RED then [Event.call (some d)]
        else if g.sibling.colour = Color.RED then
          match rest with
          | [] => [Event.call (some d), Event.caseA]
          | h :: rest1 => Event.call (some d) :: Event.caseA :: fixLogA (h :: rest1) g.addr
        else Event.call (some d) :: rotateLog f g d := by
  cases rest <;> simp only [fixLogA]

theorem recolor_node (f g : Frame K V) (s : Shape K V) :
    ∃ l k v r, ((g.paint Color.RED).paintSibling Color.BLACK).fill ((f.paint Color.BLACK).fill s)
      = Shape.node g.addr Color.RED l k v r := by
  cases g <;> exact ⟨_, _, _, _, rfl⟩

/-- On a tree with consistent links, `fixLog` called on a RED cell does what
`fixA` does on shapes and records `fixLogA`; a recursion budget of more than
half the depth of the cell is enough. -/
theorem fixLog_sim : ∀ (fuel : Nat) (ctx : List (Frame K V)) (d : Nat) (l : Shape K V) (k : K)
    (v : V) (r : Shape K V) (t : Tree K V) (res : Shape K V),
    Models t (plug ctx (Shape.node d Color.RED l k v r)) → ctx.length < 2 * fuel →
    fixA ctx (Shape.node d Color.RED l k v r) = Res.ok res →
    ∃ t', fixLog fuel t (some d) = Res.ok (t', fixLogA ctx d) ∧ Models t' res
      ∧ t'.cmp = t.cmp ∧ t'.counter = t.counter := by
  intro fuel
  induction fuel with
  | zero => intro ctx d l k v r t res _ hlen; simp at hlen
  | succ fuel ih =>
    intro ctx d l k v r t res h hlen hres
    match ctx, h, hlen, hres with
    | [], h, hlen, hres => simp [fixA] at hres
    | [f], h, hlen, hres =>
      simp only [fixA] at hres
      split at hres
      · simp at hres
      · rename_i hf
        simp only [Res.ok.injEq] at hres
        subst hres
        have hne : Color.RED ≠ f.colour := fun e => hf e.symm
        exact ⟨t, by simp [fixLog, fixLogA, h.reads, h.reads_frame, hne], h, rfl, rfl⟩
    | f :: g :: rest, h, hlen, hres =>
      rw [fixA_red] at hres
      rw [fixLogA_red]
      split at hres
      · rename_i hf
        simp only [Res.ok.injEq] at hres
        subst hres
        have hne : Color.RED ≠ f.colour := fun e => hf e.symm
        rw [if_pos hf]
        exact ⟨t, by simp [fixLog, h.reads, h.reads_frame, hne], h, rfl, rfl⟩
      · rename_i hf
        rw [if_neg hf]
        have hf : f.colour = Color.RED := by
          cases hc : f.colour
          · rfl
          · rw [hc] at hf; simp at hf
        split at hres
        · rename_i hu
          rw [if_pos hu]
          obtain ⟨t2, m2, c2, n2, hnil, hcons⟩ := fixLog_recolor fuel h hf hu
          cases rest with
          | nil =>
            simp only [Res.ok.injEq] at hres
            subst hres
            exact ⟨t2, hnil rfl, m2, c2, n2⟩
          | cons h0 rest1 =>
            obtain ⟨t3, m3, c3, n3, e3⟩ := hcons (by simp)
            simp only at hres
            obtain ⟨l', k', v', r', hshape⟩ :=
              recolor_node f g (Shape.node d Color.RED l k v r)
            have m3' : Models t3 (plug (h0 :: rest1) (Shape.node g.addr Color.RED l' k' v' r')) := by
              rw [← hshape]; exact m3
            rw [hshape] at hres
            have hl : (h0 :: rest1).length < 2 * fuel := by
              simp only [List.length_cons] at hlen ⊢; omega
            obtain ⟨t', e', m', c', n'⟩ := ih _ _ _ _ _ _ t3 res m3' hl hres
            refine ⟨t', ?_, m', c'.trans c3, n'.trans n3⟩
            rw [e3, e']
            rfl
        · rename_i hu
          rw [if_neg hu]
          simp only [Res.ok.injEq] at hres
          subst hres
          cases f with
          | L p cp kp vp ps =>
            simp only [Frame.colour] at hf
            subst hf
            cases g with
            | L ga cg kg vg u => exact fixLog_rotate_LL fuel h hu
            | R ga cg u kg vg => exact fixLog_rotate_LR fuel h hu
          | R p cp pl kp vp =>
            simp only [Frame.colour] at hf
            subst hf
            cases g with
            | L ga cg kg vg u => exact fixLog_rotate_RL fuel h hu
            | R ga cg u kg vg => exact fixLog_rotate_RR fuel h hu

/-! ## What `fix` records -/

theorem rotateLog_regular (f g : Frame K V) (d : Nat) : ∀ e ∈ rotateLog f g d, e.regular := by
  cases f <;> cases g <;> simp [rotateLog, Event.regular]

theorem fixLogA_regular : ∀ (ctx : List (Frame K V)) (d : Nat), ∀ e ∈ fixLogA ctx d, e.regular
  | [], d => by simp [fixLogA, Event.regular]
  | [f], d => by simp [fixLogA, Event.regular]
  | f :: g :: rest, d => by
    have ih := fixLogA_regular rest g.addr
    rw [fixLogA_red]
    split
    · simp [Event.regular]
    · split
      · cases rest with
        | nil => simp [Event.regular]
        | cons h rest1 =>
          intro e he
          simp only [List.mem_cons] at he
          rcases he with rfl | rfl | he
          · trivial
          · trivial
          · exact ih e he
      · intro e he
        simp only [List.mem_cons] at he
        rcases he with rfl | he
        · trivial
        · exact rotateLog_regular f g d e he

theorem calls_rotateLog (f g : Frame K V) (d : Nat) : calls (rotateLog f g d) = [] := by
  cases f <;> cases g <;> rfl

theorem grandChain_cons (f g : Frame K V) (rest : List (Frame K V)) (d : Nat) :
    grandChain (f :: g :: rest) d = some d :: grandChain rest g.addr := by
  simp only [grandChain]

/-- The recorded calls go up the chain of grandparents. -/
theorem fixLogA_calls : ∀ (ctx : List (Frame K V)) (d : Nat),
    calls (fixLogA ctx d) <+: grandChain ctx d
  | [], d => by simp [fixLogA, calls, grandChain]
  | [f], d => by simp [fixLogA, calls, grandChain]
  | f :: g :: rest, d => by
    have ih := fixLogA_calls rest g.addr
    rw [fixLogA_red, grandChain_cons]
    split
    · simp [calls]
    · split
      · cases rest with
        | nil => simp [calls]
        | cons h rest1 =>
          simp only [calls]
          exact (List.prefix_cons_inj _).2 ih
      · simp [calls, calls_rotateLog]

theorem grandChain_length : ∀ (ctx : List (Frame K V)) (d : Nat),
    (grandChain ctx d).length = ctx.length / 2 + 1
  | [], d => by simp [grandChain]
  | [f], d => by simp [grandChain]
  | f :: g :: rest, d => by
    rw [grandChain_cons, List.length_cons, grandChain_length rest g.addr]
    simp only [List.length_cons]
    omega

theorem fixLogA_ne_nil (ctx : List (Frame K V)) (d : Nat) : fixLogA ctx d ≠ [] := by
  match ctx with
  | [] => simp [fixLogA]
  | [f] => simp [fixLogA]
  | f :: g :: rest =>
    rw [fixLogA_red]
    split
    · simp
    · split
      · cases rest <;> simp
      · simp

/-- A recorded rotation of the grandparent is the last step. -/
theorem fixLogA_rotate_last : ∀ (ctx : List (Frame K V)) (d : Nat) (dir : Direction)
    (x c : Ptr), Event.rotate dir x c ∈ fixLogA ctx d →
    (fixLogA ctx d).getLast? = some (Event.rotate dir x c)
  | [], d, dir, x, c => by simp [fixLogA]
  | [f], d, dir, x, c => by simp [fixLogA]
  | f :: g :: rest, d, dir, x, c => by
    have ih := fixLogA_rotate_last rest g.addr dir x c
    rw [fixLogA_red]
    split
    · simp
    · split
      · cases rest with
        | nil => simp
        | cons h rest1 =>
          intro hm
          simp only [List.mem_cons, reduceCtorEq, false_or] at hm
          have hne := fixLogA_ne_nil (h :: rest1) g.addr
          obtain ⟨e0, l0, hl0⟩ := List.exists_cons_of_ne_nil hne
          simp only at ih ⊢
          rw [hl0] at ih hm ⊢
          rw [List.getLast?_cons_cons, List.getLast?_cons_cons]
          exact ih hm
      · cases f <;> cases g <;> simp [rotateLog] <;> intro h1 h2 h3 <;> simp [h1, h2, h3]

/-! ## The steps of `fix` inside `Put` -/

theorem fix_of_fixLog {fuel : Nat} {t t' : Tree K V} {d : Ptr} {log : List Event}
    (h : fixLog fuel t d = Res.ok (t', log)) : fix fuel t d = Res.ok t' := by
  rw [← fixLog_state, h]
  rfl

theorem height_plug (ctx : List (Frame K V)) (s : Shape K V) :
    ctx.length + s.height ≤ (plug ctx s).height := by
  induction ctx generalizing s with
  | nil => simp [plug]
  | cons f rest ih =>
    have := ih (f.fill s)
    rw [plug_cons]
    have h2 : s.height + 1 ≤ (f.fill s).height := by
      cases f <;> simp only [Frame.fill, Shape.height] <;> omega
    simp only [List.length_cons]
    omega

theorem fixLogA_caseC : ∀ (ctx : List (Frame K V)) (d : Nat) (cl cr : Color),
    Event.caseC cl cr ∈ fixLogA ctx d → ∃ dir g c, Event.rotate dir g c ∈ fixLogA ctx d
  | [], d, cl, cr => by simp [fixLogA]
  | [f], d, cl, cr => by simp [fixLogA]
  | f :: g :: rest, d, cl, cr => by
    have ih := fixLogA_caseC rest g.addr cl cr
    rw [fixLogA_red]
    split
    · simp
    · split
      · cases rest with
        | nil => simp
        | cons h rest1 =>
          intro hm
          simp only [List.mem_cons, reduceCtorEq, false_or] at hm
          obtain ⟨dir, x, c, hx⟩ := ih hm
          exact ⟨dir, x, c, by simp [hx]⟩
      · intro _
        cases f <;> cases g <;> simp [rotateLog]

/-- When `InnerPut` on a red-black tree with consistent links asks for the
fix-up, `fix` runs on the new RED leaf below the path of the search, records
`fixLogA` of that path, and `Put` completes with its result. -/
theorem Put_log {t : Tree K V} {s : Shape K V} (h : Models t s)
    (hrb : s.colour = Color.BLACK ∧ s.noRedRed ∧ s.balanced) (key : K) (data : V)
    {t1 : Tree K V} {n : Ptr} (hin : InnerPut t key data = Res.ok (t1, n, true)) :
    ∃ ctx t2 res, ctx ≠ [] ∧ n = some t.mem.length
      ∧ Models t1 (plug ctx (Shape.node t.mem.length Color.RED Shape.nil key data Shape.nil))
      ∧ fixLog (budget t1) t1 n = Res.ok (t2, fixLogA ctx t.mem.length)
      ∧ Put t key data = Res.ok (t2, none)
      ∧ Models t2 res ∧ (res.colour = Color.BLACK ∧ res.noRedRed ∧ res.balanced) := by
  cases s with
  | nil =>
    obtain ⟨t', e, -⟩ := InnerPut_empty h key data
    rw [e] at hin
    simp at hin
  | node a0 c0 l0 k0 v0 r0 =>
    have hlen := locate_length t.cmp key (Shape.node a0 c0 l0 k0 v0 r0) []
    have hp := locate_plug t.cmp key (Shape.node a0 c0 l0 k0 v0 r0) []
    generalize hl : locate t.cmp key (Shape.node a0 c0 l0 k0 v0 r0) [] = lr at hlen hp
    obtain ⟨ctx, s1⟩ := lr
    simp only at hp hlen
    cases s1 with
    | node b c l k v r =>
      cases ctx with
      | nil =>
        have := InnerPut_found_root h key data rfl (by rw [hl]) (by rw [hl]; rfl)
        rw [this] at hin
        simp at hin
      | cons f rest =>
        obtain ⟨t', e, -⟩ := InnerPut_found h key data hl
        rw [e] at hin
        simp at hin
    | nil =>
      cases ctx with
      | nil =>
        have := hlen.2 rfl rfl
        simp at this
      | cons f rest =>
        obtain ⟨t', e1, m1, c1, n1⟩ := InnerPut_new h key data hl
        rw [e1] at hin
        simp only [Res.ok.injEq, Prod.mk.injEq, and_true] at hin
        obtain ⟨rfl, rfl⟩ := hin
        have hp' : plug (f :: rest) Shape.nil = Shape.node a0 c0 l0 k0 v0 r0 := hp
        rw [← hp'] at hrb
        obtain ⟨i1, -, -, -⟩ := redBlack_plug (f :: rest) Shape.nil hrb.1 hrb.2.1 hrb.2.2
        obtain ⟨res, hres, hrb'⟩ := fixA_redBlack (f :: rest).length (f :: rest) (le_refl _)
          (by simp) t.mem.length Shape.nil key data Shape.nil 0 i1
          trivial trivial rfl rfl trivial trivial rfl rfl
        have hb : (f :: rest).length < 2 * budget t' := by
          have h1 := m1.size_le
          have h2 := ctx_length_le (f :: rest)
            (Shape.node t.mem.length Color.RED Shape.nil key data Shape.nil)
          simp only [Shape.addrs, List.length_append, List.length_cons, List.length_nil] at h2
          simp only [budget, List.length_cons] at h1 h2 ⊢
          omega
        obtain ⟨t2, e2, m2, -, -⟩ := fixLog_sim (budget t') _ _ _ _ _ _ t' res m1 hb hres
        refine ⟨f :: rest, t2, res, by simp, rfl, m1, e2, ?_, m2, hrb'⟩
        have e3 := fix_of_fixLog e2
        simp [Put, checkKey, e1, e3]

theorem redBlack_leaf (a : Nat) (key : K) (data : V) :
    (Shape.node a Color.BLACK Shape.nil key data Shape.nil).RedBlack :=
  (redBlack_iff _).2 ⟨rfl, ⟨fun _ => ⟨rfl, rfl⟩, trivial, trivial⟩, ⟨rfl, trivial, trivial⟩⟩

theorem demoShape_redBlack : demoShape.RedBlack :=
  (redBlack_iff _).2 ⟨rfl, by simp [demoShape, Shape.noRedRed, Shape.colour],
    by simp [demoShape, Shape.balanced, Shape.bh]⟩

set_option maxRecDepth 100000 in
theorem demo_innerPut : InnerPut demoTree 5 50 = Res.ok (conflictTree, some 3, true) := by
  rfl

set_option maxRecDepth 100000 in
theorem zig_putAll : PutAll (NewTree cmpInt) [(7, 70), (3, 30)] = Res.ok zigTree := by
  rfl

set_option maxRecDepth 100000 in
theorem zig_innerPut : InnerPut zigTree 5 50 = Res.ok (zigTreeRaw, some 2, true) := by
  rfl

set_option maxRecDepth 100000 in
theorem zig_fixLog : fixLog (budget zigTreeRaw) zigTreeRaw (some 2)
    = Res.ok (zigTreeFixed, [Event.call (some 2),
        Event.caseB Direction.LEFT (some 1) (some 2),
        Event.caseC Color.BLACK Color.BLACK,
        Event.rotate Direction.RIGHT (some 0) (some 2)]) := by
  rfl

theorem conflict_models : Models conflictTree
    (plug conflictPath (Shape.node 3 Color.RED Shape.nil 5 50 Shape.nil)) := by
  refine ⟨rfl, ?_, by decide⟩
  simp [conflictTree, conflictPath, plug, Frame.fill, Rep]

theorem conflict_ctxOK : ctxOK conflictPath 0 := by
  simp [conflictPath, ctxOK, Frame.sibling, Frame.colour, Shape.balanced, Shape.bh,
    Shape.noRedRed, Shape.colour, parentBlack]

/-- C14. On every tree with consistent links that satisfies the red-black
invariants, `Put` of a key that no key of the tree equals completes without
panic (no absent node is dereferenced: every `d.parent` and `d.parent.parent`
that `fix` reads is a cell) and leaves a red-black tree with consistent links;
every rotation that `fix` requests, in Case B and in Case C, is on a cell whose
child to be lifted is present. -/
theorem put_runs_safely (t : Tree K V) (s : Shape K V) (key : K) (data : V) (h : Models t s)
    (hrb : s.RedBlack) (hk : ∀ kv ∈ s.items, t.cmp key kv.1 ≠ 0) :
    ∃ t' s', Put t key data = Res.ok (t', none) ∧ Models t' s' ∧ s'.RedBlack
      ∧ ∃ t1 n needfix, InnerPut t key data = Res.ok (t1, n, needfix)
        ∧ (needfix = false → t' = t1)
        ∧ (needfix = true → ∃ log, fixLog (budget t1) t1 n = Res.ok (t', log)
            ∧ fix (budget t1) t1 n = Res.ok t'
            ∧ (∀ dir p c, Event.caseB dir p c ∈ log → p ≠ none ∧ c ≠ none)
            ∧ (∀ dir g c, Event.rotate dir g c ∈ log → g ≠ none ∧ c ≠ none)) := by
  have hrb' := (redBlack_iff s).1 hrb
  cases s with
  | nil =>
    obtain ⟨t1, e, m, -⟩ := InnerPut_empty h key data
    refine ⟨t1, _, by simp [Put, checkKey, e], m, redBlack_leaf _ _ _, t1, _, false, e,
      fun _ => rfl, fun hf => by simp at hf⟩
  | node a0 c0 l0 k0 v0 r0 =>
    obtain ⟨f, rest, hl⟩ := locate_absent t.cmp key (Shape.node a0 c0 l0 k0 v0 r0) rfl hk
    obtain ⟨t1, e1, -⟩ := InnerPut_new h key data hl
    obtain ⟨ctx, t2, res, -, -, -, e2, e3, m2, hres⟩ := Put_log h hrb' key data e1
    refine ⟨t2, res, e3, m2, (redBlack_iff _).2 hres, t1, _, true, e1,
      fun hf => by simp at hf, fun _ => ⟨_, e2, fix_of_fixLog e2, ?_, ?_⟩⟩
    · intro dir p c hm
      exact fixLogA_regular _ _ _ hm
    · intro dir g c hm
      exact fixLogA_regular _ _ _ hm

/-- Witness of C14: `Put` of key 5 into the demo tree. -/
theorem put_runs_safely_witness :
    Models demoTree demoShape ∧ demoShape.RedBlack
      ∧ (∀ kv ∈ demoShape.items, demoTree.cmp 5 kv.1 ≠ 0)
      ∧ ∃ t' s', Put demoTree 5 50 = Res.ok (t', none) ∧ Models t' s' ∧ s'.RedBlack
        ∧ ∃ t1 n needfix, InnerPut demoTree 5 50 = Res.ok (t1, n, needfix)
          ∧ (needfix = false → t' = t1)
          ∧ (needfix = true → ∃ log, fixLog (budget t1) t1 n = Res.ok (t', log)
              ∧ fix (budget t1) t1 n = Res.ok t'
              ∧ (∀ dir p c, Event.caseB dir p c ∈ log → p ≠ none ∧ c ≠ none)
              ∧ (∀ dir g c, Event.rotate dir g c ∈ log → g ≠ none ∧ c ≠ none)) :=
  ⟨demo_models, demoShape_redBlack, by decide,
    put_runs_safely demoTree demoShape 5 50 demo_models demoShape_redBlack (by decide)⟩

/-- C19, as stated, fails: there is no tree reachable by `Put` calls and no key
for which the `fix` of a following `Put` compares different colours in Case C or
takes the branch that recolours the uncle. -/
theorem recolour_uncle_unreachable :
    ¬ ∃ (Key Val : Type) (cmp : Key → Key → Int) (ops : List (Key × Val)) (t : Tree Key Val)
        (key : Key) (data : Val) (t1 : Tree Key Val) (n : Ptr) (t2 : Tree Key Val)
        (log : List Event),
      PutAll (NewTree cmp) ops = Res.ok t ∧ InnerPut t key data = Res.ok (t1, n, true)
        ∧ fixLog (budget t1) t1 n = Res.ok (t2, log)
        ∧ (Event.uncleRed ∈ log ∨ ∃ cl cr, Event.caseC cl cr ∈ log ∧ cl ≠ cr) := by
  rintro ⟨Key, Val, cmp, ops, t, key, data, t1, n, t2, log, hput, hin, hlog, hbad⟩
  obtain ⟨s, m, hrb, -⟩ := PutAll_redBlack ops _ t Shape.nil (Models.newTree cmp)
    redBlack_nil hput
  obtain ⟨ctx, t2', res, -, -, -, e2, -⟩ := Put_log m hrb key data hin
  rw [hlog] at e2
  simp only [Res.ok.injEq, Prod.mk.injEq] at e2
  obtain ⟨-, rfl⟩ := e2
  rcases hbad with hu | ⟨cl, cr, hc, hne⟩
  · exact fixLogA_regular _ _ _ hu
  · obtain ⟨h1, h2⟩ := fixLogA_regular _ _ _ hc
    exact hne (h1.trans h2.symm)

/-- C19, amended: for every tree reachable by `Put` calls and every key whose
`Put` into it runs `fix`, the branch of Case C that recolours the uncle is never
taken: whenever `fix` reaches the colour comparison of Case C, both children of
the grandparent are BLACK, and `fix` ends with the rotation of the grandparent.
The comparison is reached after a Case B rotation, for instance, by `Put` of 5
after 7 and 3. -/
theorem case_c_always_rotates (cmp : K → K → Int) (ops : List (K × V)) (t : Tree K V)
    (key : K) (data : V) (t1 : Tree K V) (n : Ptr)
    (hput : PutAll (NewTree cmp) ops = Res.ok t)
    (hin : InnerPut t key data = Res.ok (t1, n, true)) :
    (∃ t2 log, fixLog (budget t1) t1 n = Res.ok (t2, log)
      ∧ Put t key data = Res.ok (t2, none)
      ∧ Event.uncleRed ∉ log
      ∧ ∀ cl cr, Event.caseC cl cr ∈ log →
          cl = Color.BLACK ∧ cr = Color.BLACK
            ∧ ∃ dir g c, log.getLast? = some (Event.rotate dir g c))
    ∧ (PutAll (NewTree cmpInt) [(7, 70), (3, 30)] = Res.ok zigTree
      ∧ InnerPut zigTree 5 50 = Res.ok (zigTreeRaw, some 2, true)
      ∧ fixLog (budget zigTreeRaw) zigTreeRaw (some 2)
          = Res.ok (zigTreeFixed, [Event.call (some 2),
              Event.caseB Direction.LEFT (some 1) (some 2),
              Event.caseC Color.BLACK Color.BLACK,
              Event.rotate Direction.RIGHT (some 0) (some 2)])) := by
  refine ⟨?_, zig_putAll, zig_innerPut, zig_fixLog⟩
  obtain ⟨s, m, hrb, -⟩ := PutAll_redBlack ops _ t Shape.nil (Models.newTree cmp)
    redBlack_nil hput
  obtain ⟨ctx, t2, res, -, -, -, e2, e3, -⟩ := Put_log m hrb key data hin
  refine ⟨t2, _, e2, e3, fun hu => fixLogA_regular _ _ _ hu, ?_⟩
  intro cl cr hc
  obtain ⟨h1, h2⟩ := fixLogA_regular _ _ _ hc
  obtain ⟨dir, g, c, hr⟩ := fixLogA_caseC _ _ _ _ hc
  exact ⟨h1, h2, dir, g, c, fixLogA_rotate_last _ _ _ _ _ hr⟩

/-- Witness of C19 (amended): `Put` of key 5 into the demo tree. -/
theorem case_c_always_rotates_witness :
    PutAll (NewTree cmpInt) demoOps = Res.ok demoTree
      ∧ InnerPut demoTree 5 50 = Res.ok (conflictTree, some 3, true)
      ∧ ∃ t2 log, fixLog (budget conflictTree) conflictTree (some 3) = Res.ok (t2, log)
        ∧ Put demoTree 5 50 = Res.ok (t2, none)
        ∧ Event.uncleRed ∉ log
        ∧ ∀ cl cr, Event.caseC cl cr ∈ log →
            cl = Color.BLACK ∧ cr = Color.BLACK
              ∧ ∃ dir g c, log.getLast? = some (Event.rotate dir g c) :=
  ⟨demo_putAll, demo_innerPut,
    (case_c_always_rotates cmpInt demoOps demoTree 5 50 conflictTree (some 3) demo_putAll
      demo_innerPut).1⟩

/-- C20. `fix(d)` terminates on every tree with consistent links that satisfies
the red-black invariants apart from a red-red conflict at `d`: with a recursion
budget of more than half the depth of `d` it returns (for every such budget with
the same record), and leaves a red-black tree.  The calls are made on `d`, its
grandparent, the grandparent of that one, ...; the number of recursive calls is
at most half the depth of `d`, which is less than the height; and when the
grandparent is rotated in Case C, that rotation is the last step. -/
theorem fix_terminates (t : Tree K V) (ctx : List (Frame K V)) (d : Nat) (l : Shape K V)
    (k : K) (v : V) (r : Shape K V) (m : Nat)
    (h : Models t (plug ctx (Shape.node d Color.RED l k v r))) (hne : ctx ≠ [])
    (hctx : ctxOK ctx m)
    (hl : l.balanced ∧ l.bh = m ∧ l.noRedRed ∧ l.colour = Color.BLACK)
    (hr : r.balanced ∧ r.bh = m ∧ r.noRedRed ∧ r.colour = Color.BLACK) :
    ∃ log, (∀ fuel, ctx.length < 2 * fuel →
        ∃ t' res, fixLog fuel t (some d) = Res.ok (t', log) ∧ fix fuel t (some d) = Res.ok t'
          ∧ Models t' res ∧ res.RedBlack)
      ∧ ctx.length < 2 * budget t
      ∧ calls log <+: grandChain ctx d
      ∧ (calls log).length - 1 ≤ ctx.length / 2
      ∧ ctx.length < (plug ctx (Shape.node d Color.RED l k v r)).height
      ∧ (∀ dir g c, Event.rotate dir g c ∈ log →
          log.getLast? = some (Event.rotate dir g c)) := by
  obtain ⟨res, hres, hrb⟩ := fixA_redBlack ctx.length ctx (le_refl _) hne d l k v r m hctx
    hl.1 hr.1 hl.2.1 hr.2.1 hl.2.2.1 hr.2.2.1 hl.2.2.2 hr.2.2.2
  refine ⟨fixLogA ctx d, ?_, ?_, fixLogA_calls ctx d, ?_, ?_, fixLogA_rotate_last ctx d⟩
  · intro fuel hfuel
    obtain ⟨t', e, m', -⟩ := fixLog_sim fuel ctx d l k v r t res h hfuel hres
    exact ⟨t', res, e, fix_of_fixLog e, m', (redBlack_iff _).2 hrb⟩
  · have h1 := h.size_le
    have h2 := ctx_length_le ctx (Shape.node d Color.RED l k v r)
    simp only [budget]
    omega
  · have h1 := (fixLogA_calls ctx d).length_le
    rw [grandChain_length] at h1
    omega
  · have := height_plug ctx (Shape.node d Color.RED l k v r)
    simp only [Shape.height] at this
    omega

/-- Witness of C20: `fix` on the new leaf of `conflictTree`. -/
theorem fix_terminates_witness :
    Models conflictTree (plug conflictPath (Shape.node 3 Color.RED Shape.nil 5 50 Shape.nil))
      ∧ conflictPath ≠ [] ∧ ctxOK conflictPath 0
      ∧ ∃ log, (∀ fuel, conflictPath.length < 2 * fuel →
          ∃ t' res, fixLog fuel conflictTree (some 3) = Res.ok (t', log)
            ∧ fix fuel conflictTree (some 3) = Res.ok t' ∧ Models t' res ∧ res.RedBlack)
        ∧ conflictPath.length < 2 * budget conflictTree
        ∧ calls log <+: grandChain conflictPath 3
        ∧ (calls log).length - 1 ≤ conflictPath.length / 2
        ∧ conflictPath.length
            < (plug conflictPath (Shape.node 3 Color.RED Shape.nil 5 50 Shape.nil)).height
        ∧ (∀ dir g c, Event.rotate dir g c ∈ log →
            log.getLast? = some (Event.rotate dir g c)) :=
  ⟨conflict_models, by simp [conflictPath], conflict_ctxOK,
    fix_terminates conflictTree conflictPath 3 Shape.nil 5 50 Shape.nil 0 conflict_models
      (by simp [conflictPath]) conflict_ctxOK ⟨trivial, rfl, trivial, rfl⟩ ⟨trivial, rfl, trivial, rfl⟩⟩

/-- `IntComparator` is exact whenever the difference fits in an `int`. -/
theorem intComparator_exact (a b : Int) (h1 : -(2 ^ 63) ≤ a - b) (h2 : a - b < 2 ^ 63) :
    IntComparator a b = a - b :=
  wrap64_id _ h1 h2

/-! ## Raw insertion of the root key again -/

/-- C16 (the code departs from the claim).  A run of `InnerPut` calls that
repeats the key of the root does not build the tree of ordinary insertion:
after `InnerPut 7`, a second `InnerPut 7` panics, because the search reports the
match at the root with a `nil` parent and `InnerPut` reads `parent.right`;
ordinary insertion gives the one-node tree holding the second payload.  The
first call alone completes, and a run that repeats the key of another node (the
steps 7, 3, 8, 18, 10, 8 of the test `innerPut`) completes and dumps as
`7(3)(8()(18(10)()))`. -/
theorem innerPut_root_key_panics :
    InnerPutAll (NewTree IntComparator) [((7 : Int), "data-7"), (7, "pay7")] = Res.panic
      ∧ [((7 : Int), "data-7"), (7, "pay7")].foldl
            (fun b kv => BST.insert IntComparator kv.1 kv.2 b) BST.leaf
          = BST.node BST.leaf 7 "pay7" BST.leaf
      ∧ (∃ t, InnerPutAll (NewTree IntComparator) [((7 : Int), "data-7")] = Res.ok t
          ∧ PreOrderString t (keyFormat t) = Res.ok "7")
      ∧ (∃ t, InnerPutAll (NewTree IntComparator) (innerPutOps ++ [(8, "pay8")]) = Res.ok t
          ∧ PreOrderString t (keyFormat t) = Res.ok "7(3)(8()(18(10)()))") := by
  refine ⟨by rfl, by rfl, ⟨_, by rfl, by rfl⟩, ⟨_, by rfl, by rfl⟩⟩

end GoRBTree
